import Mathlib

/-!
# FuseCloudDisk: the key-filtered passthrough filesystem (`example/passthrough.c`)

A shallow embedding of the path translator (`getnewpath`), the access policy
(`is_accessible`, `is_key_directory`), the operation dispatcher (`xmp_*`) and
the startup reconciliation (`remove_dir`, the loops of `main`).

Conventions of the embedding.

* A C string is the list of its characters before the terminating NUL
  (`CStr`); `strlen` is the length of that list.  A buffer is a list of
  characters of the allocated size; reading a buffer as a string stops at the
  first NUL (`bufString`).
* `strlen` results are stored in C `int`s.  Every string the program receives
  (command-line arguments, paths handed over by the kernel) is far shorter
  than `2^31`, so lengths are kept as natural numbers.
* `malloc` returns a block of the requested size with arbitrary contents and
  never fails.  A store past the end of a block has no defined behaviour.
  `main` gives `key_list` a block of `sizeof(int) * key_count + 1` bytes and
  stores `key_count` pointers in it; the sizes of `int` and of a pointer are
  parameters of the model (`Platform`).  The policy functions read `key_list`
  as the list of keys.
* The fixed arrays are modelled with their sizes: `dir_name[128]`,
  `tmppath[512]`, `key_check[100]`.  A write or read past one of them has no
  defined behaviour either; the model stops at such a step with
  `Res.undefined`.
* `main` is run on a command line with at least the mount point and the
  backing root (`argc` is 3 or more); the arguments after them are the keys.
* The backing store is a tree of named entries below the backing root.
  Native calls act on it as on a POSIX filesystem without permission failures
  or concurrent changes; `readdir` delivers `.`, `..` and then the entries as
  they were when the directory was opened.  `mkdir` resolves its path
  component by component and refuses a name longer than `NAME_MAX` (255
  bytes); a path that leaves the tree (by `..` above the backing root or
  through a symbolic link) is not followed, and the tree counts as no longer
  known from there on.
* `printf`, `perror` and `umask` have no effect on what is stated here and
  are left out.
-/

namespace FuseCloudDisk

/-! ## Strings and buffers -/

/-- A C string: its characters, without the terminating NUL. -/
abbrev CStr := List Char

/-- The terminator of C strings. -/
def NUL : Char := Char.ofNat 0

/-- The path separator. -/
def SEP : Char := '/'

/-- Well-formed C string contents never hold a NUL. -/
def NulFree (s : CStr) : Prop := NUL ∉ s

instance (s : CStr) : Decidable (NulFree s) := by
  unfold NulFree; infer_instance

/-- C `strlen`. -/
def strlen (s : CStr) : Nat := s.length

/-- The string held by a buffer: the characters before the first NUL. -/
def bufString (buf : List Char) : CStr := buf.takeWhile (fun c => c ≠ NUL)

/-- C `path[i]` on a string: index `strlen` reads the terminator. -/
def charAt (s : CStr) (i : Nat) : Char := s.getD i NUL

/-- C `memset(tmp, 0, n)`: the first `n` bytes become NUL. -/
def memset0 (tmp : List Char) (n : Nat) : List Char :=
  List.replicate (min n tmp.length) NUL ++ tmp.drop n

/-! ## Path translator -/

/-- The `for` loop of `getnewpath`, started at index `i` with `fuel` rounds
left: `tmp[i] = i < a2 ? pd[i] : path[i - a2]` while `i < a1 + a2`. -/
def getnewpath_loop (path pd : CStr) (a1 a2 : Nat) : Nat → Nat → List Char → List Char
  | 0, _, tmp => tmp
  | fuel + 1, i, tmp =>
    if i < a1 + a2 then
      if i < a2 then getnewpath_loop path pd a1 a2 fuel (i + 1) (tmp.set i (charAt pd i))
      else getnewpath_loop path pd a1 a2 fuel (i + 1) (tmp.set i (charAt path (i - a2)))
    else tmp

/-- `getnewpath(tmp, path, pd)`: the contents of buffer `tmp` afterwards. -/
def getnewpath (tmp : List Char) (path pd : CStr) : List Char :=
  let a1 := strlen path
  let a2 := strlen pd
  getnewpath_loop path pd a1 a2 (a1 + a2) 0 (memset0 tmp (a1 + a2 + 1))

/-! ## Access policy -/

/-- The globals the policy reads: `init_over`, `key_list` (with
`key_count` its length) and `pd`. -/
structure Globals where
  init_over : Int
  key_list : List CStr
  pd : CStr

/-- The segment-copy loop of `is_accessible`
(`for (i = 0, j = 0; i < l; i++, j++)`): returns `j` and `tmp` at loop exit.
The `continue` of the first branch still runs `i++, j++`. -/
def is_accessible_copy (path : CStr) (l : Nat) : Nat → Nat → Int → List Char → Int × List Char
  | 0, _, j, tmp => (j, tmp)
  | fuel + 1, i, j, tmp =>
    if i < l then
      if i = 0 ∧ charAt path i = SEP then
        is_accessible_copy path l fuel (i + 1) ((j - 1) + 1) tmp
      else if charAt path i = SEP then (j, tmp)
      else is_accessible_copy path l fuel (i + 1) (j + 1) (tmp.set j.toNat (charAt path i))
    else (j, tmp)

/-- The key search of `is_accessible`
(`for (k = 0, i = 0; i < key_count; i++) if (strcmp(key_list[i], tmp) == 0) { k = 1; break; }`). -/
def is_accessible_find (tmp : CStr) : List CStr → Int
  | [] => 0
  | key :: rest => if key = tmp then 1 else is_accessible_find tmp rest

/-- `is_accessible(path)`; `buf` is the block returned by
`malloc(sizeof(char) * (l + 1))`. -/
def is_accessible (g : Globals) (buf : List Char) (path : CStr) : Int :=
  if g.init_over = 0 then 1
  else
    let l := strlen path
    if l = 1 then 1
    else
      let r := is_accessible_copy path l l 0 0 buf
      let tmp := r.2.set r.1.toNat NUL
      is_accessible_find (bufString tmp) g.key_list

/-- The loop of `is_key_directory` (`for (i = 1, k = 0; i < l; i++)`). -/
def is_key_directory_loop (path : CStr) (l : Nat) : Nat → Nat → Int → Int
  | 0, _, _ => 0
  | fuel + 1, i, k =>
    if i < l then
      let k1 := if charAt path i = SEP then k + 1 else k
      if k1 ≥ 1 ∧ charAt path i ≠ NUL then 1
      else is_key_directory_loop path l fuel (i + 1) k1
    else 0

/-- `is_key_directory(path)`. -/
def is_key_directory (g : Globals) (path : CStr) : Int :=
  if g.init_over = 0 then 1
  else
    let l := strlen path
    is_key_directory_loop path l l 1 0

/-- The first segment of a virtual path: the characters from index 1 up to,
but not including, the next separator or the end of the string. -/
def firstSegment (p : CStr) : CStr := (p.drop 1).takeWhile (fun c => c ≠ SEP)

/-- A separator occurs at some index `≥ 1`. -/
def hasSecondSeparator (p : CStr) : Prop := SEP ∈ p.drop 1

instance (p : CStr) : Decidable (hasSecondSeparator p) := by
  unfold hasSecondSeparator; infer_instance

/-! ## Operation dispatcher

The native filesystem is a parameter: a world type `W` and the effect of each
libc call on it.  Every operation returns its result code, the world after
it, and the native calls it made, in order. -/

/-- `EACCES`. -/
def EACCES : Int := 13

/-- `EINVAL`. -/
def EINVAL : Int := 22

/-- `O_RDONLY`. -/
def O_RDONLY : Int := 0

/-- `O_WRONLY`. -/
def O_WRONLY : Int := 1

/-- `O_CREAT | O_EXCL | O_WRONLY`. -/
def O_CREAT_EXCL_WRONLY : Int := 0o301

/-- `S_ISREG(mode)`. -/
def S_ISREG (mode : Nat) : Bool := mode &&& 0o170000 == 0o100000

/-- `S_ISFIFO(mode)`. -/
def S_ISFIFO (mode : Nat) : Bool := mode &&& 0o170000 == 0o010000

/-- The libc calls the dispatcher makes, with the arguments that matter. -/
inductive Call where
  | lstat (path : CStr)
  | readlink (path : CStr) (size : Int)
  | opendir (path : CStr)
  | closedir
  | sys_open (path : CStr) (flags : Int) (mode : Option Nat)
  | close (fd : Int)
  | mkfifo (path : CStr) (mode : Nat)
  | mknod (path : CStr) (mode : Nat) (rdev : Nat)
  | mkdir (path : CStr) (mode : Nat)
  | unlink (path : CStr)
  | rmdir (path : CStr)
  | symlink (target linkpath : CStr)
  | rename (oldpath newpath : CStr)
  | link (oldpath newpath : CStr)
  | chmod (path : CStr) (mode : Nat)
  | lchown (path : CStr) (uid gid : Nat)
  | truncate (path : CStr) (size : Int)
  | ftruncate (fd : Int) (size : Int)
  | pread (fd : Int) (size : Nat) (offset : Int)
  | pwrite (fd : Int) (size : Nat) (offset : Int)
  | statvfs (path : CStr)
  deriving DecidableEq

/-- The path arguments of a native call. -/
def Call.paths : Call → List CStr
  | .lstat p => [p]
  | .readlink p _ => [p]
  | .opendir p => [p]
  | .closedir => []
  | .sys_open p _ _ => [p]
  | .close _ => []
  | .mkfifo p _ => [p]
  | .mknod p _ _ => [p]
  | .mkdir p _ => [p]
  | .unlink p => [p]
  | .rmdir p => [p]
  | .symlink a b => [a, b]
  | .rename a b => [a, b]
  | .link a b => [a, b]
  | .chmod p _ => [p]
  | .lchown p _ _ => [p]
  | .truncate p _ => [p]
  | .ftruncate _ _ => []
  | .pread _ _ _ => []
  | .pwrite _ _ _ => []
  | .statvfs p => [p]

/-- A directory entry as `readdir` delivers it (`d_name`, `d_ino`, `d_type`). -/
structure DirEnt where
  d_name : CStr
  d_ino : Nat
  d_type : Nat
  deriving DecidableEq

/-- The native side: the result and effect of each call, the current
`errno`, the entries the stream opened last delivers until `readdir` returns
`NULL`, and `malloc`. -/
structure Sys (W : Type) where
  call : Call → W → Int × W
  errno : W → Int
  stream : W → List DirEnt
  malloc : Nat → List Char
  malloc_length : ∀ n, (malloc n).length = n

/-- `struct fuse_file_info`, the two fields used. -/
structure FileInfo where
  flags : Int
  fh : Int
  deriving DecidableEq

/-- What an operation did: its return value, the world afterwards, the native
calls made, and the handle stored into `fi->fh` if any. -/
structure Out (W : Type) where
  ret : Int
  world : W
  trace : List Call
  fh : Option Int

/-- The block `len_path = strlen(path); len_pd = strlen(pd);
tmp = malloc(len_pd + len_path + 1); getnewpath(tmp, path, pd);`
and the string `tmp` then holds. -/
def translate {W : Type} (sys : Sys W) (g : Globals) (path : CStr) : CStr :=
  let len_path := strlen path
  let len_pd := strlen g.pd
  bufString (getnewpath (sys.malloc (len_pd + len_path + 1)) path g.pd)

/-- `is_accessible(path)` with its buffer taken from `malloc`. -/
def accessible {W : Type} (sys : Sys W) (g : Globals) (path : CStr) : Int :=
  is_accessible g (sys.malloc (strlen path + 1)) path

/-- The common tail `if (res == -1) return -errno; return 0;`. -/
def finish {W : Type} (sys : Sys W) (r : Int × W) (trace : List Call) : Out W :=
  if r.1 = -1 then ⟨-(sys.errno r.2), r.2, trace, none⟩ else ⟨0, r.2, trace, none⟩

/-- The early `return -EACCES;`. -/
def deny {W : Type} (w : W) : Out W := ⟨-EACCES, w, [], none⟩

def xmp_getattr {W : Type} (sys : Sys W) (g : Globals) (path : CStr) (w : W) : Out W :=
  let tmp := translate sys g path
  finish sys (sys.call (.lstat tmp) w) [.lstat tmp]

def xmp_readlink {W : Type} (sys : Sys W) (g : Globals) (path : CStr) (size : Int) (w : W) :
    Out W :=
  let tmp := translate sys g path
  finish sys (sys.call (.readlink tmp (size - 1)) w) [.readlink tmp (size - 1)]

/-- The `while ((de = readdir(dp)) != NULL)` loop of `xmp_readdir`: the
records handed to `filler`, up to and including the first one it refuses. -/
def xmp_readdir_fill (filler : CStr → Nat → Nat → Bool) : List DirEnt → List (CStr × Nat × Nat)
  | [] => []
  | de :: rest =>
    let st_ino := de.d_ino
    let st_mode := de.d_type <<< 12
    if filler de.d_name st_ino st_mode then [(de.d_name, st_ino, st_mode)]
    else (de.d_name, st_ino, st_mode) :: xmp_readdir_fill filler rest

def xmp_readdir {W : Type} (sys : Sys W) (g : Globals) (path : CStr)
    (filler : CStr → Nat → Nat → Bool) (w : W) : Out W × List (CStr × Nat × Nat) :=
  let tmp := translate sys g path
  let dp := sys.call (.opendir tmp) w
  if dp.1 = 0 then (⟨-(sys.errno dp.2), dp.2, [.opendir tmp], none⟩, [])
  else
    let filled := xmp_readdir_fill filler (sys.stream dp.2)
    let c := sys.call .closedir dp.2
    (⟨0, c.2, [.opendir tmp, .closedir], none⟩, filled)

def xmp_mknod {W : Type} (sys : Sys W) (g : Globals) (path : CStr) (mode rdev : Nat) (w : W) :
    Out W :=
  if accessible sys g path = 0 then deny w
  else
    let tmp := translate sys g path
    if S_ISREG mode then
      let r := sys.call (.sys_open tmp O_CREAT_EXCL_WRONLY (some mode)) w
      if r.1 ≥ 0 then
        finish sys (sys.call (.close r.1) r.2)
          [.sys_open tmp O_CREAT_EXCL_WRONLY (some mode), .close r.1]
      else finish sys r [.sys_open tmp O_CREAT_EXCL_WRONLY (some mode)]
    else if S_ISFIFO mode then
      finish sys (sys.call (.mkfifo tmp mode) w) [.mkfifo tmp mode]
    else
      finish sys (sys.call (.mknod tmp mode rdev) w) [.mknod tmp mode rdev]

def xmp_mkdir {W : Type} (sys : Sys W) (g : Globals) (path : CStr) (mode : Nat) (w : W) :
    Out W :=
  if accessible sys g path = 0 then deny w
  else
    let tmp := translate sys g path
    finish sys (sys.call (.mkdir tmp mode) w) [.mkdir tmp mode]

def xmp_unlink {W : Type} (sys : Sys W) (g : Globals) (path : CStr) (w : W) : Out W :=
  if accessible sys g path = 0 then deny w
  else if is_key_directory g path = 0 then deny w
  else
    let tmp := translate sys g path
    finish sys (sys.call (.unlink tmp) w) [.unlink tmp]

def xmp_rmdir {W : Type} (sys : Sys W) (g : Globals) (path : CStr) (w : W) : Out W :=
  if accessible sys g path = 0 then deny w
  else if is_key_directory g path = 0 then deny w
  else
    let tmp := translate sys g path
    finish sys (sys.call (.rmdir tmp) w) [.rmdir tmp]

def xmp_symlink {W : Type} (sys : Sys W) (g : Globals) (src dst : CStr) (w : W) : Out W :=
  if accessible sys g src = 0 ∨ accessible sys g dst = 0 then deny w
  else if is_key_directory g src = 0 then deny w
  else
    let tmp := translate sys g src
    let tmp1 := translate sys g dst
    finish sys (sys.call (.symlink tmp tmp1) w) [.symlink tmp tmp1]

def xmp_rename {W : Type} (sys : Sys W) (g : Globals) (src dst : CStr) (flags : Nat) (w : W) :
    Out W :=
  if accessible sys g src = 0 ∨ accessible sys g dst = 0 then deny w
  else if is_key_directory g src = 0 ∨ is_key_directory g dst = 0 then deny w
  else
    let tmp := translate sys g src
    let tmp1 := translate sys g dst
    if flags ≠ 0 then ⟨-EINVAL, w, [], none⟩
    else finish sys (sys.call (.rename tmp tmp1) w) [.rename tmp tmp1]

def xmp_link {W : Type} (sys : Sys W) (g : Globals) (src dst : CStr) (w : W) : Out W :=
  if accessible sys g src = 0 ∨ accessible sys g dst = 0 then deny w
  else if is_key_directory g src = 0 then deny w
  else
    let tmp := translate sys g src
    let tmp1 := translate sys g dst
    finish sys (sys.call (.link tmp tmp1) w) [.link tmp tmp1]

def xmp_chmod {W : Type} (sys : Sys W) (g : Globals) (path : CStr) (mode : Nat) (w : W) :
    Out W :=
  if accessible sys g path = 0 then deny w
  else
    let tmp := translate sys g path
    finish sys (sys.call (.chmod tmp mode) w) [.chmod tmp mode]

def xmp_chown {W : Type} (sys : Sys W) (g : Globals) (path : CStr) (uid gid : Nat) (w : W) :
    Out W :=
  if accessible sys g path = 0 then deny w
  else if is_key_directory g path = 0 then deny w
  else
    let tmp := translate sys g path
    finish sys (sys.call (.lchown tmp uid gid) w) [.lchown tmp uid gid]

def xmp_truncate {W : Type} (sys : Sys W) (g : Globals) (path : CStr) (size : Int)
    (fi : Option FileInfo) (w : W) : Out W :=
  if accessible sys g path = 0 then deny w
  else if is_key_directory g path = 0 then deny w
  else
    let tmp := translate sys g path
    match fi with
    | some f => finish sys (sys.call (.ftruncate f.fh size) w) [.ftruncate f.fh size]
    | none => finish sys (sys.call (.truncate tmp size) w) [.truncate tmp size]

def xmp_create {W : Type} (sys : Sys W) (g : Globals) (path : CStr) (mode : Nat)
    (fi : FileInfo) (w : W) : Out W :=
  if accessible sys g path = 0 then deny w
  else if is_key_directory g path = 0 then deny w
  else
    let tmp := translate sys g path
    let r := sys.call (.sys_open tmp fi.flags (some mode)) w
    if r.1 = -1 then ⟨-(sys.errno r.2), r.2, [.sys_open tmp fi.flags (some mode)], none⟩
    else ⟨0, r.2, [.sys_open tmp fi.flags (some mode)], some r.1⟩

def xmp_open {W : Type} (sys : Sys W) (g : Globals) (path : CStr) (fi : FileInfo) (w : W) :
    Out W :=
  if accessible sys g path = 0 then deny w
  else if is_key_directory g path = 0 then deny w
  else
    let tmp := translate sys g path
    let r := sys.call (.sys_open tmp fi.flags none) w
    if r.1 = -1 then ⟨-(sys.errno r.2), r.2, [.sys_open tmp fi.flags none], none⟩
    else ⟨0, r.2, [.sys_open tmp fi.flags none], some r.1⟩

/-- The shared body of `xmp_read` and `xmp_write` after the policy checks:
take `fi->fh` or open the translated path, transfer, close what was opened. -/
def transfer {W : Type} (sys : Sys W) (tmp : CStr) (oflag : Int) (io : Int → Call)
    (fi : Option FileInfo) (w : W) : Out W :=
  match fi with
  | none =>
    let o := sys.call (.sys_open tmp oflag none) w
    if o.1 = -1 then ⟨-(sys.errno o.2), o.2, [.sys_open tmp oflag none], none⟩
    else
      let r := sys.call (io o.1) o.2
      let res := if r.1 = -1 then -(sys.errno r.2) else r.1
      let c := sys.call (.close o.1) r.2
      ⟨res, c.2, [.sys_open tmp oflag none, io o.1, .close o.1], none⟩
  | some f =>
    if f.fh = -1 then ⟨-(sys.errno w), w, [], none⟩
    else
      let r := sys.call (io f.fh) w
      let res := if r.1 = -1 then -(sys.errno r.2) else r.1
      ⟨res, r.2, [io f.fh], none⟩

def xmp_read {W : Type} (sys : Sys W) (g : Globals) (path : CStr) (size : Nat) (offset : Int)
    (fi : Option FileInfo) (w : W) : Out W :=
  if accessible sys g path = 0 then deny w
  else if is_key_directory g path = 0 then deny w
  else
    let tmp := translate sys g path
    transfer sys tmp O_RDONLY (fun fd => .pread fd size offset) fi w

def xmp_write {W : Type} (sys : Sys W) (g : Globals) (path : CStr) (size : Nat) (offset : Int)
    (fi : Option FileInfo) (w : W) : Out W :=
  if accessible sys g path = 0 then deny w
  else if is_key_directory g path = 0 then deny w
  else
    let tmp := translate sys g path
    transfer sys tmp O_WRONLY (fun fd => .pwrite fd size offset) fi w

def xmp_statfs {W : Type} (sys : Sys W) (g : Globals) (path : CStr) (w : W) : Out W :=
  let tmp := translate sys g path
  finish sys (sys.call (.statvfs tmp) w) [.statvfs tmp]

/-- A request to the dispatcher: one constructor per entry of `xmp_oper`
that the policy matrix covers, with its arguments. -/
inductive Op where
  | getattr (path : CStr)
  | readlink (path : CStr) (size : Int)
  | readdir (path : CStr) (filler : CStr → Nat → Nat → Bool)
  | statfs (path : CStr)
  | mknod (path : CStr) (mode rdev : Nat)
  | mkdir (path : CStr) (mode : Nat)
  | chmod (path : CStr) (mode : Nat)
  | unlink (path : CStr)
  | rmdir (path : CStr)
  | chown (path : CStr) (uid gid : Nat)
  | truncate (path : CStr) (size : Int) (fi : Option FileInfo)
  | openFile (path : CStr) (fi : FileInfo)
  | create (path : CStr) (mode : Nat) (fi : FileInfo)
  | read (path : CStr) (size : Nat) (offset : Int) (fi : Option FileInfo)
  | write (path : CStr) (size : Nat) (offset : Int) (fi : Option FileInfo)
  | symlink (src dst : CStr)
  | link (src dst : CStr)
  | rename (src dst : CStr) (flags : Nat)

/-- The callback table `xmp_oper`: which function serves which request. -/
def dispatch {W : Type} (sys : Sys W) (g : Globals) : Op → W → Out W
  | .getattr p, w => xmp_getattr sys g p w
  | .readlink p size, w => xmp_readlink sys g p size w
  | .readdir p filler, w => (xmp_readdir sys g p filler w).1
  | .statfs p, w => xmp_statfs sys g p w
  | .mknod p mode rdev, w => xmp_mknod sys g p mode rdev w
  | .mkdir p mode, w => xmp_mkdir sys g p mode w
  | .chmod p mode, w => xmp_chmod sys g p mode w
  | .unlink p, w => xmp_unlink sys g p w
  | .rmdir p, w => xmp_rmdir sys g p w
  | .chown p uid gid, w => xmp_chown sys g p uid gid w
  | .truncate p size fi, w => xmp_truncate sys g p size fi w
  | .openFile p fi, w => xmp_open sys g p fi w
  | .create p mode fi, w => xmp_create sys g p mode fi w
  | .read p size offset fi, w => xmp_read sys g p size offset fi w
  | .write p size offset fi, w => xmp_write sys g p size offset fi w
  | .symlink a b, w => xmp_symlink sys g a b w
  | .link a b, w => xmp_link sys g a b w
  | .rename a b flags, w => xmp_rename sys g a b flags w

/-- The virtual paths a request names. -/
def Op.paths : Op → List CStr
  | .getattr p => [p]
  | .readlink p _ => [p]
  | .readdir p _ => [p]
  | .statfs p => [p]
  | .mknod p _ _ => [p]
  | .mkdir p _ => [p]
  | .chmod p _ => [p]
  | .unlink p => [p]
  | .rmdir p => [p]
  | .chown p _ _ => [p]
  | .truncate p _ _ => [p]
  | .openFile p _ => [p]
  | .create p _ _ => [p]
  | .read p _ _ _ => [p]
  | .write p _ _ _ => [p]
  | .symlink a b => [a, b]
  | .link a b => [a, b]
  | .rename a b _ => [a, b]

/-- The policy matrix, as the specification states it: the predicates each
operation requires, all of which must hold. -/
def policyMatrix {W : Type} (sys : Sys W) (g : Globals) : Op → Bool
  | .getattr _ => true
  | .readlink _ _ => true
  | .readdir _ _ => true
  | .statfs _ => true
  | .mknod p _ _ => decide (accessible sys g p ≠ 0)
  | .mkdir p _ => decide (accessible sys g p ≠ 0)
  | .chmod p _ => decide (accessible sys g p ≠ 0)
  | .unlink p => decide (accessible sys g p ≠ 0) && decide (is_key_directory g p ≠ 0)
  | .rmdir p => decide (accessible sys g p ≠ 0) && decide (is_key_directory g p ≠ 0)
  | .chown p _ _ => decide (accessible sys g p ≠ 0) && decide (is_key_directory g p ≠ 0)
  | .truncate p _ _ => decide (accessible sys g p ≠ 0) && decide (is_key_directory g p ≠ 0)
  | .openFile p _ => decide (accessible sys g p ≠ 0) && decide (is_key_directory g p ≠ 0)
  | .create p _ _ => decide (accessible sys g p ≠ 0) && decide (is_key_directory g p ≠ 0)
  | .read p _ _ _ => decide (accessible sys g p ≠ 0) && decide (is_key_directory g p ≠ 0)
  | .write p _ _ _ => decide (accessible sys g p ≠ 0) && decide (is_key_directory g p ≠ 0)
  | .symlink a b =>
    decide (accessible sys g a ≠ 0) && decide (accessible sys g b ≠ 0)
      && decide (is_key_directory g a ≠ 0)
  | .link a b =>
    decide (accessible sys g a ≠ 0) && decide (accessible sys g b ≠ 0)
      && decide (is_key_directory g a ≠ 0)
  | .rename a b _ =>
    decide (accessible sys g a ≠ 0) && decide (accessible sys g b ≠ 0)
      && decide (is_key_directory g a ≠ 0) && decide (is_key_directory g b ≠ 0)

/-- A handle passed with a request comes from an earlier successful
`open`, so it is not `-1`. -/
def Op.handleOk : Op → Prop
  | .read _ _ _ (some f) => f.fh ≠ -1
  | .write _ _ _ (some f) => f.fh ≠ -1
  | _ => True

instance (op : Op) : Decidable op.handleOk := by
  cases op with
  | read p size offset fi => cases fi <;> unfold Op.handleOk <;> infer_instance
  | write p size offset fi => cases fi <;> unfold Op.handleOk <;> infer_instance
  | _ => unfold Op.handleOk; infer_instance

/-- The request is a `rename` with non-zero `flags`. -/
def Op.renameWithFlags : Op → Prop
  | .rename _ _ flags => flags ≠ 0
  | _ => False

/-- The request went through to the native side: at least one native call,
and every path a native call received is the translation of one of the
request's paths. -/
def Forwarded {W : Type} (sys : Sys W) (g : Globals) (op : Op) (out : Out W) : Prop :=
  out.trace ≠ [] ∧
    ∀ c ∈ out.trace, ∀ q ∈ c.paths, ∃ p ∈ op.paths, q = translate sys g p

/-- A native side for examples: every call succeeds with result `3` and
changes nothing. -/
def idleSys : Sys Unit where
  call := fun _ _ => (3, ())
  errno := fun _ => 0
  stream := fun _ => []
  malloc := fun n => List.replicate n 'x'
  malloc_length := fun n => List.length_replicate n 'x'

/-- The operations gated by both predicates, on path `p`: unlink, rmdir,
chown, truncate, open, create, read, write. -/
def Op.gatedOn (p : CStr) : Op → Prop
  | .unlink q => q = p
  | .rmdir q => q = p
  | .chown q _ _ => q = p
  | .truncate q _ _ => q = p
  | .openFile q _ => q = p
  | .create q _ _ => q = p
  | .read q _ _ _ => q = p
  | .write q _ _ _ => q = p
  | _ => False

/-- The virtual path is `'/' + k + '/' + r` for a registry entry `k`. -/
def InsideKey (keys : List CStr) (p : CStr) : Prop :=
  ∃ k r, k ∈ keys ∧ p = SEP :: k ++ SEP :: r

/-- Globals of a served mount with the single key `docs` and backing root `R`. -/
def docsMount (R : CStr) : Globals := ⟨1, ["docs".toList], R⟩

/-! ## The backing store

The tree below the backing root.  A location is the list of entry names
leading to it from the backing root (`Path`); the C string the program holds
for it is `pathString pd p`, the root string followed by `"/" ++ name` for
each name.  Native calls are modelled on locations: no permission failures, no
concurrent change. -/

/-- File types that are neither regular nor directory; for a symbolic link,
whether its target exists (`access` follows links, `lstat` does not). -/
inductive Special where
  | symlink (targetExists : Bool)
  | fifo
  | socket
  | charDevice
  | blockDevice
  deriving DecidableEq

/-- A node of the backing tree. -/
inductive Node where
  | reg (data : List Nat)
  | special (k : Special)
  | dir (entries : List (CStr × Node))

/-- The entries of a directory, `.` and `..` left out. -/
abbrev Entries := List (CStr × Node)

/-- A location below the backing root. -/
abbrev Path := List CStr

/-- What `S_ISREG` / `S_ISDIR` tell of `st_mode`. -/
inductive FType where
  | reg
  | dir
  | other
  deriving DecidableEq

/-- The type `lstat` reports for a node. -/
def Node.ftype : Node → FType
  | .reg _ => .reg
  | .special _ => .other
  | .dir _ => .dir

/-- The node is a directory. -/
def Node.isDir : Node → Bool
  | .dir _ => true
  | _ => false

/-- The name `.`. -/
def DOT : CStr := ['.']

/-- The name `..`. -/
def DOTDOT : CStr := ['.', '.']

/-- A name a directory entry can bear: non-empty, without separator, and
neither `.` nor `..`. -/
def legalName (c : CStr) : Bool :=
  decide (c ≠ []) && decide (SEP ∉ c) && decide (c ≠ DOT) && decide (c ≠ DOTDOT)

/-- The first entry called `name`. -/
def lookupE : Entries → CStr → Option Node
  | [], _ => none
  | (n, c) :: rest, name => if n = name then some c else lookupE rest name

/-- Replace (`some`) or drop (`none`) the first entry called `name`. -/
def setEntry : Entries → CStr → Option Node → Entries
  | [], _, _ => []
  | (n, c) :: rest, name, r =>
    if n = name then
      match r with
      | some c2 => (n, c2) :: rest
      | none => rest
    else (n, c) :: setEntry rest name r

/-- The node at a location. -/
def lookup : Node → Path → Option Node
  | n, [] => some n
  | .dir es, c :: cs =>
    match lookupE es c with
    | some ch => lookup ch cs
    | none => none
  | .reg _, _ :: _ => none
  | .special _, _ :: _ => none

/-- Apply `f` to the entries of the directory that holds the last name of
the location; nothing changes when that directory does not exist. -/
def inParent (f : Entries → CStr → Entries) : Node → Path → Node
  | n, [] => n
  | .dir es, [c] => .dir (f es c)
  | .dir es, c :: c2 :: cs =>
    match lookupE es c with
    | some ch => .dir (setEntry es c (some (inParent f ch (c2 :: cs))))
    | none => .dir es
  | .reg d, _ :: _ => .reg d
  | .special k, _ :: _ => .special k

/-- `access(path, F_OK) == 0`: the entry exists, links followed. -/
def nat_access (fs : Node) (p : Path) : Bool :=
  match lookup fs p with
  | none => false
  | some (.special (.symlink false)) => false
  | some _ => true

/-- `lstat(path, &st)`: the type found, `none` when the call fails. -/
def nat_lstat (fs : Node) (p : Path) : Option FType :=
  (lookup fs p).map Node.ftype

/-- `remove(path)`: unlinks a non-directory, removes an empty directory,
fails (no change) otherwise. -/
def nat_remove (fs : Node) (p : Path) : Node :=
  match lookup fs p with
  | none => fs
  | some (.dir (_ :: _)) => fs
  | some _ => inParent (fun es c => setEntry es c none) fs p

/-- `rmdir(path)`: removes an empty directory, fails (no change) otherwise. -/
def nat_rmdir (fs : Node) (p : Path) : Node :=
  match lookup fs p with
  | some (.dir []) => inParent (fun es c => setEntry es c none) fs p
  | _ => fs

/-- The longest name a directory entry can bear (`NAME_MAX`). -/
def NAME_MAX : Nat := 255

/-- Cut a string at every separator. -/
def splitSep : CStr → List CStr
  | [] => [[]]
  | c :: cs =>
    if c = SEP then [] :: splitSep cs
    else
      match splitSep cs with
      | [] => [[c]]
      | w :: ws => (c :: w) :: ws

/-- The components of a path relative to the backing root: the pieces
between separators, empty pieces (doubled or trailing separators) dropped. -/
def components (s : CStr) : List CStr := (splitSep s).filter (fun w => decide (w ≠ []))

/-- Where walking a list of components from a directory of the backing tree
ends: at a directory of the tree, in a failure (`ENOENT`, `ENOTDIR`,
`ENAMETOOLONG`), or outside the tree (`..` above the backing root, or through
a symbolic link, whose target the tree does not record). -/
inductive Resolved where
  | inside (loc : Path)
  | fails
  | outside
  deriving DecidableEq

/-- Walk the components from the directory at `loc`, as path resolution
does: `.` stays, `..` moves to the parent, a name moves into the directory of
that name. -/
def resolveDir (fs : Node) : List CStr → Path → Resolved
  | [], loc => .inside loc
  | c :: cs, loc =>
    if c = DOT then resolveDir fs cs loc
    else if c = DOTDOT then
      match loc with
      | [] => .outside
      | _ :: _ => resolveDir fs cs loc.dropLast
    else if NAME_MAX < c.length then .fails
    else
      match lookup fs (loc ++ [c]) with
      | some (.dir _) => resolveDir fs cs (loc ++ [c])
      | some (.special (.symlink true)) => .outside
      | _ => .fails

/-- `mkdir(tmppath, mode)` for `tmppath` the backing root string, a
separator and `rel`: result and tree afterwards, `none` when the path leads
out of the backing tree, where its effect is not known.  The path is
resolved component by component.  The call fails (`-1`, no change) when
nothing is left to create (`rel` empty or separators only), when the last
component is `.` or `..`, when a component on the way is missing or not a
directory, when the last component is longer than `NAME_MAX`, or when the
entry exists; otherwise an empty directory is added at the end of the
directory reached. -/
def nat_mkdir (fs : Node) (rel : CStr) : Option (Int × Node) :=
  match fs with
  | .dir _ =>
    match (components rel).getLast? with
    | none => some (-1, fs)
    | some last =>
      if last = DOT ∨ last = DOTDOT then some (-1, fs)
      else
        match resolveDir fs (components rel).dropLast [] with
        | .outside => none
        | .fails => some (-1, fs)
        | .inside loc =>
          if NAME_MAX < last.length then some (-1, fs)
          else
            match lookup fs (loc ++ [last]) with
            | some _ => some (-1, fs)
            | none => some (0, inParent (fun es c => es ++ [(c, .dir [])]) fs (loc ++ [last]))
  | _ => some (-1, fs)

/-- The names `readdir` delivers for an open directory: `.`, `..`, then the
entries; empty for anything else. -/
def nat_readdir (fs : Node) (p : Path) : List CStr :=
  match lookup fs p with
  | some (.dir es) => DOT :: DOTDOT :: es.map Prod.fst
  | _ => []

/-- The C string for a location: `pd`, then `"/" ++ name` for each name. -/
def pathString (pd : CStr) : Path → CStr
  | [] => pd
  | c :: cs => pathString (pd ++ SEP :: c) cs

/-- Outcome of running a piece of the program: a result, or a step without
defined behaviour (a write past a fixed buffer, an index past an array, a
`NULL` stream), or a run cut short by the recursion bound of the model. -/
inductive Res (α : Type) where
  | ok (a : α)
  | undefined
  | nofuel

/-- Map the result of an outcome. -/
def Res.map {α β : Type} (f : α → β) : Res α → Res β
  | .ok a => .ok (f a)
  | .undefined => .undefined
  | .nofuel => .nofuel

/-- `sprintf(buf, "%s/%s", dir, name)` into `char buf[size]`: the string
written, `none` when it does not fit with its terminator. -/
def sprintf_path (size : Nat) (dir name : CStr) : Option CStr :=
  if (dir ++ SEP :: name).length + 1 ≤ size then some (dir ++ SEP :: name) else none

/-- The size of `dir_name` in `remove_dir`. -/
def DIR_NAME_SIZE : Nat := 128

/-- The size of `tmppath` in `main`. -/
def TMPPATH_SIZE : Nat := 512

/-- The size of `key_check`. -/
def KEY_CHECK_SIZE : Nat := 100

/-- The `while ((dp = readdir(dirp)) != NULL)` loop of `remove_dir` over the
names still to come; `self` is `remove_dir` itself, for the recursive call,
whose result is not looked at. -/
def remove_dir_loop (self : Node → Path → Res (Int × Node)) (pd : CStr) (dir : Path) :
    List CStr → Node → Res Node
  | [], fs => .ok fs
  | d_name :: rest, fs =>
    if d_name = DOT ∨ d_name = DOTDOT then remove_dir_loop self pd dir rest fs
    else
      match sprintf_path DIR_NAME_SIZE (pathString pd dir) d_name with
      | none => .undefined
      | some _ =>
        match self fs (dir ++ [d_name]) with
        | .ok r => remove_dir_loop self pd dir rest r.2
        | .undefined => .undefined
        | .nofuel => .nofuel

/-- `remove_dir(dir)` with the recursion depth bounded by the first
argument: return value and tree afterwards. -/
def remove_dir (pd : CStr) : Nat → Node → Path → Res (Int × Node)
  | 0, _, _ => .nofuel
  | fuel + 1, fs, dir =>
    if nat_access fs dir = false then .ok (0, fs)
    else
      match nat_lstat fs dir with
      | none => .ok (-1, fs)
      | some .reg => .ok (0, nat_remove fs dir)
      | some .dir =>
        match remove_dir_loop (remove_dir pd fuel) pd dir (nat_readdir fs dir) fs with
        | .ok fs1 => .ok (0, nat_rmdir fs1 dir)
        | .undefined => .undefined
        | .nofuel => .nofuel
      | some .other => .ok (0, fs)

mutual
/-- Nesting depth of a node: 0 for a non-directory, one more than the
deepest entry for a directory. -/
def depth : Node → Nat
  | .reg _ => 0
  | .special _ => 0
  | .dir es => depthL es + 1
/-- The largest depth among entries. -/
def depthL : Entries → Nat
  | [] => 0
  | (_, n) :: rest => max (depth n) (depthL rest)
end

mutual
/-- Equality of nodes is decidable. -/
def Node.decEq : (a b : Node) → Decidable (a = b)
  | .reg d1, .reg d2 =>
    if h : d1 = d2 then isTrue (by rw [h]) else isFalse (by intro e; cases e; exact h rfl)
  | .special k1, .special k2 =>
    if h : k1 = k2 then isTrue (by rw [h]) else isFalse (by intro e; cases e; exact h rfl)
  | .dir e1, .dir e2 =>
    match Entries.decEq e1 e2 with
    | isTrue h => isTrue (by rw [h])
    | isFalse h => isFalse (by intro e; cases e; exact h rfl)
  | .reg _, .special _ => isFalse (by intro e; cases e)
  | .reg _, .dir _ => isFalse (by intro e; cases e)
  | .special _, .reg _ => isFalse (by intro e; cases e)
  | .special _, .dir _ => isFalse (by intro e; cases e)
  | .dir _, .reg _ => isFalse (by intro e; cases e)
  | .dir _, .special _ => isFalse (by intro e; cases e)
/-- Equality of entry lists is decidable. -/
def Entries.decEq : (a b : Entries) → Decidable (a = b)
  | [], [] => isTrue rfl
  | [], _ :: _ => isFalse (by intro e; cases e)
  | _ :: _, [] => isFalse (by intro e; cases e)
  | (n1, c1) :: r1, (n2, c2) :: r2 =>
    if hn : n1 = n2 then
      match Node.decEq c1 c2 with
      | isTrue hc =>
        match Entries.decEq r1 r2 with
        | isTrue hr => isTrue (by rw [hn, hc, hr])
        | isFalse hr => isFalse (by intro e; cases e; exact hr rfl)
      | isFalse hc => isFalse (by intro e; cases e; exact hc rfl)
    else isFalse (by intro e; cases e; exact hn rfl)
end

instance : DecidableEq Node := Node.decEq

instance {α : Type} [DecidableEq α] : DecidableEq (Res α) := fun a b =>
  match a, b with
  | .ok x, .ok y =>
    if h : x = y then isTrue (by rw [h]) else isFalse (by intro e; cases e; exact h rfl)
  | .undefined, .undefined => isTrue rfl
  | .nofuel, .nofuel => isTrue rfl
  | .ok _, .undefined => isFalse (by intro e; cases e)
  | .ok _, .nofuel => isFalse (by intro e; cases e)
  | .undefined, .ok _ => isFalse (by intro e; cases e)
  | .undefined, .nofuel => isFalse (by intro e; cases e)
  | .nofuel, .ok _ => isFalse (by intro e; cases e)
  | .nofuel, .undefined => isFalse (by intro e; cases e)

/-! ## Startup: the reconciliation in `main` -/

/-- What `main` has set up when it hands over to `fuse_main`: the backing
tree (`none` when a `mkdir` has led out of it, so that the tree is no longer
known), `init_over`, and whether the dispatcher is started. -/
structure Boot where
  fs : Option Node
  init_over : Int
  served : Bool
  deriving DecidableEq

/-- The key match of `main`
(`for (int i = 0; i < key_count; i++) if (!strcmp(ent->d_name, key_list[i])) flag = i + 1;`)
from index `i` on, over the keys still to compare. -/
def main_flag (d_name : CStr) : List CStr → Nat → Int → Int
  | [], _, flag => flag
  | key :: rest, i, flag =>
    main_flag d_name rest (i + 1) (if d_name = key then (i : Int) + 1 else flag)

/-- The `while (NULL != (ent = readdir(pDir)))` loop of `main` over the names
still to come.  `s` is `struct stat s`: `none` until `lstat` has filled it, and
left as it is when `lstat` fails; `kc` is `key_check`. -/
def main_scan (pd : CStr) (keys : List CStr) (fuel : Nat) :
    List CStr → Option FType → Node → List Int → Res (Node × List Int)
  | [], _, fs, kc => .ok (fs, kc)
  | d_name :: rest, s, fs, kc =>
    if d_name = DOT ∨ d_name = DOTDOT then main_scan pd keys fuel rest s fs kc
    else
      match sprintf_path TMPPATH_SIZE pd d_name with
      | none => .undefined
      | some _ =>
        let s1 := match nat_lstat fs [d_name] with
          | some t => some t
          | none => s
        match s1 with
        | none => .undefined
        | some .dir =>
          let flag := main_flag d_name keys 0 0
          if flag = 0 then
            match remove_dir pd fuel fs [d_name] with
            | .ok r => main_scan pd keys fuel rest s1 r.2 kc
            | .undefined => .undefined
            | .nofuel => .nofuel
          else if (flag - 1).toNat < kc.length then
            main_scan pd keys fuel rest s1 fs (kc.set (flag - 1).toNat 1)
          else .undefined
        | some _ => main_scan pd keys fuel rest s1 fs kc

/-- The creation loop of `main`
(`for (int i = 0; i < key_count; i++) if (!key_check[i]) { sprintf; mkdir; }`)
from index `i` on; the result of `mkdir` is not looked at.  The tree is `none`
once a `mkdir` has led out of the backing tree: the loop goes on, and what it
does to the tree is no longer known. -/
def main_create (pd : CStr) : List CStr → Nat → List Int → Option Node → Res (Option Node)
  | [], _, _, fs => .ok fs
  | key :: rest, i, kc, fs =>
    match kc[i]? with
    | none => .undefined
    | some v =>
      if v = 0 then
        match sprintf_path TMPPATH_SIZE pd key with
        | none => .undefined
        | some _ =>
          main_create pd rest (i + 1) kc (fs.bind (fun t => (nat_mkdir t key).map Prod.snd))
      else main_create pd rest (i + 1) kc fs

/-- The sizes the compiler gives `int` and `char *`, in bytes. -/
structure Platform where
  int_size : Nat
  ptr_size : Nat
  deriving DecidableEq

/-- Four-byte `int`, four-byte pointers. -/
def ILP32 : Platform := ⟨4, 4⟩

/-- Four-byte `int`, eight-byte pointers. -/
def LP64 : Platform := ⟨4, 8⟩

/-- The loop `for (int i = 3; i < argc; i++) key_list[i-3] = copy of argv[i]`
of `main`, from key index `i` on: `block` is the size in bytes of the block
`key_list` points to, and storing the pointer `key_list[i]` writes the bytes
from `i * sizeof(char *)` up to `(i + 1) * sizeof(char *)`; a store that ends
past the block has no defined behaviour.  The copy made of an argument
(`malloc(length)`, `memset`, `memcpy`) is the argument. -/
def main_keys (pf : Platform) (block : Nat) : List CStr → Nat → List CStr → Res (List CStr)
  | [], _, key_list => .ok key_list
  | arg :: rest, i, key_list =>
    if (i + 1) * pf.ptr_size ≤ block then main_keys pf block rest (i + 1) (key_list ++ [arg])
    else .undefined

/-- `main` from `init_over = 0` to the call of `fuse_main`, with the
recursion of `remove_dir` bounded by `fuel`; `args` is `argv[3]` to
`argv[argc - 1]` and `pd` is `argv[2]`.  `key_count` is the number of
arguments, `key_list` is given a block of `sizeof(int) * key_count + 1` bytes
and filled, `key_check` is cleared, the backing root is scanned, missing key
directories are made, `init_over` is set and the dispatcher is started. -/
def main_bounded (pf : Platform) (pd : CStr) (args : List CStr) (fuel : Nat) (root : Node) :
    Res Boot :=
  match main_keys pf (pf.int_size * args.length + 1) args 0 [] with
  | .ok key_list =>
    match root with
    | .dir _ =>
      match main_scan pd key_list fuel (nat_readdir root []) none root
          (List.replicate KEY_CHECK_SIZE 0) with
      | .ok r =>
        match main_create pd key_list 0 r.2 (some r.1) with
        | .ok fs2 => .ok ⟨fs2, 1, true⟩
        | .undefined => .undefined
        | .nofuel => .nofuel
      | .undefined => .undefined
      | .nofuel => .nofuel
    | _ => .undefined
  | .undefined => .undefined
  | .nofuel => .nofuel

/-- `main`, the recursion bound taken from the tree itself. -/
def main (pf : Platform) (pd : CStr) (args : List CStr) (root : Node) : Res Boot :=
  main_bounded pf pd args (depth root) root

/-- The pointers to `n` keys fit the block of `sizeof(int) * n + 1` bytes
that `main` allocates for `key_list`. -/
def KeyListFits (pf : Platform) (n : Nat) : Prop := n * pf.ptr_size ≤ pf.int_size * n + 1

instance (pf : Platform) (n : Nat) : Decidable (KeyListFits pf n) := by
  unfold KeyListFits; infer_instance

/-! ## Descriptions used in the statements -/

mutual
/-- Within every directory the names are legal and pairwise distinct. -/
def wf : Node → Bool
  | .reg _ => true
  | .special _ => true
  | .dir es => wfL es
/-- Well-formedness of an entry list. -/
def wfL : Entries → Bool
  | [] => true
  | (n, c) :: rest => legalName n && (lookupE rest n).isNone && wf c && wfL rest
end

mutual
/-- The subtree consists of directories and regular files only. -/
def plain : Node → Bool
  | .reg _ => true
  | .special _ => false
  | .dir es => plainL es
/-- Every entry is plain. -/
def plainL : Entries → Bool
  | [] => true
  | (_, c) :: rest => plain c && plainL rest
end

mutual
/-- Every path string `remove_dir` builds below a directory whose own string
has length `len` fits `dir_name`. -/
def fits (len : Nat) : Node → Bool
  | .reg _ => true
  | .special _ => true
  | .dir es => fitsL len es
/-- The entries of a directory of string length `len` fit. -/
def fitsL (len : Nat) : Entries → Bool
  | [] => true
  | (n, c) :: rest =>
    decide (len + 1 + n.length + 1 ≤ DIR_NAME_SIZE) && fits (len + 1 + n.length) c
      && fitsL len rest
end

mutual
/-- What `remove_dir` leaves of a node whose path string has length `len`:
`none` when the entry goes, the remaining node otherwise. -/
def purge (len : Nat) : Node → Res (Option Node)
  | .reg _ => .ok none
  | .special k => .ok (some (.special k))
  | .dir es =>
    match purgeL len es with
    | .ok [] => .ok none
    | .ok (e :: rest) => .ok (some (.dir (e :: rest)))
    | .undefined => .undefined
    | .nofuel => .nofuel
/-- What the loop of `remove_dir` leaves of the entries of a directory. -/
def purgeL (len : Nat) : Entries → Res Entries
  | [] => .ok []
  | (n, c) :: rest =>
    if len + 1 + n.length + 1 ≤ DIR_NAME_SIZE then
      match purge (len + 1 + n.length) c with
      | .ok r =>
        match purgeL len rest with
        | .ok rest2 =>
          match r with
          | some c2 => .ok ((n, c2) :: rest2)
          | none => .ok rest2
        | .undefined => .undefined
        | .nofuel => .nofuel
      | .undefined => .undefined
      | .nofuel => .nofuel
    else .undefined
end

/-- The names of the directories directly under the root. -/
def topDirNames : Node → List CStr
  | .dir es => (es.filter (fun e => e.2.isDir)).map Prod.fst
  | _ => []

/-- The string `pd/name` fits `tmppath` with its terminator. -/
def fitsTmppath (pd name : CStr) : Prop := pd.length + 1 + name.length + 1 ≤ TMPPATH_SIZE

instance (pd name : CStr) : Decidable (fitsTmppath pd name) := by
  unfold fitsTmppath; infer_instance

/-- The scan loop of `main` in closed form, entry by entry: the entries left
under the root and `key_check` afterwards. -/
def scanSpec (pd : CStr) (keys : List CStr) : Entries → List Int → Res (Entries × List Int)
  | [], kc => .ok ([], kc)
  | (n, c) :: rest, kc =>
    if fitsTmppath pd n then
      if c.isDir then
        if main_flag n keys 0 0 = 0 then
          match purge (pd.length + 1 + n.length) c with
          | .ok r =>
            (scanSpec pd keys rest kc).map
              (fun p => ((match r with
                | some c2 => (n, c2) :: p.1
                | none => p.1), p.2))
          | .undefined => .undefined
          | .nofuel => .nofuel
        else if (main_flag n keys 0 0 - 1).toNat < kc.length then
          (scanSpec pd keys rest (kc.set (main_flag n keys 0 0 - 1).toNat 1)).map
            (fun p => ((n, c) :: p.1, p.2))
        else .undefined
      else (scanSpec pd keys rest kc).map (fun p => ((n, c) :: p.1, p.2))
    else .undefined

/-- Two lists hold the same names. -/
def sameNames (a b : List CStr) : Prop := a ⊆ b ∧ b ⊆ a

instance (a b : List CStr) : Decidable (sameNames a b) := by
  unfold sameNames; infer_instance

/-- A backing root with directories `a`, `b`, `c`, content under each. -/
def abcRoot : Node :=
  .dir [("a".toList, .dir [("keep".toList, .reg [1])]),
        ("b".toList, .dir [("sub".toList, .dir [("f".toList, .reg [2])]), ("g".toList, .reg [])]),
        ("c".toList, .dir []),
        ("note".toList, .reg [3])]

/-- A name of `n` letters `a`. -/
def longName (n : Nat) : CStr := List.replicate n 'a'

/-- Nothing the reconciliation stores, builds or indexes goes past the block
or fixed buffer meant for it: the pointers to the keys fit the block allocated
for `key_list`, the root is a directory, there are at most `KEY_CHECK_SIZE`
keys, every `pd/name` of a top-level entry or key fits `tmppath`, and every
path string below a top-level directory that is not a key fits `dir_name`. -/
def WithinBuffers (pf : Platform) (pd : CStr) (keys : List CStr) : Node → Prop
  | .dir es =>
    KeyListFits pf keys.length ∧
    keys.length ≤ KEY_CHECK_SIZE ∧ (∀ e ∈ es, fitsTmppath pd e.1) ∧
    (∀ k ∈ keys, fitsTmppath pd k) ∧
    (∀ e ∈ es, e.2.isDir = true → e.1 ∉ keys → fits (pd.length + 1 + e.1.length) e.2 = true)
  | _ => False

instance (pf : Platform) (pd : CStr) (keys : List CStr) (root : Node) :
    Decidable (WithinBuffers pf pd keys root) := by
  cases root <;> unfold WithinBuffers <;> infer_instance

/-- The tree with the node at a location replaced (`some`) or its entry
dropped (`none`). -/
def putAt (root : Node) (p : Path) (r : Option Node) : Node :=
  inParent (fun es c => setEntry es c r) root p

/-! # Proofs -/

/-! ## Path translator: proofs -/

theorem charAt_append_left (a b : CStr) (i : Nat) (h : i < a.length) :
    charAt a i = (a ++ b).getD i NUL := by
  simp [charAt, List.getD_eq_getElem?_getD, List.getElem?_append_left h]

theorem charAt_append_right (a b : CStr) (i : Nat) (h : a.length ≤ i) :
    charAt b (i - a.length) = (a ++ b).getD i NUL := by
  simp [charAt, List.getD_eq_getElem?_getD, List.getElem?_append_right h]

theorem take_succ_set (l : List Char) (i : Nat) (c : Char) (h : i < l.length) :
    (l.set i c).take (i + 1) = l.take i ++ [c] := by
  rw [List.set_eq_take_append_cons_drop, if_pos h]
  have hl : (List.take i l).length = i := List.length_take_of_le (Nat.le_of_lt h)
  rw [List.take_append_eq_append_take, hl]
  simp [List.take_of_length_le, hl]

theorem getnewpath_loop_spec (path pd : CStr) :
    ∀ (fuel i : Nat) (tmp : List Char),
      i ≤ (pd ++ path).length → (pd ++ path).length - i ≤ fuel →
      (pd ++ path).length ≤ tmp.length →
      getnewpath_loop path pd path.length pd.length fuel i tmp
        = tmp.take i ++ (pd ++ path).drop i ++ tmp.drop (pd ++ path).length := by
  intro fuel
  induction fuel with
  | zero =>
    intro i tmp hi hf hl
    have : i = (pd ++ path).length := by omega
    subst this
    simp [getnewpath_loop]
  | succ f ih =>
    intro i tmp hi hf hl
    have hlen : (pd ++ path).length = path.length + pd.length := by
      simp [Nat.add_comm]
    by_cases hlt : i < path.length + pd.length
    · have hi2 : i < (pd ++ path).length := by omega
      have hdrop : (pd ++ path).drop i = (pd ++ path).getD i NUL :: (pd ++ path).drop (i + 1) := by
        rw [List.getD_eq_getElem _ _ hi2]
        exact List.drop_eq_getElem_cons hi2
      have key : ∀ c : Char,
          getnewpath_loop path pd path.length pd.length f (i + 1) (tmp.set i c)
            = tmp.take i ++ c :: (pd ++ path).drop (i + 1) ++ tmp.drop (pd ++ path).length := by
        intro c
        rw [ih (i + 1) (tmp.set i c) (by omega) (by omega) (by simpa using hl)]
        have h1 : (tmp.set i c).take (i + 1) = tmp.take i ++ [c] :=
          take_succ_set tmp i c (by omega)
        have h2 : (tmp.set i c).drop (pd ++ path).length = tmp.drop (pd ++ path).length := by
          rw [List.drop_set_of_lt _ _ hi2]
        rw [h1, h2]
        simp
      unfold getnewpath_loop
      rw [if_pos hlt]
      by_cases h2 : i < pd.length
      · rw [if_pos h2, charAt_append_left pd path i h2, key, hdrop]
      · rw [if_neg h2, charAt_append_right pd path i (by omega), key, hdrop]
    · have : i = (pd ++ path).length := by omega
      subst this
      unfold getnewpath_loop
      rw [if_neg hlt]
      simp

theorem getnewpath_buffer (tmp : List Char) (path pd : CStr)
    (h : strlen pd + strlen path + 1 ≤ tmp.length) :
    getnewpath tmp path pd = pd ++ path ++ NUL :: tmp.drop (strlen pd + strlen path + 1) := by
  unfold strlen at h
  have hlen : (pd ++ path).length = path.length + pd.length := by simp [Nat.add_comm]
  unfold getnewpath strlen
  simp only []
  rw [getnewpath_loop_spec path pd _ 0 _ (by omega) (by omega) (by simp [memset0]; omega)]
  have hmin : min (path.length + pd.length + 1) tmp.length = path.length + pd.length + 1 := by
    omega
  simp only [memset0, hmin, List.take_zero, List.drop_zero, List.nil_append, hlen]
  rw [List.drop_append_of_le_length (by simp)]
  simp [List.drop_replicate, Nat.add_comm pd.length]

theorem bufString_terminated (s : CStr) (rest : List Char) (h : NulFree s) :
    bufString (s ++ NUL :: rest) = s := by
  unfold bufString
  induction s with
  | nil => simp [List.takeWhile]
  | cons c s ih =>
    have hc : c ≠ NUL := by
      intro e; apply h; rw [e]; exact List.mem_cons_self _ _
    have hs : NulFree s := by
      intro e; apply h; exact List.mem_cons_of_mem _ e
    have ih2 := ih hs
    simp only [List.cons_append, List.takeWhile_cons, ne_eq, hc, not_false_eq_true, decide_True]
    rw [ih2]
    simp

theorem nulFree_append {a b : CStr} (ha : NulFree a) (hb : NulFree b) : NulFree (a ++ b) := by
  unfold NulFree at *
  simp [ha, hb]

/-! ## Access policy: proofs -/

theorem drop_eq_charAt_cons (s : CStr) (i : Nat) (h : i < s.length) :
    s.drop i = charAt s i :: s.drop (i + 1) := by
  unfold charAt
  rw [List.getD_eq_getElem _ _ h]
  exact List.drop_eq_getElem_cons h

theorem charAt_mem (s : CStr) (i : Nat) (h : i < s.length) : charAt s i ∈ s := by
  unfold charAt
  rw [List.getD_eq_getElem _ _ h]
  exact List.getElem_mem h

theorem length_takeWhile_drop_le (s : CStr) (i : Nat) (q : Char → Bool) :
    ((s.drop i).takeWhile q).length + i ≤ max s.length i := by
  have h1 : ((s.drop i).takeWhile q).length ≤ (s.drop i).length :=
    (List.takeWhile_sublist q).length_le
  rw [List.length_drop] at h1
  omega

theorem is_accessible_copy_spec (path : CStr) :
    ∀ (fuel i j : Nat) (tmp : List Char),
      1 ≤ i → path.length - i ≤ fuel →
      j + ((path.drop i).takeWhile (fun c => c ≠ SEP)).length ≤ tmp.length →
      is_accessible_copy path path.length fuel i (j : Int) tmp
        = (((j + ((path.drop i).takeWhile (fun c => c ≠ SEP)).length : Nat) : Int),
            tmp.take j ++ (path.drop i).takeWhile (fun c => c ≠ SEP)
              ++ tmp.drop (j + ((path.drop i).takeWhile (fun c => c ≠ SEP)).length)) := by
  intro fuel
  induction fuel with
  | zero =>
    intro i j tmp hi hf hl
    have hd : path.drop i = [] := List.drop_eq_nil_of_le (by omega)
    simp [is_accessible_copy, hd]
  | succ f ih =>
    intro i j tmp hi hf hl
    unfold is_accessible_copy
    by_cases hlt : i < path.length
    · rw [if_pos hlt]
      have hne : ¬ (i = 0 ∧ charAt path i = SEP) := by omega
      rw [if_neg hne]
      have hd := drop_eq_charAt_cons path i hlt
      by_cases hc : charAt path i = SEP
      · rw [if_pos hc]
        simp [hd, hc]
      · rw [if_neg hc]
        have hseg : (path.drop i).takeWhile (fun c => c ≠ SEP)
            = charAt path i :: (path.drop (i + 1)).takeWhile (fun c => c ≠ SEP) := by
          rw [hd]; simp [List.takeWhile_cons, hc]
        rw [hseg] at hl ⊢
        simp only [List.length_cons] at hl ⊢
        have hj : ((j : Int) + 1) = ((j + 1 : Nat) : Int) := by push_cast; rfl
        rw [hj, Int.toNat_ofNat]
        rw [ih (i + 1) (j + 1) (tmp.set j (charAt path i)) (by omega) (by omega)
          (by simp only [List.length_set]; omega)]
        rw [take_succ_set tmp j _ (by omega), List.drop_set_of_lt _ _ (by omega)]
        have e : j + 1 + ((path.drop (i + 1)).takeWhile (fun c => c ≠ SEP)).length
            = j + (((path.drop (i + 1)).takeWhile (fun c => c ≠ SEP)).length + 1) := by omega
        rw [e]
        simp
    · rw [if_neg hlt]
      have hd : path.drop i = [] := List.drop_eq_nil_of_le (by omega)
      simp [hd]

theorem is_accessible_find_spec (tmp : CStr) (keys : List CStr) :
    is_accessible_find tmp keys = if tmp ∈ keys then 1 else 0 := by
  induction keys with
  | nil => simp [is_accessible_find]
  | cons k ks ih =>
    unfold is_accessible_find
    by_cases h : k = tmp
    · simp [h]
    · rw [if_neg h, ih]
      have h2 : ¬ tmp = k := fun e => h e.symm
      simp [h2]

theorem nulFree_firstSegment (p : CStr) (h : NulFree p) : NulFree (firstSegment p) := by
  intro hm
  apply h
  unfold firstSegment at hm
  exact List.mem_of_mem_drop ((List.takeWhile_sublist _).subset hm)

/-- With the flag set, a path `'/' :: rest` of length at least two is
accessible exactly when its first segment is a key. -/
theorem is_accessible_long (g : Globals) (buf : List Char) (rest : CStr)
    (hinit : g.init_over ≠ 0) (hrest : rest ≠ [])
    (hbuf : buf.length = strlen (SEP :: rest) + 1) (hnul : NulFree (SEP :: rest)) :
    is_accessible g buf (SEP :: rest)
      = if firstSegment (SEP :: rest) ∈ g.key_list then 1 else 0 := by
  have hl : rest.length ≠ 0 := by
    intro h; exact hrest (List.length_eq_zero.mp h)
  unfold is_accessible
  rw [if_neg hinit]
  simp only [strlen, List.length_cons] at hbuf ⊢
  rw [if_neg (by omega)]
  have hstep : is_accessible_copy (SEP :: rest) (rest.length + 1) (rest.length + 1) 0 0 buf
      = is_accessible_copy (SEP :: rest) (rest.length + 1) rest.length 1 ((0 : Nat) : Int) buf := by
    conv => lhs; unfold is_accessible_copy
    simp [charAt]
  have hseglen := length_takeWhile_drop_le (SEP :: rest) 1 (fun c => c ≠ SEP)
  simp only [List.length_cons] at hseglen
  have hspec := is_accessible_copy_spec (SEP :: rest) rest.length 1 0 buf (by omega)
    (by simp) (by omega)
  simp only [List.length_cons] at hspec
  rw [hstep, hspec]
  simp only [Nat.zero_add, List.take_zero, List.nil_append, Int.toNat_ofNat]
  have hset : (List.takeWhile (fun c => decide (c ≠ SEP)) (List.drop 1 (SEP :: rest))
        ++ List.drop (List.takeWhile (fun c => decide (c ≠ SEP)) (List.drop 1 (SEP :: rest))).length buf).set
        (List.takeWhile (fun c => decide (c ≠ SEP)) (List.drop 1 (SEP :: rest))).length NUL
      = firstSegment (SEP :: rest) ++ NUL :: buf.drop ((firstSegment (SEP :: rest)).length + 1) := by
    rw [List.set_eq_take_append_cons_drop]
    have hlen2 : (firstSegment (SEP :: rest)).length < buf.length := by
      unfold firstSegment; omega
    unfold firstSegment at hlen2 ⊢
    rw [if_pos (by simp only [List.length_append, List.length_drop]; omega)]
    rw [List.take_left, List.drop_append_eq_append_drop]
    simp
  rw [hset, bufString_terminated _ _ (nulFree_firstSegment _ hnul), is_accessible_find_spec]

theorem is_key_directory_loop_spec (path : CStr) (hnul : NulFree path) :
    ∀ (fuel i : Nat), path.length - i ≤ fuel →
      is_key_directory_loop path path.length fuel i 0
        = if SEP ∈ path.drop i then 1 else 0 := by
  intro fuel
  induction fuel with
  | zero =>
    intro i hf
    have hd : path.drop i = [] := List.drop_eq_nil_of_le (by omega)
    simp [is_key_directory_loop, hd]
  | succ f ih =>
    intro i hf
    unfold is_key_directory_loop
    by_cases hlt : i < path.length
    · rw [if_pos hlt]
      have hd := drop_eq_charAt_cons path i hlt
      have hn : charAt path i ≠ NUL := by
        intro e
        apply hnul
        rw [← e]
        exact charAt_mem path i hlt
      by_cases hc : charAt path i = SEP
      · simp [hd, hc, hn]
        intro h; exact absurd (hc ▸ h) hn
      · have h2 : ¬ SEP = charAt path i := fun e => hc e.symm
        simp only [hc, if_false]
        rw [if_neg (by simp), ih (i + 1) (by omega), hd]
        simp [h2]
    · rw [if_neg hlt]
      have hd : path.drop i = [] := List.drop_eq_nil_of_le (by omega)
      simp [hd]

/-! ## Dispatcher: proofs -/

theorem finish_trace {W : Type} (sys : Sys W) (r : Int × W) (tr : List Call) :
    (finish sys r tr).trace = tr := by
  unfold finish; split <;> rfl

theorem deny_ne_of_trace {W : Type} (w : W) (out : Out W) (h : out.trace ≠ []) :
    out ≠ deny w := by
  intro e; apply h; rw [e]; rfl

theorem transfer_forwarded {W : Type} (sys : Sys W) (tmp : CStr) (oflag : Int)
    (io : Int → Call) (hio : ∀ fd, (io fd).paths = []) (fi : Option FileInfo) (w : W)
    (hfi : ∀ f, fi = some f → f.fh ≠ -1) :
    (transfer sys tmp oflag io fi w).trace ≠ [] ∧
      ∀ c ∈ (transfer sys tmp oflag io fi w).trace, ∀ q ∈ c.paths, q = tmp := by
  unfold transfer
  cases fi with
  | none =>
    simp only []
    split
    · simp [Call.paths]
    · refine ⟨by simp, ?_⟩
      intro c hc q hq
      simp only [List.mem_cons, List.mem_singleton, List.not_mem_nil, or_false] at hc
      rcases hc with rfl | rfl | rfl
      · simpa [Call.paths] using hq
      · rw [hio] at hq; simp at hq
      · simp [Call.paths] at hq
  | some f =>
    simp only []
    rw [if_neg (hfi f rfl)]
    refine ⟨by simp, ?_⟩
    intro c hc q hq
    simp only [List.mem_singleton] at hc
    subst hc
    rw [hio] at hq; simp at hq

theorem forwarded_finish {W : Type} (sys : Sys W) (g : Globals) (op : Op) (r : Int × W)
    (tr : List Call) (hne : tr ≠ [])
    (h : ∀ c ∈ tr, ∀ q ∈ c.paths, ∃ p ∈ op.paths, q = translate sys g p) :
    Forwarded sys g op (finish sys r tr) := by
  unfold Forwarded
  rw [finish_trace]
  exact ⟨hne, h⟩

theorem forwarded_transfer {W : Type} (sys : Sys W) (g : Globals) (op : Op) (p : CStr)
    (hp : p ∈ op.paths) (oflag : Int) (io : Int → Call) (hio : ∀ fd, (io fd).paths = [])
    (fi : Option FileInfo) (w : W) (hfi : ∀ f, fi = some f → f.fh ≠ -1) :
    Forwarded sys g op (transfer sys (translate sys g p) oflag io fi w) := by
  have h := transfer_forwarded sys (translate sys g p) oflag io hio fi w hfi
  exact ⟨h.1, fun c hc q hq => ⟨p, hp, h.2 c hc q hq⟩⟩

theorem einval_ne_deny {W : Type} (w : W) : (⟨-EINVAL, w, [], none⟩ : Out W) ≠ deny w := by
  intro e
  have h := congrArg Out.ret e
  simp [deny, EINVAL, EACCES] at h

/-- The three facts of the policy matrix for one request, from its two
branches. -/
theorem policy_cases {W : Type} (sys : Sys W) (g : Globals) (op : Op) (w : W)
    (hdeny : policyMatrix sys g op = false → dispatch sys g op w = deny w)
    (hflags : policyMatrix sys g op = true → op.renameWithFlags →
      dispatch sys g op w = ⟨-EINVAL, w, [], none⟩)
    (hfwd : policyMatrix sys g op = true → ¬ op.renameWithFlags →
      Forwarded sys g op (dispatch sys g op w)) :
    (dispatch sys g op w = deny w ↔ policyMatrix sys g op = false) ∧
    (policyMatrix sys g op = true → op.renameWithFlags →
      dispatch sys g op w = ⟨-EINVAL, w, [], none⟩) ∧
    (policyMatrix sys g op = true → ¬ op.renameWithFlags →
      Forwarded sys g op (dispatch sys g op w)) := by
  refine ⟨⟨?_, hdeny⟩, hflags, hfwd⟩
  intro hd
  by_contra hp
  have hp : policyMatrix sys g op = true := by simpa using hp
  by_cases hr : op.renameWithFlags
  · rw [hflags hp hr] at hd
    exact einval_ne_deny w hd
  · exact deny_ne_of_trace w _ (hfwd hp hr).1 hd

theorem dispatch_policy_all {W : Type} (sys : Sys W) (g : Globals) (op : Op) (w : W)
    (hfh : op.handleOk) :
    (dispatch sys g op w = deny w ↔ policyMatrix sys g op = false) ∧
    (policyMatrix sys g op = true → op.renameWithFlags →
      dispatch sys g op w = ⟨-EINVAL, w, [], none⟩) ∧
    (policyMatrix sys g op = true → ¬ op.renameWithFlags →
      Forwarded sys g op (dispatch sys g op w)) := by
  apply policy_cases
  · intro h
    cases op <;>
      simp only [policyMatrix, Bool.and_eq_false_iff, decide_eq_false_iff_not, ne_eq,
        not_not] at h <;>
      first
      | exact absurd h (Bool.noConfusion)
      | (simp only [dispatch, xmp_mknod, xmp_mkdir, xmp_chmod, xmp_unlink, xmp_rmdir,
          xmp_chown, xmp_truncate, xmp_open, xmp_create, xmp_read, xmp_write, xmp_symlink,
          xmp_link, xmp_rename]
         split_ifs <;> first | rfl | (exfalso; tauto))
  · intro h hr
    cases op <;> simp only [Op.renameWithFlags] at hr
    case rename a b flags =>
      simp only [policyMatrix, Bool.and_eq_true, decide_eq_true_eq, ne_eq] at h
      obtain ⟨⟨⟨h1, h2⟩, h3⟩, h4⟩ := h
      simp only [dispatch, xmp_rename]
      rw [if_neg (by tauto), if_neg (by tauto), if_pos hr]
  · intro h hr
    cases op <;>
      simp only [policyMatrix, Bool.and_eq_true, decide_eq_true_eq, ne_eq] at h <;>
      simp only [dispatch, xmp_getattr, xmp_readlink, xmp_readdir, xmp_statfs, xmp_mknod,
        xmp_mkdir, xmp_chmod, xmp_unlink, xmp_rmdir, xmp_chown, xmp_truncate, xmp_open,
        xmp_create, xmp_read, xmp_write, xmp_symlink, xmp_link, xmp_rename]
    case getattr p => exact forwarded_finish _ _ _ _ _ (by simp) (by simp [Call.paths, Op.paths])
    case readlink p size =>
      exact forwarded_finish _ _ _ _ _ (by simp) (by simp [Call.paths, Op.paths])
    case readdir p filler =>
      split <;> simp [Forwarded, Call.paths, Op.paths]
    case statfs p => exact forwarded_finish _ _ _ _ _ (by simp) (by simp [Call.paths, Op.paths])
    case mknod p mode rdev =>
      rw [if_neg h]
      split_ifs <;> exact forwarded_finish _ _ _ _ _ (by simp) (by simp [Call.paths, Op.paths])
    case mkdir p mode =>
      rw [if_neg h]
      exact forwarded_finish _ _ _ _ _ (by simp) (by simp [Call.paths, Op.paths])
    case chmod p mode =>
      rw [if_neg h]
      exact forwarded_finish _ _ _ _ _ (by simp) (by simp [Call.paths, Op.paths])
    case unlink p =>
      rw [if_neg h.1, if_neg h.2]
      exact forwarded_finish _ _ _ _ _ (by simp) (by simp [Call.paths, Op.paths])
    case rmdir p =>
      rw [if_neg h.1, if_neg h.2]
      exact forwarded_finish _ _ _ _ _ (by simp) (by simp [Call.paths, Op.paths])
    case chown p uid gid =>
      rw [if_neg h.1, if_neg h.2]
      exact forwarded_finish _ _ _ _ _ (by simp) (by simp [Call.paths, Op.paths])
    case truncate p size fi =>
      rw [if_neg h.1, if_neg h.2]
      cases fi <;>
        exact forwarded_finish _ _ _ _ _ (by simp) (by simp [Call.paths, Op.paths])
    case openFile p fi =>
      rw [if_neg h.1, if_neg h.2]
      split <;> simp [Forwarded, Call.paths, Op.paths]
    case create p mode fi =>
      rw [if_neg h.1, if_neg h.2]
      split <;> simp [Forwarded, Call.paths, Op.paths]
    case read p size offset fi =>
      rw [if_neg h.1, if_neg h.2]
      apply forwarded_transfer sys g _ p (by simp [Op.paths]) O_RDONLY
        (fun fd => Call.pread fd size offset) (fun _ => rfl)
      intro f hf; subst hf; exact hfh
    case write p size offset fi =>
      rw [if_neg h.1, if_neg h.2]
      apply forwarded_transfer sys g _ p (by simp [Op.paths]) O_WRONLY
        (fun fd => Call.pwrite fd size offset) (fun _ => rfl)
      intro f hf; subst hf; exact hfh
    case symlink a b =>
      rw [if_neg (by tauto), if_neg h.2]
      exact forwarded_finish _ _ _ _ _ (by simp) (by simp [Call.paths, Op.paths])
    case link a b =>
      rw [if_neg (by tauto), if_neg h.2]
      exact forwarded_finish _ _ _ _ _ (by simp) (by simp [Call.paths, Op.paths])
    case rename a b flags =>
      simp only [Op.renameWithFlags, ne_eq, not_not] at hr
      rw [if_neg (by tauto), if_neg (by tauto), if_neg (by simp [hr])]
      exact forwarded_finish _ _ _ _ _ (by simp) (by simp [Call.paths, Op.paths])

theorem takeWhile_ne_append (c : Char) (s rest : List Char) (h : c ∉ s) :
    (s ++ c :: rest).takeWhile (fun x => x ≠ c) = s := by
  induction s with
  | nil => simp [List.takeWhile]
  | cons a s ih =>
    have ha : a ≠ c := by
      intro e; apply h; rw [e]; exact List.mem_cons_self _ _
    have hs : c ∉ s := fun e => h (List.mem_cons_of_mem _ e)
    have ih2 := ih hs
    simp only [List.cons_append, List.takeWhile_cons, ne_eq, ha, not_false_eq_true, decide_True]
    rw [ih2]
    simp

theorem split_at_sep (s : List Char) (h : SEP ∈ s) :
    ∃ r, s = s.takeWhile (fun x => x ≠ SEP) ++ SEP :: r := by
  induction s with
  | nil => simp at h
  | cons a s ih =>
    by_cases ha : a = SEP
    · exact ⟨s, by simp [List.takeWhile, ha]⟩
    · have hs : SEP ∈ s := by
        rcases List.mem_cons.mp h with e | e
        · exact absurd e.symm ha
        · exact e
      obtain ⟨r, hr⟩ := ih hs
      refine ⟨r, ?_⟩
      simp only [List.takeWhile_cons, ne_eq, ha, not_false_eq_true, decide_True, if_true,
        List.cons_append]
      rw [← hr]

theorem accessible_root {W : Type} (sys : Sys W) (g : Globals) : accessible sys g [SEP] = 1 := by
  unfold accessible is_accessible
  split
  · rfl
  · simp [strlen]

theorem accessible_long {W : Type} (sys : Sys W) (g : Globals) (rest : CStr)
    (hinit : g.init_over ≠ 0) (hrest : rest ≠ []) (hnul : NulFree (SEP :: rest)) :
    accessible sys g (SEP :: rest)
      = if firstSegment (SEP :: rest) ∈ g.key_list then 1 else 0 :=
  is_accessible_long g _ rest hinit hrest (sys.malloc_length _) hnul

theorem key_directory_spec (g : Globals) (p : CStr) (hinit : g.init_over ≠ 0)
    (hnul : NulFree p) :
    is_key_directory g p = if hasSecondSeparator p then 1 else 0 := by
  unfold is_key_directory hasSecondSeparator
  rw [if_neg hinit]
  exact is_key_directory_loop_spec p hnul p.length 1 (by omega)

theorem translate_eq {W : Type} (sys : Sys W) (g : Globals) (p : CStr)
    (hpd : NulFree g.pd) (hnul : NulFree p) : translate sys g p = g.pd ++ p := by
  unfold translate
  simp only []
  rw [getnewpath_buffer _ _ _ (by rw [sys.malloc_length])]
  rw [List.append_assoc]
  have := bufString_terminated (g.pd ++ p) (List.drop (strlen g.pd + strlen p + 1)
    (sys.malloc (strlen g.pd + strlen p + 1))) (nulFree_append hpd hnul)
  simpa using this

/-- Both predicates hold exactly for the paths strictly inside a key directory. -/
theorem gate_iff_insideKey {W : Type} (sys : Sys W) (g : Globals) (p rest : CStr)
    (hinit : g.init_over ≠ 0) (hkeys : ∀ k ∈ g.key_list, SEP ∉ k)
    (hp : p = SEP :: rest) (hnul : NulFree p) :
    (accessible sys g p ≠ 0 ∧ is_key_directory g p ≠ 0) ↔ InsideKey g.key_list p := by
  subst hp
  rw [key_directory_spec g _ hinit hnul]
  constructor
  · rintro ⟨ha, hk⟩
    have hsep : SEP ∈ rest := by
      by_contra hno
      apply hk
      simp [hasSecondSeparator, hno]
    have hrest : rest ≠ [] := by
      intro e; rw [e] at hsep; simp at hsep
    rw [accessible_long sys g rest hinit hrest hnul] at ha
    have hmem : firstSegment (SEP :: rest) ∈ g.key_list := by
      by_contra hno
      apply ha
      simp [hno]
    obtain ⟨r, hr⟩ := split_at_sep rest hsep
    refine ⟨firstSegment (SEP :: rest), r, hmem, ?_⟩
    unfold firstSegment
    simp only [List.drop_succ_cons, List.drop_zero, List.cons_append]
    rw [← hr]
  · rintro ⟨k, r, hk, hp⟩
    have hrest : rest = k ++ SEP :: r := by
      simpa using hp
    have hne : rest ≠ [] := by
      rw [hrest]; simp
    have hseg : firstSegment (SEP :: rest) = k := by
      unfold firstSegment
      simp only [List.drop_succ_cons, List.drop_zero]
      rw [hrest]
      exact takeWhile_ne_append SEP k r (hkeys k hk)
    rw [accessible_long sys g rest hinit hne hnul, hseg]
    have hsec : hasSecondSeparator (SEP :: rest) := by
      unfold hasSecondSeparator
      simp [hrest]
    simp [hk, hsec]

theorem policy_of_gated {W : Type} (sys : Sys W) (g : Globals) (p : CStr) (op : Op)
    (hop : op.gatedOn p) :
    policyMatrix sys g op
      = (decide (accessible sys g p ≠ 0) && decide (is_key_directory g p ≠ 0)) ∧
    op.paths = [p] ∧ ¬ op.renameWithFlags := by
  cases op <;> simp only [Op.gatedOn] at hop <;> subst hop <;>
    simp [policyMatrix, Op.paths, Op.renameWithFlags]

/-- Confinement of the doubly gated operations, in general form. -/
theorem gated_confined {W : Type} (sys : Sys W) (g : Globals) (p rest : CStr) (op : Op) (w : W)
    (hinit : g.init_over ≠ 0) (hkeys : ∀ k ∈ g.key_list, SEP ∉ k)
    (hp : p = SEP :: rest) (hnul : NulFree p) (hpd : NulFree g.pd)
    (hop : op.gatedOn p) (hfh : op.handleOk) :
    (InsideKey g.key_list p →
      (dispatch sys g op w).trace ≠ [] ∧
      (∀ c ∈ (dispatch sys g op w).trace, ∀ q ∈ c.paths, q = g.pd ++ p) ∧
      translate sys g p = g.pd ++ p) ∧
    (¬ InsideKey g.key_list p → dispatch sys g op w = deny w) := by
  have hall := dispatch_policy_all sys g op w hfh
  obtain ⟨hpol, hpaths, hnr⟩ := policy_of_gated sys g p op hop
  have hgate := gate_iff_insideKey sys g p rest hinit hkeys hp hnul
  constructor
  · intro hin
    have ht : policyMatrix sys g op = true := by
      rw [hpol]
      have := hgate.mpr hin
      simp [this.1, this.2]
    have hf := hall.2.2 ht hnr
    refine ⟨hf.1, ?_, translate_eq sys g p hpd hnul⟩
    intro c hc q hq
    obtain ⟨p2, hp2, hq2⟩ := hf.2 c hc q hq
    rw [hpaths] at hp2
    simp only [List.mem_singleton] at hp2
    rw [hq2, hp2, translate_eq sys g p hpd hnul]
  · intro hout
    apply hall.1.mpr
    rw [hpol]
    by_contra hne
    apply hout
    apply hgate.mp
    simpa using hne

/-! ## Backing store: entries and locations -/

theorem lookupE_setEntry_same (es : Entries) (name : CStr) (r : Option Node)
    (h : lookupE es name ≠ none) : lookupE (setEntry es name r) name
      = match r with
        | some c => some c
        | none => lookupE (setEntry es name none) name := by
  induction es with
  | nil => simp [lookupE] at h
  | cons e rest ih =>
    obtain ⟨n, c⟩ := e
    by_cases hn : n = name
    · cases r <;> simp [setEntry, lookupE, hn]
    · have h2 : lookupE rest name ≠ none := by simpa [lookupE, hn] using h
      cases r with
      | none => rfl
      | some c2 =>
        have := ih h2
        simp only [setEntry, lookupE, hn, if_false]
        simpa using this

theorem lookupE_setEntry_some (es : Entries) (name : CStr) (c : Node)
    (h : lookupE es name ≠ none) : lookupE (setEntry es name (some c)) name = some c := by
  have := lookupE_setEntry_same es name (some c) h
  simpa using this

theorem lookupE_setEntry_ne (es : Entries) (name other : CStr) (r : Option Node)
    (h : other ≠ name) : lookupE (setEntry es name r) other = lookupE es other := by
  induction es with
  | nil => rfl
  | cons e rest ih =>
    obtain ⟨n, c⟩ := e
    by_cases hn : n = name
    · subst hn
      have hno : ¬ n = other := fun e => h e.symm
      cases r <;> simp [setEntry, lookupE, hno]
    · by_cases ho : n = other
      · subst ho
        simp [setEntry, lookupE, hn]
      · simp [setEntry, lookupE, hn, ho, ih]

theorem setEntry_self (es : Entries) (name : CStr) (c : Node) (h : lookupE es name = some c) :
    setEntry es name (some c) = es := by
  induction es with
  | nil => rfl
  | cons e rest ih =>
    obtain ⟨n, c0⟩ := e
    by_cases hn : n = name
    · simp only [lookupE, hn, if_true, Option.some.injEq] at h
      simp [setEntry, hn, h]
    · simp only [lookupE, hn, if_false] at h
      simp [setEntry, hn, ih h]

theorem setEntry_setEntry (es : Entries) (name : CStr) (a : Node) (r : Option Node) :
    setEntry (setEntry es name (some a)) name r = setEntry es name r := by
  induction es with
  | nil => rfl
  | cons e rest ih =>
    obtain ⟨n, c0⟩ := e
    by_cases hn : n = name
    · cases r <;> simp [setEntry, hn]
    · simp [setEntry, hn, ih]

theorem setEntry_absent (es : Entries) (name : CStr) (r : Option Node)
    (h : lookupE es name = none) : setEntry es name r = es := by
  induction es with
  | nil => rfl
  | cons e rest ih =>
    obtain ⟨n, c0⟩ := e
    by_cases hn : n = name
    · simp [lookupE, hn] at h
    · simp only [lookupE, hn, if_false] at h
      simp [setEntry, hn, ih h]

theorem lookup_cons (es : Entries) (name : CStr) (q : Path) :
    lookup (.dir es) (name :: q) = (lookupE es name).bind (fun n => lookup n q) := by
  simp only [lookup]
  cases lookupE es name <;> rfl

theorem lookup_nil (n : Node) : lookup n [] = some n := by
  cases n <;> rfl

theorem inParent_cons (f : Entries → CStr → Entries) (es : Entries) (name c2 : CStr)
    (cs : Path) (n : Node) (h : lookupE es name = some n) :
    inParent f (.dir es) (name :: c2 :: cs)
      = .dir (setEntry es name (some (inParent f n (c2 :: cs)))) := by
  simp [inParent, h]

theorem pathString_cons (pd : CStr) (name : CStr) (q : Path) :
    pathString pd (name :: q) = pathString (pd ++ SEP :: name) q := rfl

theorem pathString_one (pd : CStr) (name : CStr) :
    pathString pd [name] = pd ++ SEP :: name := rfl

/-! ### Native calls one level down -/

theorem nat_access_cons (es : Entries) (name : CStr) (q : Path) (n : Node)
    (h : lookupE es name = some n) :
    nat_access (.dir es) (name :: q) = nat_access n q := by
  simp [nat_access, lookup_cons, h]

theorem nat_lstat_cons (es : Entries) (name : CStr) (q : Path) (n : Node)
    (h : lookupE es name = some n) :
    nat_lstat (.dir es) (name :: q) = nat_lstat n q := by
  simp [nat_lstat, lookup_cons, h]

theorem nat_readdir_cons (es : Entries) (name : CStr) (q : Path) (n : Node)
    (h : lookupE es name = some n) :
    nat_readdir (.dir es) (name :: q) = nat_readdir n q := by
  unfold nat_readdir
  rw [lookup_cons, h]
  rfl

theorem nat_remove_cons (es : Entries) (name : CStr) (q : Path) (n : Node) (hq : q ≠ [])
    (h : lookupE es name = some n) :
    nat_remove (.dir es) (name :: q) = .dir (setEntry es name (some (nat_remove n q))) := by
  obtain ⟨c2, cs, rfl⟩ := List.exists_cons_of_ne_nil hq
  unfold nat_remove
  rw [lookup_cons, h]
  simp only [Option.some_bind]
  split
  · rw [setEntry_self es name n h]
  · rw [setEntry_self es name n h]
  · rw [inParent_cons _ es name c2 cs n h]

theorem nat_rmdir_cons (es : Entries) (name : CStr) (q : Path) (n : Node) (hq : q ≠ [])
    (h : lookupE es name = some n) :
    nat_rmdir (.dir es) (name :: q) = .dir (setEntry es name (some (nat_rmdir n q))) := by
  obtain ⟨c2, cs, rfl⟩ := List.exists_cons_of_ne_nil hq
  unfold nat_rmdir
  rw [lookup_cons, h]
  simp only [Option.some_bind]
  split
  · rw [inParent_cons _ es name c2 cs n h]
  · rw [setEntry_self es name n h]

/-! ### `remove_dir` one level down -/

theorem remove_dir_loop_descend (self1 self2 : Node → Path → Res (Int × Node))
    (pd name : CStr) (q : Path)
    (hself : ∀ (es : Entries) (n : Node) (d : CStr), lookupE es name = some n →
      self1 (.dir es) (name :: (q ++ [d]))
        = (self2 n (q ++ [d])).map (fun r => (r.1, .dir (setEntry es name (some r.2))))) :
    ∀ (names : List CStr) (es : Entries) (n : Node), lookupE es name = some n →
      remove_dir_loop self1 pd (name :: q) names (.dir es)
        = (remove_dir_loop self2 (pd ++ SEP :: name) q names n).map
            (fun n2 => .dir (setEntry es name (some n2))) := by
  intro names
  induction names with
  | nil =>
    intro es n h
    simp [remove_dir_loop, Res.map, setEntry_self es name n h]
  | cons d rest ih =>
    intro es n h
    unfold remove_dir_loop
    by_cases hd : d = DOT ∨ d = DOTDOT
    · rw [if_pos hd, if_pos hd]
      exact ih es n h
    · rw [if_neg hd, if_neg hd, pathString_cons]
      cases hs : sprintf_path DIR_NAME_SIZE (pathString (pd ++ SEP :: name) q) d with
      | none => rfl
      | some s =>
        simp only []
        have e : name :: q ++ [d] = name :: (q ++ [d]) := rfl
        rw [e, hself es n d h]
        cases h2 : self2 n (q ++ [d]) with
        | ok r =>
          simp only [Res.map]
          have hl : lookupE (setEntry es name (some r.2)) name = some r.2 :=
            lookupE_setEntry_some es name r.2 (by rw [h]; simp)
          rw [ih _ r.2 hl]
          cases remove_dir_loop self2 (pd ++ SEP :: name) q rest r.2 with
          | ok n3 => simp [Res.map, setEntry_setEntry]
          | undefined => rfl
          | nofuel => rfl
        | undefined => rfl
        | nofuel => rfl

theorem remove_dir_descend (pd : CStr) :
    ∀ (fuel : Nat) (name : CStr) (es : Entries) (n : Node) (q : Path), q ≠ [] →
      lookupE es name = some n →
      remove_dir pd fuel (.dir es) (name :: q)
        = (remove_dir (pd ++ SEP :: name) fuel n q).map
            (fun r => (r.1, .dir (setEntry es name (some r.2)))) := by
  intro fuel
  induction fuel generalizing pd with
  | zero => intro name es n q _ _; rfl
  | succ f ih =>
    intro name es n q hq h
    unfold remove_dir
    rw [nat_access_cons es name q n h, nat_lstat_cons es name q n h,
      nat_readdir_cons es name q n h]
    by_cases ha : nat_access n q = false
    · rw [if_pos ha, if_pos ha]
      simp [Res.map, setEntry_self es name n h]
    · rw [if_neg ha, if_neg ha]
      cases hl : nat_lstat n q with
      | none => simp [Res.map, setEntry_self es name n h]
      | some t =>
        cases t with
        | reg => simp [Res.map, nat_remove_cons es name q n hq h]
        | other => simp [Res.map, setEntry_self es name n h]
        | dir =>
          simp only []
          rw [remove_dir_loop_descend (remove_dir pd f) (remove_dir (pd ++ SEP :: name) f)
            pd name q
            (fun es2 n2 d h2 => ih pd name es2 n2 (q ++ [d]) (by simp) h2)
            (nat_readdir n q) es n h]
          cases remove_dir_loop (remove_dir (pd ++ SEP :: name) f) (pd ++ SEP :: name) q
              (nat_readdir n q) n with
          | ok n3 =>
            simp only [Res.map]
            have hl3 : lookupE (setEntry es name (some n3)) name = some n3 :=
              lookupE_setEntry_some es name n3 (by rw [h]; simp)
            rw [nat_rmdir_cons _ name q n3 hq hl3, setEntry_setEntry]
          | undefined => rfl
          | nofuel => rfl

/-! ### `remove_dir` on an entry of the root, in closed form -/

theorem lookupE_append_of_none (a b : Entries) (c : CStr) (h : lookupE a c = none) :
    lookupE (a ++ b) c = lookupE b c := by
  induction a with
  | nil => rfl
  | cons e rest ih =>
    obtain ⟨n, x⟩ := e
    by_cases hn : n = c
    · simp [lookupE, hn] at h
    · simp only [lookupE, hn, if_false] at h
      simp [lookupE, hn, ih h]

theorem setEntry_append_of_none (a b : Entries) (c : CStr) (r : Option Node)
    (h : lookupE a c = none) : setEntry (a ++ b) c r = a ++ setEntry b c r := by
  induction a with
  | nil => rfl
  | cons e rest ih =>
    obtain ⟨n, x⟩ := e
    by_cases hn : n = c
    · simp [lookupE, hn] at h
    · simp only [lookupE, hn, if_false] at h
      simp [setEntry, hn, ih h]

theorem lookupE_ne_none_of_mem (es : Entries) (e : CStr × Node) (h : e ∈ es) :
    lookupE es e.1 ≠ none := by
  induction es with
  | nil => simp at h
  | cons x rest ih =>
    obtain ⟨n, c⟩ := x
    by_cases hn : n = e.1
    · simp [lookupE, hn]
    · have : e ∈ rest := by
        rcases List.mem_cons.mp h with rfl | h2
        · exact absurd rfl hn
        · exact h2
      simpa [lookupE, hn] using ih this

theorem lookupE_mem (es : Entries) (name : CStr) (c : Node) (h : lookupE es name = some c) :
    (name, c) ∈ es := by
  induction es with
  | nil => simp [lookupE] at h
  | cons x rest ih =>
    obtain ⟨n, c0⟩ := x
    by_cases hn : n = name
    · simp only [lookupE, hn, if_true, Option.some.injEq] at h
      simp [hn, h]
    · simp only [lookupE, hn, if_false] at h
      exact List.mem_cons_of_mem _ (ih h)

theorem legalName_not_dots (c : CStr) (h : legalName c = true) : ¬ (c = DOT ∨ c = DOTDOT) := by
  simp only [legalName, Bool.and_eq_true, decide_eq_true_eq] at h
  tauto

theorem wfL_cons (n : CStr) (c : Node) (rest : Entries) (h : wfL ((n, c) :: rest) = true) :
    legalName n = true ∧ lookupE rest n = none ∧ wf c = true ∧ wfL rest = true := by
  simp only [wfL, Bool.and_eq_true, Option.isNone_iff_eq_none] at h
  tauto

theorem sprintf_path_fit (size : Nat) (dir name : CStr) :
    sprintf_path size dir name
      = if dir.length + 1 + name.length + 1 ≤ size then some (dir ++ SEP :: name) else none := by
  unfold sprintf_path
  have : (dir ++ SEP :: name).length + 1 = dir.length + 1 + name.length + 1 := by
    simp; omega
  rw [this]

theorem nat_access_top (es : Entries) (name : CStr) :
    nat_access (.dir es) [name]
      = match lookupE es name with
        | none => false
        | some (.special (.symlink false)) => false
        | some _ => true := by
  unfold nat_access
  rw [lookup_cons]
  cases lookupE es name <;> simp [lookup_nil]

theorem nat_lstat_top (es : Entries) (name : CStr) :
    nat_lstat (.dir es) [name] = (lookupE es name).map Node.ftype := by
  unfold nat_lstat
  rw [lookup_cons]
  cases lookupE es name <;> simp [lookup_nil]

theorem lookup_top (es : Entries) (name : CStr) :
    lookup (.dir es) [name] = lookupE es name := by
  rw [lookup_cons]
  cases lookupE es name <;> simp [lookup_nil]

theorem remove_dir_loop_top (pd name : CStr) (f : Nat)
    (ih : ∀ (pd2 : CStr) (es : Entries) (c : CStr) (ch : Node), lookupE es c = some ch →
      wf ch = true → depth ch < f →
      remove_dir pd2 f (.dir es) [c]
        = (purge (pd2.length + 1 + c.length) ch).map (fun r => (0, .dir (setEntry es c r)))) :
    ∀ (todo done : Entries) (es : Entries),
      lookupE es name = some (.dir (done ++ todo)) →
      wfL todo = true → depthL todo < f → (∀ e ∈ todo, lookupE done e.1 = none) →
      remove_dir_loop (remove_dir pd f) pd [name] (todo.map Prod.fst) (.dir es)
        = (purgeL (pd.length + 1 + name.length) todo).map
            (fun t => .dir (setEntry es name (some (.dir (done ++ t))))) := by
  intro todo
  induction todo with
  | nil =>
    intro done es h _ _ _
    simp only [List.map_nil, remove_dir_loop, purgeL, Res.map]
    rw [setEntry_self es name _ h]
  | cons e rest ihl =>
    intro done es h hwf hdep hfresh
    obtain ⟨c, ch⟩ := e
    obtain ⟨hleg, hnone, hwfc, hwfr⟩ := wfL_cons c ch rest hwf
    have hdc : depth ch < f := by
      simp only [depthL] at hdep; omega
    have hdr : depthL rest < f := by
      simp only [depthL] at hdep; omega
    have hfc : lookupE done c = none := hfresh (c, ch) (List.mem_cons_self _ _)
    simp only [List.map_cons, remove_dir_loop]
    rw [if_neg (legalName_not_dots c hleg), pathString_one, sprintf_path_fit]
    have hlen : (pd ++ SEP :: name).length = pd.length + 1 + name.length := by simp; omega
    rw [hlen]
    unfold purgeL
    by_cases hfit : pd.length + 1 + name.length + 1 + c.length + 1 ≤ DIR_NAME_SIZE
    · rw [if_pos hfit, if_pos hfit]
      simp only [List.singleton_append]
      rw [remove_dir_descend pd f name es _ [c] (by simp) h]
      have hl2 : lookupE (done ++ (c, ch) :: rest) c = some ch := by
        rw [lookupE_append_of_none done _ c hfc]
        simp [lookupE]
      rw [ih (pd ++ SEP :: name) (done ++ (c, ch) :: rest) c ch hl2 hwfc hdc, hlen]
      cases hp : purge (pd.length + 1 + name.length + 1 + c.length) ch with
      | undefined => rfl
      | nofuel => rfl
      | ok r =>
        simp only [Res.map]
        rw [setEntry_append_of_none done _ c r hfc]
        have hes : lookupE es name ≠ none := by rw [h]; simp
        cases r with
        | none =>
          have hset : setEntry ((c, ch) :: rest) c none = rest := by simp [setEntry]
          rw [hset]
          have hl3 := lookupE_setEntry_some es name (.dir (done ++ rest)) hes
          rw [ihl done _ hl3 hwfr hdr
            (fun e he => hfresh e (List.mem_cons_of_mem _ he))]
          cases purgeL (pd.length + 1 + name.length) rest with
          | ok t => simp [Res.map, setEntry_setEntry]
          | undefined => rfl
          | nofuel => rfl
        | some c2 =>
          have hset : setEntry ((c, ch) :: rest) c (some c2) = (c, c2) :: rest := by
            simp [setEntry]
          rw [hset]
          have happ : done ++ (c, c2) :: rest = (done ++ [(c, c2)]) ++ rest := by simp
          have hl3 := lookupE_setEntry_some es name (.dir (done ++ (c, c2) :: rest)) hes
          rw [happ] at hl3 ⊢
          have hfresh2 : ∀ e ∈ rest, lookupE (done ++ [(c, c2)]) e.1 = none := by
            intro e he
            rw [lookupE_append_of_none done _ e.1 (hfresh e (List.mem_cons_of_mem _ he))]
            have hne : ¬ c = e.1 := by
              intro hce
              have := lookupE_ne_none_of_mem rest e he
              rw [← hce] at this
              exact this hnone
            simp [lookupE, hne]
          rw [ihl (done ++ [(c, c2)]) _ hl3 hwfr hdr hfresh2]
          cases purgeL (pd.length + 1 + name.length) rest with
          | ok t => simp [Res.map, setEntry_setEntry]
          | undefined => rfl
          | nofuel => rfl
    · rw [if_neg hfit, if_neg hfit]
      rfl

theorem remove_dir_top :
    ∀ (fuel : Nat) (pd : CStr) (es : Entries) (name : CStr) (n : Node),
      lookupE es name = some n → wf n = true → depth n < fuel →
      remove_dir pd fuel (.dir es) [name]
        = (purge (pd.length + 1 + name.length) n).map
            (fun r => (0, .dir (setEntry es name r))) := by
  intro fuel
  induction fuel with
  | zero => intro pd es name n _ _ hd; omega
  | succ f ih =>
    intro pd es name n h hwf hd
    unfold remove_dir
    rw [nat_access_top, nat_lstat_top, h]
    cases n with
    | reg d =>
      simp only [Option.map_some', Node.ftype, purge, Res.map]
      simp [nat_remove, lookup_top, h, inParent]
    | special k =>
      cases k with
      | symlink t => cases t <;> simp [Node.ftype, purge, Res.map, setEntry_self es name _ h]
      | _ => simp [Node.ftype, purge, Res.map, setEntry_self es name _ h]
    | dir cs =>
      simp only [Option.map_some', Node.ftype, if_false, Bool.true_eq_false]
      have hrd : nat_readdir (.dir es) [name] = DOT :: DOTDOT :: cs.map Prod.fst := by
        simp [nat_readdir, lookup_top, h]
      rw [hrd]
      have hskip : ∀ (l : List CStr) (fs : Node),
          remove_dir_loop (remove_dir pd f) pd [name] (DOT :: DOTDOT :: l) fs
            = remove_dir_loop (remove_dir pd f) pd [name] l fs := by
        intro l fs
        simp [remove_dir_loop]
      rw [hskip]
      have hwfl : wfL cs = true := by simpa [wf] using hwf
      have hdl : depthL cs < f := by simp only [depth] at hd; omega
      rw [remove_dir_loop_top pd name f ih cs [] es (by simpa using h) hwfl hdl
        (fun e _ => rfl)]
      unfold purge
      cases purgeL (pd.length + 1 + name.length) cs with
      | undefined => rfl
      | nofuel => rfl
      | ok t =>
        have hes : lookupE es name ≠ none := by rw [h]; simp
        cases t with
        | nil =>
          simp only [Res.map, List.nil_append]
          simp [nat_rmdir, lookup_top, lookupE_setEntry_some es name _ hes, inParent,
            setEntry_setEntry]
        | cons e r =>
          simp only [Res.map, List.nil_append]
          simp [nat_rmdir, lookup_top, lookupE_setEntry_some es name _ hes]

/-! ### What `remove_dir` leaves: properties of `purge` -/

theorem purgeL_cons_ok (len : Nat) (n : CStr) (c : Node) (rest out : Entries)
    (h : purgeL len ((n, c) :: rest) = .ok out) :
    len + 1 + n.length + 1 ≤ DIR_NAME_SIZE ∧
    ∃ r rest2, purge (len + 1 + n.length) c = .ok r ∧ purgeL len rest = .ok rest2 ∧
      out = match r with
        | some c2 => (n, c2) :: rest2
        | none => rest2 := by
  unfold purgeL at h
  by_cases hfit : len + 1 + n.length + 1 ≤ DIR_NAME_SIZE
  · rw [if_pos hfit] at h
    refine ⟨hfit, ?_⟩
    cases hp : purge (len + 1 + n.length) c with
    | undefined => rw [hp] at h; cases h
    | nofuel => rw [hp] at h; cases h
    | ok r =>
      rw [hp] at h
      cases hl : purgeL len rest with
      | undefined => rw [hl] at h; cases h
      | nofuel => rw [hl] at h; cases h
      | ok rest2 =>
        rw [hl] at h
        refine ⟨r, rest2, rfl, rfl, ?_⟩
        cases r <;> simp only [] at h <;> cases h <;> rfl
  · rw [if_neg hfit] at h; cases h

theorem purge_dir_ok (len : Nat) (es : Entries) (r : Option Node)
    (h : purge len (.dir es) = .ok r) :
    ∃ out, purgeL len es = .ok out ∧
      r = match out with
        | [] => none
        | e :: rest => some (.dir (e :: rest)) := by
  unfold purge at h
  cases hl : purgeL len es with
  | undefined => rw [hl] at h; cases h
  | nofuel => rw [hl] at h; cases h
  | ok out =>
    rw [hl] at h
    refine ⟨out, rfl, ?_⟩
    cases out <;> simp only [] at h <;> cases h <;> rfl

mutual
theorem purge_plain (len : Nat) : ∀ n : Node, plain n = true → fits len n = true →
    purge len n = .ok none
  | .reg _, _, _ => rfl
  | .special _, hp, _ => by simp [plain] at hp
  | .dir es, hp, hf => by
    have h := purgeL_plain len es (by simpa [plain] using hp) (by simpa [fits] using hf)
    simp [purge, h]
theorem purgeL_plain (len : Nat) : ∀ es : Entries, plainL es = true → fitsL len es = true →
    purgeL len es = .ok []
  | [], _, _ => rfl
  | (n, c) :: rest, hp, hf => by
    simp only [plainL, Bool.and_eq_true] at hp
    simp only [fitsL, Bool.and_eq_true, decide_eq_true_eq] at hf
    have h1 := purge_plain (len + 1 + n.length) c hp.1 hf.1.2
    have h2 := purgeL_plain len rest hp.2 hf.2
    simp [purgeL, hf.1.1, h1, h2]
end

mutual
theorem purge_idem (len : Nat) : ∀ (n n2 : Node), purge len n = .ok (some n2) →
    purge len n2 = .ok (some n2)
  | .reg _, n2, h => by simp [purge] at h
  | .special k, n2, h => by
    simp only [purge, Res.ok.injEq, Option.some.injEq] at h
    rw [← h]; rfl
  | .dir es, n2, h => by
    obtain ⟨out, ho, hr⟩ := purge_dir_ok len es _ h
    have h2 := purgeL_idem len es out ho
    cases out with
    | nil => simp at hr
    | cons e rest =>
      simp only [Option.some.injEq] at hr
      rw [hr]
      simp [purge, h2]
theorem purgeL_idem (len : Nat) : ∀ (es out : Entries), purgeL len es = .ok out →
    purgeL len out = .ok out
  | [], out, h => by
    simp only [purgeL, Res.ok.injEq] at h
    rw [← h]; rfl
  | (n, c) :: rest, out, h => by
    obtain ⟨hfit, r, rest2, hp, hl, ho⟩ := purgeL_cons_ok len n c rest out h
    have h2 := purgeL_idem len rest rest2 hl
    cases r with
    | none => simp only [] at ho; rw [ho]; exact h2
    | some c2 =>
      simp only [] at ho
      have h1 := purge_idem (len + 1 + n.length) c c2 hp
      rw [ho]
      simp [purgeL, hfit, h1, h2]
end

mutual
theorem purge_depth (len : Nat) : ∀ (n n2 : Node), purge len n = .ok (some n2) →
    depth n2 ≤ depth n
  | .reg _, n2, h => by simp [purge] at h
  | .special k, n2, h => by
    simp only [purge, Res.ok.injEq, Option.some.injEq] at h
    rw [← h]
  | .dir es, n2, h => by
    obtain ⟨out, ho, hr⟩ := purge_dir_ok len es _ h
    have h2 := purgeL_depth len es out ho
    cases out with
    | nil => simp at hr
    | cons e rest =>
      simp only [Option.some.injEq] at hr
      rw [hr]
      simp only [depth]
      omega
theorem purgeL_depth (len : Nat) : ∀ (es out : Entries), purgeL len es = .ok out →
    depthL out ≤ depthL es
  | [], out, h => by
    simp only [purgeL, Res.ok.injEq] at h
    rw [← h]
  | (n, c) :: rest, out, h => by
    obtain ⟨hfit, r, rest2, hp, hl, ho⟩ := purgeL_cons_ok len n c rest out h
    have h2 := purgeL_depth len rest rest2 hl
    cases r with
    | none =>
      simp only [] at ho; rw [ho]
      simp only [depthL]; omega
    | some c2 =>
      simp only [] at ho
      have h1 := purge_depth (len + 1 + n.length) c c2 hp
      rw [ho]
      simp only [depthL]; omega
end

/-- Entry by entry: what the loop of `remove_dir` leaves under a name is what
`purge` leaves of the entry that bore it. -/
theorem purgeL_lookupE (len : Nat) : ∀ (es out : Entries), wfL es = true →
    purgeL len es = .ok out → ∀ name : CStr,
    lookupE out name
      = match lookupE es name with
        | none => none
        | some ch =>
          match purge (len + 1 + name.length) ch with
          | .ok r => r
          | _ => none
  | [], out, _, h, name => by
    simp only [purgeL, Res.ok.injEq] at h
    rw [← h]; rfl
  | (n, c) :: rest, out, hwf, h, name => by
    obtain ⟨hfit, r, rest2, hp, hl, ho⟩ := purgeL_cons_ok len n c rest out h
    obtain ⟨_, hnone, _, hwfr⟩ := wfL_cons n c rest hwf
    have h2 := purgeL_lookupE len rest rest2 hwfr hl
    by_cases hn : n = name
    · subst hn
      have hr2 : lookupE rest2 n = none := by
        rw [h2 n, hnone]
      cases r with
      | none =>
        simp only [] at ho
        rw [ho, hr2]
        simp [lookupE, hp]
      | some c2 =>
        simp only [] at ho
        rw [ho]
        simp [lookupE, hp]
    · cases r with
      | none =>
        simp only [] at ho
        rw [ho, h2 name]
        simp [lookupE, hn]
      | some c2 =>
        simp only [] at ho
        rw [ho]
        simp only [lookupE, hn, if_false]
        exact h2 name

mutual
theorem purge_wf (len : Nat) : ∀ (n n2 : Node), wf n = true → purge len n = .ok (some n2) →
    wf n2 = true
  | .reg _, n2, _, h => by simp [purge] at h
  | .special k, n2, _, h => by
    simp only [purge, Res.ok.injEq, Option.some.injEq] at h
    rw [← h]; rfl
  | .dir es, n2, hwf, h => by
    obtain ⟨out, ho, hr⟩ := purge_dir_ok len es _ h
    have h2 := purgeL_wf len es out (by simpa [wf] using hwf) ho
    cases out with
    | nil => simp at hr
    | cons e rest =>
      simp only [Option.some.injEq] at hr
      rw [hr]
      simpa [wf] using h2
theorem purgeL_wf (len : Nat) : ∀ (es out : Entries), wfL es = true →
    purgeL len es = .ok out → wfL out = true
  | [], out, _, h => by
    simp only [purgeL, Res.ok.injEq] at h
    rw [← h]; rfl
  | (n, c) :: rest, out, hwf, h => by
    obtain ⟨hfit, r, rest2, hp, hl, ho⟩ := purgeL_cons_ok len n c rest out h
    obtain ⟨hleg, hnone, hwfc, hwfr⟩ := wfL_cons n c rest hwf
    have h2 := purgeL_wf len rest rest2 hwfr hl
    cases r with
    | none => simp only [] at ho; rw [ho]; exact h2
    | some c2 =>
      simp only [] at ho
      have h1 := purge_wf (len + 1 + n.length) c c2 hwfc hp
      have hr2 : lookupE rest2 n = none := by
        rw [purgeL_lookupE len rest rest2 hwfr hl n, hnone]
      rw [ho]
      simp [wfL, hleg, hr2, h1, h2]
end

theorem purge_isDir (len : Nat) (n n2 : Node) (h : purge len n = .ok (some n2)) :
    n2.isDir = n.isDir := by
  cases n with
  | reg d => simp [purge] at h
  | special k =>
    simp only [purge, Res.ok.injEq, Option.some.injEq] at h
    rw [← h]
  | dir es =>
    obtain ⟨out, _, hr⟩ := purge_dir_ok len es _ h
    cases out with
    | nil => simp at hr
    | cons e rest =>
      simp only [Option.some.injEq] at hr
      rw [hr]; rfl

theorem wfL_mem : ∀ (es : Entries), wfL es = true → ∀ e ∈ es,
    legalName e.1 = true ∧ wf e.2 = true
  | [], _, e, he => by simp at he
  | (n, c) :: rest, hwf, e, he => by
    obtain ⟨hleg, _, hwfc, hwfr⟩ := wfL_cons n c rest hwf
    rcases List.mem_cons.mp he with rfl | h2
    · exact ⟨hleg, hwfc⟩
    · exact wfL_mem rest hwfr e h2

/-- Nothing appears: a location present in what is left was present before. -/
theorem purge_lookup (q : Path) : ∀ (len : Nat) (n n2 x : Node), wf n = true →
    purge len n = .ok (some n2) → lookup n2 q = some x → ∃ y, lookup n q = some y := by
  induction q with
  | nil => intro len n n2 x _ _ _; exact ⟨n, lookup_nil n⟩
  | cons c cs ih =>
    intro len n n2 x hwf h hl
    cases n with
    | reg d => simp [purge] at h
    | special k =>
      simp only [purge, Res.ok.injEq, Option.some.injEq] at h
      rw [← h] at hl
      simp [lookup] at hl
    | dir es =>
      obtain ⟨out, ho, hr⟩ := purge_dir_ok len es _ h
      have hwfl : wfL es = true := by simpa [wf] using hwf
      have hn2 : n2 = .dir out := by
        cases out with
        | nil => simp at hr
        | cons e rest => simp only [Option.some.injEq] at hr; exact hr
      rw [hn2, lookup_cons] at hl
      rw [lookup_cons]
      cases hc2 : lookupE out c with
      | none => rw [hc2] at hl; simp at hl
      | some c2 =>
        rw [hc2] at hl
        simp only [Option.some_bind] at hl
        have hle := purgeL_lookupE len es out hwfl ho c
        rw [hc2] at hle
        cases hch : lookupE es c with
        | none => rw [hch] at hle; simp at hle
        | some ch =>
          rw [hch] at hle
          simp only [] at hle
          have hwfc : wf ch = true := by
            have hm := lookupE_mem es c ch hch
            exact (wfL_mem es hwfl (c, ch) hm).2
          cases hp : purge (len + 1 + c.length) ch with
          | undefined => rw [hp] at hle; simp at hle
          | nofuel => rw [hp] at hle; simp at hle
          | ok r =>
            rw [hp] at hle
            simp only [] at hle
            simp only [Option.some_bind]
            exact ih (len + 1 + c.length) ch c2 x hwfc (by rw [hp, ← hle]) hl

/-! ## The scan loop of `main` -/

theorem Res.map_map {α β γ : Type} (f : α → β) (g : β → γ) (r : Res α) :
    (r.map f).map g = r.map (fun a => g (f a)) := by
  cases r <;> rfl

theorem main_scan_closed (pd : CStr) (keys : List CStr) (fuel : Nat) :
    ∀ (todo done : Entries) (s : Option FType) (kc : List Int),
      wfL todo = true → depthL todo < fuel → (∀ e ∈ todo, lookupE done e.1 = none) →
      main_scan pd keys fuel (todo.map Prod.fst) s (.dir (done ++ todo)) kc
        = (scanSpec pd keys todo kc).map (fun p => (.dir (done ++ p.1), p.2)) := by
  intro todo
  induction todo with
  | nil =>
    intro done s kc _ _ _
    simp [main_scan, scanSpec, Res.map]
  | cons e rest ih =>
    intro done s kc hwf hdep hfresh
    obtain ⟨n, c⟩ := e
    obtain ⟨hleg, hnone, hwfc, hwfr⟩ := wfL_cons n c rest hwf
    have hdc : depth c < fuel := by simp only [depthL] at hdep; omega
    have hdr : depthL rest < fuel := by simp only [depthL] at hdep; omega
    have hfc : lookupE done n = none := hfresh (n, c) (List.mem_cons_self _ _)
    have hl : lookupE (done ++ (n, c) :: rest) n = some c := by
      rw [lookupE_append_of_none done _ n hfc]; simp [lookupE]
    have happ : ∀ c2 : Node, done ++ (n, c2) :: rest = (done ++ [(n, c2)]) ++ rest := by
      intro c2; simp
    have hfresh2 : ∀ c2 : Node, ∀ e ∈ rest, lookupE (done ++ [(n, c2)]) e.1 = none := by
      intro c2 e he
      rw [lookupE_append_of_none done _ e.1 (hfresh e (List.mem_cons_of_mem _ he))]
      have hne : ¬ n = e.1 := by
        intro hce
        have := lookupE_ne_none_of_mem rest e he
        rw [← hce] at this
        exact this hnone
      simp [lookupE, hne]
    have hkeep : ∀ (s2 : Option FType) (kc2 : List Int),
        main_scan pd keys fuel (rest.map Prod.fst) s2 (.dir (done ++ (n, c) :: rest)) kc2
          = (scanSpec pd keys rest kc2).map
              (fun p => (.dir (done ++ (n, c) :: p.1), p.2)) := by
      intro s2 kc2
      rw [happ c, ih (done ++ [(n, c)]) s2 kc2 hwfr hdr (hfresh2 c)]
      congr 1
      funext p
      simp
    simp only [List.map_cons, main_scan, scanSpec]
    rw [if_neg (legalName_not_dots n hleg), sprintf_path_fit]
    by_cases hfit : fitsTmppath pd n
    · have hfit2 : pd.length + 1 + n.length + 1 ≤ TMPPATH_SIZE := hfit
      rw [if_pos hfit2, if_pos hfit]
      simp only []
      rw [nat_lstat_top, hl]
      simp only [Option.map_some']
      cases c with
      | reg d =>
        simp only [Node.ftype, Node.isDir, Bool.false_eq_true, if_false]
        rw [hkeep, Res.map_map]
      | special k =>
        simp only [Node.ftype, Node.isDir, Bool.false_eq_true, if_false]
        rw [hkeep, Res.map_map]
      | dir cs =>
        simp only [Node.ftype, Node.isDir, if_true]
        by_cases hflag : main_flag n keys 0 0 = 0
        · rw [if_pos hflag, if_pos hflag]
          rw [remove_dir_top fuel pd _ n (.dir cs) hl hwfc hdc]
          cases hp : purge (pd.length + 1 + n.length) (.dir cs) with
          | undefined => rfl
          | nofuel => rfl
          | ok r =>
            simp only [Res.map]
            rw [setEntry_append_of_none done _ n r hfc]
            cases r with
            | none =>
              have hset : setEntry ((n, Node.dir cs) :: rest) n none = rest := by
                simp [setEntry]
              rw [hset, ih done _ kc hwfr hdr
                (fun e he => hfresh e (List.mem_cons_of_mem _ he))]
              cases scanSpec pd keys rest kc <;> simp [Res.map]
            | some c2 =>
              have hset : setEntry ((n, Node.dir cs) :: rest) n (some c2) = (n, c2) :: rest := by
                simp [setEntry]
              rw [hset, happ c2, ih (done ++ [(n, c2)]) _ kc hwfr hdr (hfresh2 c2)]
              cases scanSpec pd keys rest kc <;> simp [Res.map]
        · rw [if_neg hflag, if_neg hflag]
          by_cases hidx : (main_flag n keys 0 0 - 1).toNat < kc.length
          · rw [if_pos hidx, if_pos hidx, hkeep, Res.map_map]
          · rw [if_neg hidx, if_neg hidx]
            rfl
    · have hfit2 : ¬ pd.length + 1 + n.length + 1 ≤ TMPPATH_SIZE := hfit
      rw [if_neg hfit2, if_neg hfit]
      rfl

theorem main_flag_absent (n : CStr) : ∀ (keys : List CStr) (i : Nat) (flag : Int),
    n ∉ keys → main_flag n keys i flag = flag
  | [], _, _, _ => rfl
  | k :: rest, i, flag, h => by
    have hk : ¬ n = k := fun e => h (by rw [e]; exact List.mem_cons_self _ _)
    have hr : n ∉ rest := fun e => h (List.mem_cons_of_mem _ e)
    simp only [main_flag, hk, if_false]
    exact main_flag_absent n rest (i + 1) flag hr

theorem main_flag_present (n : CStr) : ∀ (keys : List CStr) (i : Nat) (flag : Int),
    n ∈ keys → ∃ j, j < keys.length ∧ keys[j]? = some n ∧
      main_flag n keys i flag = ((i + j : Nat) : Int) + 1
  | [], _, _, h => by simp at h
  | k :: rest, i, flag, h => by
    by_cases hr : n ∈ rest
    · obtain ⟨j, hj, hk, hf⟩ := main_flag_present n rest (i + 1)
        (if n = k then (i : Int) + 1 else flag) hr
      refine ⟨j + 1, by simp; omega, by simpa using hk, ?_⟩
      simp only [main_flag]
      rw [hf]
      have : i + 1 + j = i + (j + 1) := by omega
      rw [this]
    · have hk : n = k := by
        rcases List.mem_cons.mp h with e | e
        · exact e
        · exact absurd e hr
      refine ⟨0, by simp, by simp [hk], ?_⟩
      simp only [main_flag, hk, if_true]
      rw [main_flag_absent k rest (i + 1) _ (by rw [← hk]; exact hr)]
      simp

theorem main_flag_zero_iff (n : CStr) (keys : List CStr) :
    main_flag n keys 0 0 = 0 ↔ n ∉ keys := by
  constructor
  · intro h hm
    obtain ⟨j, _, _, hf⟩ := main_flag_present n keys 0 0 hm
    rw [hf] at h
    omega
  · exact main_flag_absent n keys 0 0

theorem mem_of_getElem?_eq_some {α : Type} (l : List α) (j : Nat) (a : α)
    (h : l[j]? = some a) : a ∈ l := by
  obtain ⟨hj, he⟩ := List.getElem?_eq_some.mp h
  rw [← he]
  exact List.getElem_mem hj

/-- One step of the scan in closed form, read backwards. -/
theorem scanSpec_cons_ok (pd : CStr) (keys : List CStr) (n : CStr) (c : Node)
    (rest : Entries) (kc : List Int) (out : Entries × List Int)
    (h : scanSpec pd keys ((n, c) :: rest) kc = .ok out) :
    fitsTmppath pd n ∧
    ((c.isDir = true ∧ n ∉ keys ∧ ∃ r t, purge (pd.length + 1 + n.length) c = .ok r ∧
        scanSpec pd keys rest kc = .ok (t, out.2) ∧
        out.1 = match r with
          | some c2 => (n, c2) :: t
          | none => t) ∨
     (c.isDir = true ∧ n ∈ keys ∧ ∃ j t, j < kc.length ∧ keys[j]? = some n ∧
        scanSpec pd keys rest (kc.set j 1) = .ok (t, out.2) ∧ out.1 = (n, c) :: t) ∨
     (c.isDir = false ∧ ∃ t, scanSpec pd keys rest kc = .ok (t, out.2) ∧
        out.1 = (n, c) :: t)) := by
  unfold scanSpec at h
  by_cases hfit : fitsTmppath pd n
  · rw [if_pos hfit] at h
    refine ⟨hfit, ?_⟩
    by_cases hd : c.isDir = true
    · rw [if_pos hd] at h
      by_cases hflag : main_flag n keys 0 0 = 0
      · rw [if_pos hflag] at h
        left
        refine ⟨hd, (main_flag_zero_iff n keys).mp hflag, ?_⟩
        cases hp : purge (pd.length + 1 + n.length) c with
        | undefined => rw [hp] at h; cases h
        | nofuel => rw [hp] at h; cases h
        | ok r =>
          rw [hp] at h
          cases hs : scanSpec pd keys rest kc with
          | undefined => rw [hs] at h; cases h
          | nofuel => rw [hs] at h; cases h
          | ok p =>
            rw [hs] at h
            simp only [Res.map, Res.ok.injEq] at h
            refine ⟨r, p.1, rfl, ?_, ?_⟩
            · rw [← h]
            · rw [← h]
      · rw [if_neg hflag] at h
        right; left
        have hmem : n ∈ keys := by
          by_contra hno
          exact hflag ((main_flag_zero_iff n keys).mpr hno)
        obtain ⟨j, hj, hk, hf⟩ := main_flag_present n keys 0 0 hmem
        have hidx : (main_flag n keys 0 0 - 1).toNat = j := by
          rw [hf]; simp
        rw [hidx] at h
        by_cases hlt : j < kc.length
        · rw [if_pos hlt] at h
          cases hs : scanSpec pd keys rest (kc.set j 1) with
          | undefined => rw [hs] at h; cases h
          | nofuel => rw [hs] at h; cases h
          | ok p =>
            rw [hs] at h
            simp only [Res.map, Res.ok.injEq] at h
            refine ⟨hd, hmem, j, p.1, hlt, hk, ?_, ?_⟩
            · rw [← h]; exact hs
            · rw [← h]
        · rw [if_neg hlt] at h; cases h
    · rw [if_neg hd] at h
      right; right
      cases hs : scanSpec pd keys rest kc with
      | undefined => rw [hs] at h; cases h
      | nofuel => rw [hs] at h; cases h
      | ok p =>
        rw [hs] at h
        simp only [Res.map, Res.ok.injEq] at h
        refine ⟨by simpa using hd, p.1, ?_, ?_⟩
        · rw [← h]
        · rw [← h]
  · rw [if_neg hfit] at h; cases h

/-- What the scan leaves under each name, and that it kept within bounds. -/
theorem scanSpec_facts (pd : CStr) (keys : List CStr) :
    ∀ (es : Entries) (kc : List Int) (out : Entries × List Int),
      wfL es = true → scanSpec pd keys es kc = .ok out →
      wfL out.1 = true ∧ out.2.length = kc.length ∧
      (∀ e ∈ es, fitsTmppath pd e.1) ∧
      (∀ name, lookupE es name = none → lookupE out.1 name = none) ∧
      (∀ name c, lookupE es name = some c → (c.isDir = false ∨ name ∈ keys) →
        lookupE out.1 name = some c) ∧
      (∀ name c, lookupE es name = some c → c.isDir = true → name ∉ keys →
        ∃ r, purge (pd.length + 1 + name.length) c = .ok r ∧ lookupE out.1 name = r) ∧
      (∀ j : Nat, out.2[j]? = kc[j]? ∨ ∃ k, keys[j]? = some k ∧ lookupE es k ≠ none) := by
  intro es
  induction es with
  | nil =>
    intro kc out _ h
    simp only [scanSpec, Res.ok.injEq] at h
    rw [← h]
    simp [lookupE, wfL]
  | cons e rest ih =>
    intro kc out hwf h
    obtain ⟨n, c⟩ := e
    obtain ⟨hleg, hnone, hwfc, hwfr⟩ := wfL_cons n c rest hwf
    obtain ⟨hfit, hcase⟩ := scanSpec_cons_ok pd keys n c rest kc out h
    rcases hcase with ⟨hd, hnk, r, t, hp, hs, ho⟩ | ⟨hd, hk, j, t, hj, hkj, hs, ho⟩ |
      ⟨hd, t, hs, ho⟩
    · obtain ⟨i1, i2, i3, i4, i5, i6, i7⟩ := ih kc (t, out.2) hwfr hs
      have htn : lookupE t n = none := i4 n hnone
      have hlook : ∀ name, ¬ n = name → lookupE out.1 name = lookupE t name := by
        intro name hne
        rw [ho]
        cases r <;> simp [lookupE, hne]
      have hlookn : lookupE out.1 n = r := by
        rw [ho]
        cases r <;> simp [lookupE, htn]
      refine ⟨?_, i2, ?_, ?_, ?_, ?_, ?_⟩
      · rw [ho]
        cases r with
        | none => exact i1
        | some c2 =>
          simp only [wfL, Bool.and_eq_true, Option.isNone_iff_eq_none]
          exact ⟨⟨⟨hleg, htn⟩, purge_wf _ c c2 hwfc hp⟩, i1⟩
      · intro e he
        rcases List.mem_cons.mp he with rfl | h2
        · exact hfit
        · exact i3 e h2
      · intro name hl
        by_cases hne : n = name
        · simp [lookupE, hne] at hl
        · simp only [lookupE, hne, if_false] at hl
          rw [hlook name hne]; exact i4 name hl
      · intro name c0 hl hor
        by_cases hne : n = name
        · subst hne
          simp only [lookupE, if_true, Option.some.injEq] at hl
          subst hl
          rcases hor with h1 | h1
          · rw [hd] at h1; cases h1
          · exact absurd h1 hnk
        · simp only [lookupE, hne, if_false] at hl
          rw [hlook name hne]; exact i5 name c0 hl hor
      · intro name c0 hl hd0 hnk0
        by_cases hne : n = name
        · subst hne
          simp only [lookupE, if_true, Option.some.injEq] at hl
          subst hl
          exact ⟨r, hp, hlookn⟩
        · simp only [lookupE, hne, if_false] at hl
          rw [hlook name hne]; exact i6 name c0 hl hd0 hnk0
      · intro j
        rcases i7 j with h1 | ⟨k, hk1, hk2⟩
        · left; exact h1
        · right
          refine ⟨k, hk1, ?_⟩
          by_cases hne : n = k
          · simp [lookupE, hne]
          · simpa [lookupE, hne] using hk2
    · obtain ⟨i1, i2, i3, i4, i5, i6, i7⟩ := ih (kc.set j 1) (t, out.2) hwfr hs
      have htn : lookupE t n = none := i4 n hnone
      have hlook : ∀ name, ¬ n = name → lookupE out.1 name = lookupE t name := by
        intro name hne
        rw [ho]
        simp [lookupE, hne]
      refine ⟨?_, ?_, ?_, ?_, ?_, ?_, ?_⟩
      · rw [ho]
        simp only [wfL, Bool.and_eq_true, Option.isNone_iff_eq_none]
        exact ⟨⟨⟨hleg, htn⟩, hwfc⟩, i1⟩
      · rw [i2]; simp
      · intro e he
        rcases List.mem_cons.mp he with rfl | h2
        · exact hfit
        · exact i3 e h2
      · intro name hl
        by_cases hne : n = name
        · simp [lookupE, hne] at hl
        · simp only [lookupE, hne, if_false] at hl
          rw [hlook name hne]; exact i4 name hl
      · intro name c0 hl hor
        by_cases hne : n = name
        · subst hne
          simp only [lookupE, if_true, Option.some.injEq] at hl
          subst hl
          rw [ho]; simp [lookupE]
        · simp only [lookupE, hne, if_false] at hl
          rw [hlook name hne]; exact i5 name c0 hl hor
      · intro name c0 hl hd0 hnk0
        by_cases hne : n = name
        · subst hne
          exact absurd hk hnk0
        · simp only [lookupE, hne, if_false] at hl
          rw [hlook name hne]; exact i6 name c0 hl hd0 hnk0
      · intro j2
        rcases i7 j2 with h1 | ⟨k, hk1, hk2⟩
        · by_cases hjj : j = j2
          · subst hjj
            right
            exact ⟨n, hkj, by simp [lookupE]⟩
          · left
            rw [h1, List.getElem?_set_ne hjj]
        · right
          refine ⟨k, hk1, ?_⟩
          by_cases hne : n = k
          · simp [lookupE, hne]
          · simpa [lookupE, hne] using hk2
    · obtain ⟨i1, i2, i3, i4, i5, i6, i7⟩ := ih kc (t, out.2) hwfr hs
      have htn : lookupE t n = none := i4 n hnone
      have hlook : ∀ name, ¬ n = name → lookupE out.1 name = lookupE t name := by
        intro name hne
        rw [ho]
        simp [lookupE, hne]
      refine ⟨?_, i2, ?_, ?_, ?_, ?_, ?_⟩
      · rw [ho]
        simp only [wfL, Bool.and_eq_true, Option.isNone_iff_eq_none]
        exact ⟨⟨⟨hleg, htn⟩, hwfc⟩, i1⟩
      · intro e he
        rcases List.mem_cons.mp he with rfl | h2
        · exact hfit
        · exact i3 e h2
      · intro name hl
        by_cases hne : n = name
        · simp [lookupE, hne] at hl
        · simp only [lookupE, hne, if_false] at hl
          rw [hlook name hne]; exact i4 name hl
      · intro name c0 hl hor
        by_cases hne : n = name
        · subst hne
          simp only [lookupE, if_true, Option.some.injEq] at hl
          subst hl
          rw [ho]; simp [lookupE]
        · simp only [lookupE, hne, if_false] at hl
          rw [hlook name hne]; exact i5 name c0 hl hor
      · intro name c0 hl hd0 hnk0
        by_cases hne : n = name
        · subst hne
          simp only [lookupE, if_true, Option.some.injEq] at hl
          subst hl
          rw [hd] at hd0; cases hd0
        · simp only [lookupE, hne, if_false] at hl
          rw [hlook name hne]; exact i6 name c0 hl hd0 hnk0
      · intro j
        rcases i7 j with h1 | ⟨k, hk1, hk2⟩
        · left; exact h1
        · right
          refine ⟨k, hk1, ?_⟩
          by_cases hne : n = k
          · simp [lookupE, hne]
          · simpa [lookupE, hne] using hk2

/-- The scan completes when every string fits and `key_check` is long enough;
entries that `remove_dir` would leave as they are stay as they are. -/
theorem scanSpec_runs (pd : CStr) (keys : List CStr) :
    ∀ (es : Entries) (kc : List Int), keys.length ≤ kc.length →
      (∀ e ∈ es, fitsTmppath pd e.1) →
      (∀ e ∈ es, e.2.isDir = true → e.1 ∉ keys →
        ∃ r, purge (pd.length + 1 + e.1.length) e.2 = .ok r) →
      ∃ out, scanSpec pd keys es kc = .ok out ∧
        ((∀ e ∈ es, e.2.isDir = true → e.1 ∉ keys →
          purge (pd.length + 1 + e.1.length) e.2 = .ok (some e.2)) → out.1 = es) := by
  intro es
  induction es with
  | nil => intro kc _ _ _; exact ⟨([], kc), rfl, fun _ => rfl⟩
  | cons e rest ih =>
    intro kc hlen hfit hp
    obtain ⟨n, c⟩ := e
    have hfn : fitsTmppath pd n := hfit (n, c) (List.mem_cons_self _ _)
    have hfr : ∀ e ∈ rest, fitsTmppath pd e.1 :=
      fun e he => hfit e (List.mem_cons_of_mem _ he)
    have hpr : ∀ e ∈ rest, e.2.isDir = true → e.1 ∉ keys →
        ∃ r, purge (pd.length + 1 + e.1.length) e.2 = .ok r :=
      fun e he => hp e (List.mem_cons_of_mem _ he)
    unfold scanSpec
    rw [if_pos hfn]
    by_cases hd : c.isDir = true
    · rw [if_pos hd]
      by_cases hflag : main_flag n keys 0 0 = 0
      · rw [if_pos hflag]
        have hnk := (main_flag_zero_iff n keys).mp hflag
        obtain ⟨r, hr⟩ := hp (n, c) (List.mem_cons_self _ _) hd hnk
        obtain ⟨out, ho, hst⟩ := ih kc hlen hfr hpr
        simp only [] at hr
        rw [hr, ho]
        refine ⟨_, rfl, ?_⟩
        intro hall
        have h1 := hall (n, c) (List.mem_cons_self _ _) hd hnk
        simp only [] at h1
        rw [hr] at h1
        simp only [Res.ok.injEq] at h1
        rw [h1]
        simp only []
        rw [hst (fun e he => hall e (List.mem_cons_of_mem _ he))]
      · rw [if_neg hflag]
        have hmem : n ∈ keys := by
          by_contra hno
          exact hflag ((main_flag_zero_iff n keys).mpr hno)
        obtain ⟨j, hj, hk, hf⟩ := main_flag_present n keys 0 0 hmem
        have hidx : (main_flag n keys 0 0 - 1).toNat = j := by
          rw [hf]; simp
        rw [hidx, if_pos (by omega)]
        obtain ⟨out, ho, hst⟩ := ih (kc.set j 1) (by simpa using hlen) hfr hpr
        rw [ho]
        refine ⟨_, rfl, ?_⟩
        intro hall
        simp only []
        rw [hst (fun e he => hall e (List.mem_cons_of_mem _ he))]
    · rw [if_neg hd]
      obtain ⟨out, ho, hst⟩ := ih kc hlen hfr hpr
      rw [ho]
      refine ⟨_, rfl, ?_⟩
      intro hall
      simp only []
      rw [hst (fun e he => hall e (List.mem_cons_of_mem _ he))]

/-! ## `mkdir` -/

theorem splitSep_bare : ∀ s : CStr, SEP ∉ s → splitSep s = [s]
  | [], _ => rfl
  | c :: cs, h => by
    have hc : ¬ c = SEP := fun e => h (by simp [e])
    have hcs : SEP ∉ cs := fun e => h (List.mem_cons_of_mem _ e)
    simp [splitSep, hc, splitSep_bare cs hcs]

theorem components_bare (s : CStr) (h : SEP ∉ s) :
    components s = if s = [] then [] else [s] := by
  unfold components
  rw [splitSep_bare s h]
  by_cases hs : s = []
  · simp [hs]
  · simp [hs]

theorem legalName_sep (k : CStr) (h : legalName k = true) : SEP ∉ k := by
  simp only [legalName, Bool.and_eq_true, decide_eq_true_eq] at h
  exact h.1.1.2

/-- `mkdir` of a name without separator, in closed form. -/
theorem nat_mkdir_bare (es : Entries) (k : CStr) (hsep : SEP ∉ k) :
    nat_mkdir (.dir es) k
      = some (if legalName k = true ∧ k.length ≤ NAME_MAX ∧ lookupE es k = none
          then (0, .dir (es ++ [(k, .dir [])])) else (-1, .dir es)) := by
  unfold nat_mkdir
  simp only []
  rw [components_bare k hsep]
  by_cases hk : k = []
  · subst hk; simp [legalName]
  · rw [if_neg hk]
    simp only [List.getLast?_singleton, List.dropLast_single]
    by_cases hd : k = DOT ∨ k = DOTDOT
    · rw [if_pos hd]
      have hleg : ¬ legalName k = true := fun h => legalName_not_dots k h hd
      simp [hleg]
    · rw [if_neg hd]
      have hleg : legalName k = true := by
        simp only [legalName, Bool.and_eq_true, decide_eq_true_eq]
        exact ⟨⟨⟨hk, hsep⟩, fun e => hd (Or.inl e)⟩, fun e => hd (Or.inr e)⟩
      simp only [resolveDir, List.nil_append, lookup_top]
      by_cases hlen : NAME_MAX < k.length
      · rw [if_pos hlen]
        have : ¬ k.length ≤ NAME_MAX := Nat.not_le.mpr hlen
        simp [this]
      · rw [if_neg hlen]
        have hle : k.length ≤ NAME_MAX := Nat.le_of_not_lt hlen
        cases hl : lookupE es k with
        | none => simp [hleg, hle, inParent]
        | some c => simp

theorem lookupE_append_single (es : Entries) (k name : CStr) (c : Node) :
    lookupE (es ++ [(k, c)]) name
      = match lookupE es name with
        | some x => some x
        | none => if k = name then some c else none := by
  induction es with
  | nil => simp [lookupE]
  | cons e rest ih =>
    obtain ⟨n, x⟩ := e
    by_cases hn : n = name
    · simp [lookupE, hn]
    · simp only [List.cons_append, lookupE, hn, if_false]
      exact ih

theorem wfL_append_single (es : Entries) (k : CStr) (hl : legalName k = true)
    (hk : lookupE es k = none) (hwf : wfL es = true) :
    wfL (es ++ [(k, .dir [])]) = true := by
  induction es with
  | nil => simp [wfL, hl, lookupE, wf]
  | cons e rest ih =>
    obtain ⟨n, x⟩ := e
    obtain ⟨hleg, hnone, hwfc, hwfr⟩ := wfL_cons n x rest hwf
    have hne : ¬ n = k := by
      intro e; simp [lookupE, e] at hk
    have hkr : lookupE rest k = none := by simpa [lookupE, hne] using hk
    have hne2 : ¬ k = n := fun e => hne e.symm
    simp only [List.cons_append, wfL, Bool.and_eq_true, Option.isNone_iff_eq_none]
    refine ⟨⟨⟨hleg, ?_⟩, hwfc⟩, ih hkr hwfr⟩
    have := lookupE_append_single rest k n (.dir [])
    rw [hnone] at this
    simpa [hne2] using this

theorem inParent_isDir (f : Entries → CStr → Entries) :
    ∀ (n : Node) (p : Path), (inParent f n p).isDir = n.isDir
  | .reg _, [] => rfl
  | .reg _, _ :: _ => rfl
  | .special _, [] => rfl
  | .special _, _ :: _ => rfl
  | .dir _, [] => rfl
  | .dir _, [_] => rfl
  | .dir es, c :: c2 :: cs => by
    simp only [inParent]
    cases lookupE es c <;> rfl

/-- Adding a directory somewhere in the tree keeps every top-level entry, with
its type, and a new top-level entry is an empty directory. -/
theorem inParent_mkdir_kinds (p : Path) (es : Entries) :
    ∃ es2, inParent (fun es c => es ++ [(c, .dir [])]) (.dir es) p = .dir es2 ∧
      (∀ name x, lookupE es name = some x →
        ∃ y, lookupE es2 name = some y ∧ y.isDir = x.isDir) ∧
      (∀ name y, lookupE es name = none → lookupE es2 name = some y → y = .dir []) := by
  cases p with
  | nil => exact ⟨es, rfl, fun _ x h => ⟨x, h, rfl⟩, fun _ _ h1 h2 => by rw [h1] at h2; cases h2⟩
  | cons c rest =>
    cases rest with
    | nil =>
      refine ⟨es ++ [(c, Node.dir [])], by simp [inParent], ?_, ?_⟩
      · intro name x h
        exact ⟨x, by rw [lookupE_append_single, h], rfl⟩
      · intro name y h1 h2
        rw [lookupE_append_single, h1] at h2
        simp only [] at h2
        by_cases hc : c = name
        · rw [if_pos hc] at h2
          simp only [Option.some.injEq] at h2
          exact h2.symm
        · rw [if_neg hc] at h2; cases h2
    | cons c2 cs =>
      cases hl : lookupE es c with
      | none =>
        refine ⟨es, by simp [inParent, hl], fun _ x h => ⟨x, h, rfl⟩, ?_⟩
        intro _ _ h1 h2
        rw [h1] at h2; cases h2
      | some ch =>
        refine ⟨_, inParent_cons _ es c c2 cs ch hl, ?_, ?_⟩
        · intro name x h
          by_cases hn : name = c
          · subst hn
            rw [hl] at h
            simp only [Option.some.injEq] at h
            subst h
            refine ⟨_, lookupE_setEntry_some es name _ (by rw [hl]; simp), ?_⟩
            exact inParent_isDir _ _ _
          · exact ⟨x, by rw [lookupE_setEntry_ne es c name _ hn, h], rfl⟩
        · intro name y h1 h2
          have hn : name ≠ c := by
            intro e
            rw [e, hl] at h1
            cases h1
          rw [lookupE_setEntry_ne es c name _ hn, h1] at h2
          cases h2

/-- Whatever its argument, `mkdir` keeps every top-level entry with its type,
and a new top-level entry is an empty directory. -/
theorem nat_mkdir_kinds (es : Entries) (rel : CStr) (r : Int × Node)
    (h : nat_mkdir (.dir es) rel = some r) :
    ∃ es2, r.2 = .dir es2 ∧
      (∀ name x, lookupE es name = some x →
        ∃ y, lookupE es2 name = some y ∧ y.isDir = x.isDir) ∧
      (∀ name y, lookupE es name = none → lookupE es2 name = some y → y = .dir []) := by
  have hsame : ∃ es2, (.dir es : Node) = .dir es2 ∧
      (∀ name x, lookupE es name = some x →
        ∃ y, lookupE es2 name = some y ∧ y.isDir = x.isDir) ∧
      (∀ name y, lookupE es name = none → lookupE es2 name = some y → y = .dir []) :=
    ⟨es, rfl, fun _ x h => ⟨x, h, rfl⟩, fun _ _ h1 h2 => by rw [h1] at h2; cases h2⟩
  unfold nat_mkdir at h
  simp only [] at h
  cases hlast : (components rel).getLast? with
  | none =>
    rw [hlast] at h
    simp only [Option.some.injEq] at h
    rw [← h]; exact hsame
  | some last =>
    rw [hlast] at h
    simp only [] at h
    by_cases hd : last = DOT ∨ last = DOTDOT
    · rw [if_pos hd] at h
      simp only [Option.some.injEq] at h
      rw [← h]; exact hsame
    · rw [if_neg hd] at h
      cases hres : resolveDir (.dir es) (components rel).dropLast [] with
      | outside => rw [hres] at h; cases h
      | fails =>
        rw [hres] at h
        simp only [Option.some.injEq] at h
        rw [← h]; exact hsame
      | inside loc =>
        rw [hres] at h
        simp only [] at h
        by_cases hlen : NAME_MAX < last.length
        · rw [if_pos hlen] at h
          simp only [Option.some.injEq] at h
          rw [← h]; exact hsame
        · rw [if_neg hlen] at h
          cases hl : lookup (.dir es) (loc ++ [last]) with
          | some x =>
            rw [hl] at h
            simp only [Option.some.injEq] at h
            rw [← h]; exact hsame
          | none =>
            rw [hl] at h
            simp only [Option.some.injEq] at h
            rw [← h]
            exact inParent_mkdir_kinds (loc ++ [last]) es

/-- After `mkdir` of a legal name of at most `NAME_MAX` bytes the entry
exists. -/
theorem nat_mkdir_present (es : Entries) (k : CStr) (hleg : legalName k = true)
    (hlen : k.length ≤ NAME_MAX) :
    ∃ r es2, nat_mkdir (.dir es) k = some r ∧ r.2 = .dir es2 ∧ lookupE es2 k ≠ none := by
  rw [nat_mkdir_bare es k (legalName_sep k hleg)]
  by_cases hl : lookupE es k = none
  · refine ⟨_, es ++ [(k, .dir [])], rfl, ?_, ?_⟩
    · rw [if_pos ⟨hleg, hlen, hl⟩]
    · rw [lookupE_append_single, hl]
      simp
  · refine ⟨_, es, rfl, ?_, hl⟩
    rw [if_neg (fun h => hl h.2.2)]

/-- The tree after `mkdir` of a name without separator, in closed form. -/
theorem mkdir_state_bare (es : Entries) (k : CStr) (hsep : SEP ∉ k) :
    (some (Node.dir es)).bind (fun t => (nat_mkdir t k).map Prod.snd)
      = some (if legalName k = true ∧ k.length ≤ NAME_MAX ∧ lookupE es k = none
          then .dir (es ++ [(k, .dir [])]) else .dir es) := by
  simp only [Option.some_bind]
  rw [nat_mkdir_bare es k hsep]
  simp only [Option.map_some']
  split_ifs <;> rfl

/-! ## The creation loop of `main` -/

/-- Once the tree is no longer known it stays so. -/
theorem main_create_none (pd : CStr) :
    ∀ (ks : List CStr) (i : Nat) (kc : List Int) (r : Option Node),
      main_create pd ks i kc none = .ok r → r = none := by
  intro ks
  induction ks with
  | nil =>
    intro i kc r h
    simp only [main_create, Res.ok.injEq] at h
    exact h.symm
  | cons k rest ih =>
    intro i kc r h
    unfold main_create at h
    cases hv : kc[i]? with
    | none => rw [hv] at h; cases h
    | some v =>
      rw [hv] at h
      simp only [] at h
      by_cases hz : v = 0
      · rw [if_pos hz] at h
        cases hsp : sprintf_path TMPPATH_SIZE pd k with
        | none => rw [hsp] at h; cases h
        | some s =>
          rw [hsp] at h
          exact ih _ _ _ h
      · rw [if_neg hz] at h
        exact ih _ _ _ h

/-- What the creation loop leaves for a registry of names without separator,
read off a completed run. -/
theorem main_create_facts (pd : CStr) :
    ∀ (ks : List CStr) (i : Nat) (kc : List Int) (es : Entries) (fs2 : Node),
      (∀ k ∈ ks, SEP ∉ k) →
      wfL es = true → main_create pd ks i kc (some (.dir es)) = .ok (some fs2) →
      ∃ es2, fs2 = .dir es2 ∧ wfL es2 = true ∧
        (∀ name c, lookupE es name = some c → lookupE es2 name = some c) ∧
        (∀ name c, lookupE es2 name = some c →
          lookupE es name = some c ∨
          (lookupE es name = none ∧ c = .dir [] ∧ name ∈ ks ∧ legalName name = true ∧
            name.length ≤ NAME_MAX ∧ fitsTmppath pd name)) ∧
        (∀ (j : Nat) (k : CStr), ks[j]? = some k →
          ∃ v, kc[i + j]? = some v ∧
            (v = 0 → fitsTmppath pd k ∧
              (legalName k = true → k.length ≤ NAME_MAX → lookupE es2 k ≠ none))) := by
  intro ks
  induction ks with
  | nil =>
    intro i kc es fs2 _ hwf h
    simp only [main_create, Res.ok.injEq, Option.some.injEq] at h
    refine ⟨es, h.symm, hwf, fun _ _ h => h, fun _ _ h => Or.inl h, ?_⟩
    intro j k hk
    simp at hk
  | cons k rest ih =>
    intro i kc es fs2 hsep hwf h
    have hsepk : SEP ∉ k := hsep k (List.mem_cons_self _ _)
    have hsepr : ∀ k ∈ rest, SEP ∉ k := fun k hk => hsep k (List.mem_cons_of_mem _ hk)
    unfold main_create at h
    cases hv : kc[i]? with
    | none => rw [hv] at h; cases h
    | some v =>
      rw [hv] at h
      simp only [] at h
      by_cases hz : v = 0
      · rw [if_pos hz, sprintf_path_fit] at h
        by_cases hfit : pd.length + 1 + k.length + 1 ≤ TMPPATH_SIZE
        · rw [if_pos hfit] at h
          simp only [] at h
          rw [mkdir_state_bare es k hsepk] at h
          by_cases hmk : legalName k = true ∧ k.length ≤ NAME_MAX ∧ lookupE es k = none
          · rw [if_pos hmk] at h
            have hwf1 := wfL_append_single es k hmk.1 hmk.2.2 hwf
            obtain ⟨es2, h1, h2, h3, h4, h5⟩ := ih (i + 1) kc _ fs2 hsepr hwf1 h
            have hk2 : lookupE es2 k = some (.dir []) := by
              apply h3
              rw [lookupE_append_single, hmk.2.2]
              simp
            refine ⟨es2, h1, h2, ?_, ?_, ?_⟩
            · intro name c hl
              apply h3
              rw [lookupE_append_single, hl]
            · intro name c hl
              rcases h4 name c hl with ha | ⟨ha, hb, hc, hd, hn, he⟩
              · rw [lookupE_append_single] at ha
                cases hn : lookupE es name with
                | some x =>
                  rw [hn] at ha
                  left; exact ha
                | none =>
                  rw [hn] at ha
                  simp only [] at ha
                  by_cases hkn : k = name
                  · rw [if_pos hkn] at ha
                    right
                    subst hkn
                    simp only [Option.some.injEq] at ha
                    exact ⟨rfl, ha.symm, List.mem_cons_self _ _, hmk.1, hmk.2.1, hfit⟩
                  · rw [if_neg hkn] at ha; cases ha
              · right
                rw [lookupE_append_single] at ha
                cases hn2 : lookupE es name with
                | some x => rw [hn2] at ha; cases ha
                | none => exact ⟨rfl, hb, List.mem_cons_of_mem _ hc, hd, hn, he⟩
            · intro j k2 hj
              cases j with
              | zero =>
                simp only [List.getElem?_cons_zero, Option.some.injEq] at hj
                subst hj
                refine ⟨v, hv, fun _ => ⟨hfit, fun _ _ => ?_⟩⟩
                rw [hk2]; simp
              | succ j =>
                simp only [List.getElem?_cons_succ] at hj
                have := h5 j k2 hj
                have e : i + 1 + j = i + (j + 1) := by omega
                rw [e] at this
                exact this
          · rw [if_neg hmk] at h
            obtain ⟨es2, h1, h2, h3, h4, h5⟩ := ih (i + 1) kc es fs2 hsepr hwf h
            refine ⟨es2, h1, h2, h3, ?_, ?_⟩
            · intro name c hl
              rcases h4 name c hl with ha | ⟨ha, hb, hc, hd, hn, he⟩
              · left; exact ha
              · right; exact ⟨ha, hb, List.mem_cons_of_mem _ hc, hd, hn, he⟩
            · intro j k2 hj
              cases j with
              | zero =>
                simp only [List.getElem?_cons_zero, Option.some.injEq] at hj
                subst hj
                refine ⟨v, hv, fun _ => ⟨hfit, fun hleg hlen => ?_⟩⟩
                have hex : lookupE es k ≠ none := by
                  intro hno; exact hmk ⟨hleg, hlen, hno⟩
                cases hx : lookupE es k with
                | none => exact absurd hx hex
                | some x => rw [h3 k x hx]; simp
              | succ j =>
                simp only [List.getElem?_cons_succ] at hj
                have := h5 j k2 hj
                have e : i + 1 + j = i + (j + 1) := by omega
                rw [e] at this
                exact this
        · rw [if_neg hfit] at h; cases h
      · rw [if_neg hz] at h
        obtain ⟨es2, h1, h2, h3, h4, h5⟩ := ih (i + 1) kc es fs2 hsepr hwf h
        refine ⟨es2, h1, h2, h3, ?_, ?_⟩
        · intro name c hl
          rcases h4 name c hl with ha | ⟨ha, hb, hc, hd, hn, he⟩
          · left; exact ha
          · right; exact ⟨ha, hb, List.mem_cons_of_mem _ hc, hd, hn, he⟩
        · intro j k2 hj
          cases j with
          | zero =>
            simp only [List.getElem?_cons_zero, Option.some.injEq] at hj
            exact ⟨v, hv, fun h0 => absurd h0 hz⟩
          | succ j =>
            simp only [List.getElem?_cons_succ] at hj
            have := h5 j k2 hj
            have e : i + 1 + j = i + (j + 1) := by omega
            rw [e] at this
            exact this

/-- For a registry of names without separator the creation loop completes,
inside the backing tree, when every key string fits and `key_check` covers
every index; it changes nothing when every key that `mkdir` can make is
present. -/
theorem main_create_runs (pd : CStr) :
    ∀ (ks : List CStr) (i : Nat) (kc : List Int) (es : Entries),
      (∀ k ∈ ks, SEP ∉ k) →
      i + ks.length ≤ kc.length → (∀ k ∈ ks, fitsTmppath pd k) →
      ∃ fs2, main_create pd ks i kc (some (.dir es)) = .ok (some fs2) ∧
        ((∀ k ∈ ks, legalName k = true → k.length ≤ NAME_MAX → lookupE es k ≠ none) →
          fs2 = .dir es) := by
  intro ks
  induction ks with
  | nil => intro i kc es _ _ _; exact ⟨.dir es, rfl, fun _ => rfl⟩
  | cons k rest ih =>
    intro i kc es hsep hlen hfit
    have hsepk : SEP ∉ k := hsep k (List.mem_cons_self _ _)
    have hsepr : ∀ k ∈ rest, SEP ∉ k := fun k hk => hsep k (List.mem_cons_of_mem _ hk)
    simp only [List.length_cons] at hlen
    have hi : i < kc.length := by omega
    have hfk : fitsTmppath pd k := hfit k (List.mem_cons_self _ _)
    have hfr : ∀ k ∈ rest, fitsTmppath pd k := fun k hk => hfit k (List.mem_cons_of_mem _ hk)
    unfold main_create
    rw [List.getElem?_eq_getElem hi]
    simp only []
    by_cases hz : kc[i] = 0
    · have hfk2 : pd.length + 1 + k.length + 1 ≤ TMPPATH_SIZE := hfk
      rw [if_pos hz, sprintf_path_fit, if_pos hfk2]
      simp only []
      rw [mkdir_state_bare es k hsepk]
      by_cases hmk : legalName k = true ∧ k.length ≤ NAME_MAX ∧ lookupE es k = none
      · rw [if_pos hmk]
        obtain ⟨fs2, h1, _⟩ := ih (i + 1) kc (es ++ [(k, .dir [])]) hsepr (by omega) hfr
        refine ⟨fs2, h1, ?_⟩
        intro hall
        exact absurd hmk.2.2 (hall k (List.mem_cons_self _ _) hmk.1 hmk.2.1)
      · rw [if_neg hmk]
        obtain ⟨fs2, h1, h2⟩ := ih (i + 1) kc es hsepr (by omega) hfr
        exact ⟨fs2, h1, fun hall => h2 (fun k hk => hall k (List.mem_cons_of_mem _ hk))⟩
    · rw [if_neg hz]
      obtain ⟨fs2, h1, h2⟩ := ih (i + 1) kc es hsepr (by omega) hfr
      exact ⟨fs2, h1, fun hall => h2 (fun k hk => hall k (List.mem_cons_of_mem _ hk))⟩

/-- For a registry of names without separator the tree stays known. -/
theorem main_create_some (pd : CStr) :
    ∀ (ks : List CStr) (i : Nat) (kc : List Int) (es : Entries) (o : Option Node),
      (∀ k ∈ ks, SEP ∉ k) → main_create pd ks i kc (some (.dir es)) = .ok o →
      ∃ fs2, o = some fs2 := by
  intro ks
  induction ks with
  | nil =>
    intro i kc es o _ h
    simp only [main_create, Res.ok.injEq] at h
    exact ⟨.dir es, h.symm⟩
  | cons k rest ih =>
    intro i kc es o hsep h
    have hsepk : SEP ∉ k := hsep k (List.mem_cons_self _ _)
    have hsepr : ∀ k ∈ rest, SEP ∉ k := fun k hk => hsep k (List.mem_cons_of_mem _ hk)
    unfold main_create at h
    cases hv : kc[i]? with
    | none => rw [hv] at h; cases h
    | some v =>
      rw [hv] at h
      simp only [] at h
      by_cases hz : v = 0
      · rw [if_pos hz] at h
        cases hsp : sprintf_path TMPPATH_SIZE pd k with
        | none => rw [hsp] at h; cases h
        | some s =>
          rw [hsp] at h
          simp only [] at h
          rw [mkdir_state_bare es k hsepk] at h
          by_cases hmk : legalName k = true ∧ k.length ≤ NAME_MAX ∧ lookupE es k = none
          · rw [if_pos hmk] at h
            exact ih _ _ _ o hsepr h
          · rw [if_neg hmk] at h
            exact ih _ _ _ o hsepr h
      · rw [if_neg hz] at h
        exact ih _ _ _ o hsepr h

/-- Whatever the registry, the creation loop comes to its end when every key
string fits and `key_check` covers every index. -/
theorem main_create_defined (pd : CStr) :
    ∀ (ks : List CStr) (i : Nat) (kc : List Int) (fs : Option Node),
      i + ks.length ≤ kc.length → (∀ k ∈ ks, fitsTmppath pd k) →
      ∃ r, main_create pd ks i kc fs = .ok r := by
  intro ks
  induction ks with
  | nil => intro i kc fs _ _; exact ⟨fs, rfl⟩
  | cons k rest ih =>
    intro i kc fs hlen hfit
    simp only [List.length_cons] at hlen
    have hi : i < kc.length := by omega
    have hfk : pd.length + 1 + k.length + 1 ≤ TMPPATH_SIZE := hfit k (List.mem_cons_self _ _)
    have hfr : ∀ k ∈ rest, fitsTmppath pd k := fun k hk => hfit k (List.mem_cons_of_mem _ hk)
    unfold main_create
    rw [List.getElem?_eq_getElem hi]
    simp only []
    by_cases hz : kc[i] = 0
    · rw [if_pos hz, sprintf_path_fit, if_pos hfk]
      exact ih (i + 1) kc _ (by omega) hfr
    · rw [if_neg hz]
      exact ih (i + 1) kc fs (by omega) hfr

/-- Whatever the registry, a creation loop that ends inside the backing tree
has kept every top-level entry with its type, has added only directories at
the top level, and has left an entry under every key it called `mkdir` for
that is a legal name of at most `NAME_MAX` bytes. -/
theorem main_create_kinds (pd : CStr) :
    ∀ (ks : List CStr) (i : Nat) (kc : List Int) (es : Entries) (fs2 : Node),
      main_create pd ks i kc (some (.dir es)) = .ok (some fs2) →
      ∃ es2, fs2 = .dir es2 ∧
        (∀ name x, lookupE es name = some x →
          ∃ y, lookupE es2 name = some y ∧ y.isDir = x.isDir) ∧
        (∀ name y, lookupE es name = none → lookupE es2 name = some y → y.isDir = true) ∧
        (∀ (j : Nat) (k : CStr), ks[j]? = some k →
          ∃ v, kc[i + j]? = some v ∧
            (v = 0 → legalName k = true → k.length ≤ NAME_MAX → lookupE es2 k ≠ none)) := by
  intro ks
  induction ks with
  | nil =>
    intro i kc es fs2 h
    simp only [main_create, Res.ok.injEq, Option.some.injEq] at h
    refine ⟨es, h.symm, fun _ x h => ⟨x, h, rfl⟩, ?_, ?_⟩
    · intro _ _ h1 h2
      rw [h1] at h2; cases h2
    · intro j k hk
      simp at hk
  | cons k rest ih =>
    intro i kc es fs2 h
    unfold main_create at h
    cases hv : kc[i]? with
    | none => rw [hv] at h; cases h
    | some v =>
      rw [hv] at h
      simp only [] at h
      have hshift : ∀ (es2 : Entries),
          (∀ (j : Nat) (k : CStr), rest[j]? = some k →
            ∃ v, kc[i + 1 + j]? = some v ∧
              (v = 0 → legalName k = true → k.length ≤ NAME_MAX → lookupE es2 k ≠ none)) →
          (v = 0 → legalName k = true → k.length ≤ NAME_MAX → lookupE es2 k ≠ none) →
          ∀ (j : Nat) (k2 : CStr), (k :: rest)[j]? = some k2 →
            ∃ v, kc[i + j]? = some v ∧
              (v = 0 → legalName k2 = true → k2.length ≤ NAME_MAX → lookupE es2 k2 ≠ none) := by
        intro es2 h5 h0 j k2 hj
        cases j with
        | zero =>
          simp only [List.getElem?_cons_zero, Option.some.injEq] at hj
          subst hj
          exact ⟨v, hv, h0⟩
        | succ j =>
          simp only [List.getElem?_cons_succ] at hj
          have := h5 j k2 hj
          have e : i + 1 + j = i + (j + 1) := by omega
          rw [e] at this
          exact this
      by_cases hz : v = 0
      · rw [if_pos hz] at h
        cases hsp : sprintf_path TMPPATH_SIZE pd k with
        | none => rw [hsp] at h; cases h
        | some s =>
          rw [hsp] at h
          simp only [] at h
          simp only [Option.some_bind] at h
          cases hm : nat_mkdir (.dir es) k with
          | none =>
            rw [hm] at h
            have := main_create_none pd rest (i + 1) kc _ h
            cases this
          | some r =>
            rw [hm] at h
            simp only [Option.map_some'] at h
            obtain ⟨es1, hr, g1, g2⟩ := nat_mkdir_kinds es k r hm
            rw [hr] at h
            obtain ⟨es2, h1, h2, h3, h5⟩ := ih (i + 1) kc es1 fs2 h
            refine ⟨es2, h1, ?_, ?_, hshift es2 h5 ?_⟩
            · intro name x hl
              obtain ⟨y, hy, hyd⟩ := g1 name x hl
              obtain ⟨z, hz2, hzd⟩ := h2 name y hy
              exact ⟨z, hz2, by rw [hzd, hyd]⟩
            · intro name y hl hy
              cases h1n : lookupE es1 name with
              | none => exact h3 name y h1n hy
              | some x =>
                obtain ⟨z, hz2, hzd⟩ := h2 name x h1n
                rw [hy] at hz2
                simp only [Option.some.injEq] at hz2
                rw [hz2, hzd, g2 name x hl h1n]
                rfl
            · intro _ hleg hlen
              obtain ⟨r2, es3, hm2, hr2, hne⟩ := nat_mkdir_present es k hleg hlen
              rw [hm] at hm2
              simp only [Option.some.injEq] at hm2
              rw [← hm2, hr] at hr2
              simp only [Node.dir.injEq] at hr2
              rw [← hr2] at hne
              cases hx : lookupE es1 k with
              | none => exact absurd hx hne
              | some x =>
                obtain ⟨z, hz2, _⟩ := h2 k x hx
                rw [hz2]; simp
      · rw [if_neg hz] at h
        obtain ⟨es2, h1, h2, h3, h5⟩ := ih (i + 1) kc es fs2 h
        exact ⟨es2, h1, h2, h3, hshift es2 h5 (fun h0 => absurd h0 hz)⟩

/-! ## `main`: the two loops together -/

theorem wfL_lookupE_of_mem : ∀ (es : Entries), wfL es = true → ∀ (n : CStr) (c : Node),
    (n, c) ∈ es → lookupE es n = some c
  | [], _, n, c, h => by simp at h
  | (m, x) :: rest, hwf, n, c, h => by
    obtain ⟨_, hnone, _, hwfr⟩ := wfL_cons m x rest hwf
    rcases List.mem_cons.mp h with e | h2
    · cases e; simp [lookupE]
    · have h3 := wfL_lookupE_of_mem rest hwfr n c h2
      have hne : ¬ m = n := by
        intro e; rw [e] at hnone; rw [hnone] at h3; cases h3
      simp [lookupE, hne, h3]

theorem main_keys_closed (pf : Platform) (block : Nat) :
    ∀ (args : List CStr) (i : Nat) (key_list : List CStr),
      main_keys pf block args i key_list
        = if args = [] ∨ (i + args.length) * pf.ptr_size ≤ block then .ok (key_list ++ args)
          else .undefined := by
  intro args
  induction args with
  | nil => intro i key_list; simp [main_keys]
  | cons a rest ih =>
    intro i key_list
    unfold main_keys
    by_cases h1 : (i + 1) * pf.ptr_size ≤ block
    · rw [if_pos h1, ih]
      by_cases hr : rest = []
      · subst hr
        simp [h1]
      · have e : i + 1 + rest.length = i + (a :: rest).length := by
          simp only [List.length_cons]; omega
        rw [e]
        simp [hr]
    · rw [if_neg h1]
      have hno : ¬ (a :: rest = [] ∨ (i + (a :: rest).length) * pf.ptr_size ≤ block) := by
        rintro (h | h)
        · cases h
        · apply h1
          refine Nat.le_trans (Nat.mul_le_mul_right _ ?_) h
          simp only [List.length_cons]; omega
      rw [if_neg hno]

/-- The registry `main` works with is the list of key arguments when their
pointers fit the block; otherwise the run is not defined. -/
theorem main_keys_top (pf : Platform) (args : List CStr) :
    main_keys pf (pf.int_size * args.length + 1) args 0 []
      = if KeyListFits pf args.length then .ok args else .undefined := by
  rw [main_keys_closed]
  unfold KeyListFits
  by_cases ha : args = []
  · subst ha; simp
  · simp [ha]

theorem main_unfold (pf : Platform) (pd : CStr) (keys : List CStr) (es : Entries)
    (hwf : wfL es = true) :
    main pf pd keys (.dir es)
      = if KeyListFits pf keys.length then
          match scanSpec pd keys es (List.replicate KEY_CHECK_SIZE 0) with
          | .ok r =>
            match main_create pd keys 0 r.2 (some (.dir r.1)) with
            | .ok fs2 => .ok ⟨fs2, 1, true⟩
            | .undefined => .undefined
            | .nofuel => .nofuel
          | .undefined => .undefined
          | .nofuel => .nofuel
        else .undefined := by
  unfold main main_bounded
  rw [main_keys_top]
  by_cases hk : KeyListFits pf keys.length
  · rw [if_pos hk, if_pos hk]
    have hrd : nat_readdir (.dir es) [] = DOT :: DOTDOT :: es.map Prod.fst := by
      simp [nat_readdir, lookup_nil]
    have hskip : ∀ (l : List CStr) (s : Option FType) (fs : Node) (kc : List Int),
        main_scan pd keys (depth (.dir es)) (DOT :: DOTDOT :: l) s fs kc
          = main_scan pd keys (depth (.dir es)) l s fs kc := by
      intro l s fs kc
      simp [main_scan]
    simp only []
    rw [hrd, hskip]
    have h := main_scan_closed pd keys (depth (.dir es)) es [] none
      (List.replicate KEY_CHECK_SIZE 0) hwf (by simp [depth]) (fun _ _ => rfl)
    simp only [List.nil_append] at h
    rw [h]
    cases scanSpec pd keys es (List.replicate KEY_CHECK_SIZE 0) <;> rfl
  · rw [if_neg hk, if_neg hk]

/-- A run on anything but a directory is not defined. -/
theorem main_root_dir (pf : Platform) (pd : CStr) (keys : List CStr) (root : Node)
    (b : Boot) (h : main pf pd keys root = .ok b) : ∃ es, root = .dir es := by
  cases root with
  | dir es => exact ⟨es, rfl⟩
  | reg d =>
    unfold main main_bounded at h
    cases hk : main_keys pf (pf.int_size * keys.length + 1) keys 0 [] <;> rw [hk] at h <;> cases h
  | special k =>
    unfold main main_bounded at h
    cases hk : main_keys pf (pf.int_size * keys.length + 1) keys 0 [] <;> rw [hk] at h <;> cases h

/-- What a completed run of `main` went through: the key pointers fitted, the
scan completed and the creation loop came to its end; `init_over` is set and
the dispatcher is started. -/
theorem main_steps (pf : Platform) (pd : CStr) (keys : List CStr) (es : Entries) (b : Boot)
    (hwf : wfL es = true) (h : main pf pd keys (.dir es) = .ok b) :
    KeyListFits pf keys.length ∧
    ∃ r o, scanSpec pd keys es (List.replicate KEY_CHECK_SIZE 0) = .ok r ∧
      main_create pd keys 0 r.2 (some (.dir r.1)) = .ok o ∧ b = ⟨o, 1, true⟩ := by
  rw [main_unfold pf pd keys es hwf] at h
  by_cases hk : KeyListFits pf keys.length
  · rw [if_pos hk] at h
    refine ⟨hk, ?_⟩
    cases hs : scanSpec pd keys es (List.replicate KEY_CHECK_SIZE 0) with
    | undefined => rw [hs] at h; cases h
    | nofuel => rw [hs] at h; cases h
    | ok r =>
      rw [hs] at h
      simp only [] at h
      cases hc : main_create pd keys 0 r.2 (some (.dir r.1)) with
      | undefined => rw [hc] at h; cases h
      | nofuel => rw [hc] at h; cases h
      | ok o =>
        rw [hc] at h
        simp only [Res.ok.injEq] at h
        exact ⟨r, o, rfl, hc, h.symm⟩
  · rw [if_neg hk] at h; cases h

/-- Everything a completed run of `main` tells about the entries under the
backing root, for a registry of names without separator. -/
theorem main_facts (pf : Platform) (pd : CStr) (keys : List CStr) (es : Entries) (b : Boot)
    (hwf : wfL es = true) (hsep : ∀ k ∈ keys, SEP ∉ k)
    (h : main pf pd keys (.dir es) = .ok b) :
    ∃ es2, b = ⟨some (.dir es2), 1, true⟩ ∧ wfL es2 = true ∧
      (∀ name c, lookupE es name = some c → (c.isDir = false ∨ name ∈ keys) →
        lookupE es2 name = some c) ∧
      (∀ name c, lookupE es name = some c → c.isDir = true → name ∉ keys →
        ∃ r, purge (pd.length + 1 + name.length) c = .ok r ∧ lookupE es2 name = r) ∧
      (∀ name x, lookupE es name = none → lookupE es2 name = some x →
        x = .dir [] ∧ name ∈ keys ∧ legalName name = true ∧ name.length ≤ NAME_MAX ∧
          fitsTmppath pd name) ∧
      (∀ k ∈ keys, legalName k = true → k.length ≤ NAME_MAX → lookupE es2 k ≠ none) ∧
      (∀ k ∈ keys, fitsTmppath pd k) ∧ (∀ e ∈ es, fitsTmppath pd e.1) ∧
      keys.length ≤ KEY_CHECK_SIZE ∧ KeyListFits pf keys.length := by
  obtain ⟨hfitk, r, o, hs, hc, hb⟩ := main_steps pf pd keys es b hwf h
  obtain ⟨fs2, ho⟩ := main_create_some pd keys 0 r.2 r.1 o hsep hc
  subst ho
  obtain ⟨s1, s2, s3, s4, s5, s6, s7⟩ := scanSpec_facts pd keys es _ r hwf hs
  obtain ⟨es2, k1, k2, k3, k4, k5⟩ := main_create_facts pd keys 0 r.2 r.1 fs2 hsep s1 hc
  have hkc : ∀ (j : Nat) (k : CStr), keys[j]? = some k →
      j < KEY_CHECK_SIZE ∧
      ((fitsTmppath pd k ∧
          (legalName k = true → k.length ≤ NAME_MAX → lookupE es2 k ≠ none)) ∨
        lookupE es k ≠ none) := by
    intro j k hj
    obtain ⟨v, hv, hv0⟩ := k5 j k hj
    rw [Nat.zero_add] at hv
    have hjlt : j < r.2.length := (List.getElem?_eq_some.mp hv).1
    rw [s2, List.length_replicate] at hjlt
    refine ⟨hjlt, ?_⟩
    rcases s7 j with h1 | ⟨k2, hk2, hk3⟩
    · left
      apply hv0
      rw [hv, List.getElem?_replicate, if_pos hjlt] at h1
      simp only [Option.some.injEq] at h1
      exact h1
    · right
      rw [hj] at hk2
      simp only [Option.some.injEq] at hk2
      rw [hk2]; exact hk3
  refine ⟨es2, ?_, k2, ?_, ?_, ?_, ?_, ?_, s3, ?_, hfitk⟩
  · rw [hb, k1]
  · intro name c hl hor
    exact k3 name c (s5 name c hl hor)
  · intro name c hl hd hnk
    obtain ⟨r0, hp, hr0⟩ := s6 name c hl hd hnk
    refine ⟨r0, hp, ?_⟩
    cases hr1 : lookupE r.1 name with
    | some y =>
      rw [k3 name y hr1, ← hr0, hr1]
    | none =>
      rw [← hr0, hr1]
      cases h2 : lookupE es2 name with
      | none => rfl
      | some y =>
        rcases k4 name y h2 with ha | ⟨_, _, hc2, _, _, _⟩
        · rw [hr1] at ha; cases ha
        · exact absurd hc2 hnk
  · intro name x hl h2
    rcases k4 name x h2 with ha | ⟨_, hb2, hc2, hd, hn, he⟩
    · rw [s4 name hl] at ha; cases ha
    · exact ⟨hb2, hc2, hd, hn, he⟩
  · intro k hk hleg hlen
    obtain ⟨j, hj, hkj⟩ := List.getElem_of_mem hk
    have hj2 : keys[j]? = some k := by
      rw [List.getElem?_eq_getElem hj, hkj]
    rcases (hkc j k hj2).2 with ⟨_, h1⟩ | h1
    · exact h1 hleg hlen
    · cases hx : lookupE es k with
      | none => exact absurd hx h1
      | some c =>
        rw [k3 k c (s5 k c hx (Or.inr hk))]
        simp
  · intro k hk
    obtain ⟨j, hj, hkj⟩ := List.getElem_of_mem hk
    have hj2 : keys[j]? = some k := by
      rw [List.getElem?_eq_getElem hj, hkj]
    rcases (hkc j k hj2).2 with ⟨h1, _⟩ | h1
    · exact h1
    · cases hx : lookupE es k with
      | none => exact absurd hx h1
      | some c => exact s3 (k, c) (lookupE_mem es k c hx)
  · cases hq : keys[KEY_CHECK_SIZE]? with
    | none => exact List.getElem?_eq_none_iff.mp hq
    | some k =>
      have := (hkc KEY_CHECK_SIZE k hq).1
      omega

/-- Whatever the registry, a completed run of `main` has set `init_over` and
started the dispatcher; and as far as the tree is known afterwards, every key
that is a legal name of at most `NAME_MAX` bytes, and whose name no top-level
non-directory bore, has a directory directly under the backing root. -/
theorem main_kinds (pf : Platform) (pd : CStr) (keys : List CStr) (es : Entries) (b : Boot)
    (hwf : wfL es = true) (h : main pf pd keys (.dir es) = .ok b) :
    b.init_over = 1 ∧ b.served = true ∧
    ∀ t, b.fs = some t → ∃ es2, t = .dir es2 ∧
      (∀ k ∈ keys, legalName k = true → k.length ≤ NAME_MAX →
        (∀ x, lookupE es k = some x → x.isDir = true) →
        ∃ cs, lookupE es2 k = some (.dir cs)) := by
  obtain ⟨_, r, o, hs, hc, hb⟩ := main_steps pf pd keys es b hwf h
  subst hb
  refine ⟨rfl, rfl, ?_⟩
  intro t ht
  simp only [] at ht
  subst ht
  obtain ⟨_, s2, _, s4, s5, _, s7⟩ := scanSpec_facts pd keys es _ r hwf hs
  obtain ⟨es2, k1, k2, k3, k5⟩ := main_create_kinds pd keys 0 r.2 r.1 t hc
  refine ⟨es2, k1, ?_⟩
  intro k hk hleg hlen hno
  have hdir : ∀ y : Node, y.isDir = true → ∃ cs, y = .dir cs := by
    intro y hy
    cases y with
    | dir cs => exact ⟨cs, rfl⟩
    | reg d => simp [Node.isDir] at hy
    | special s => simp [Node.isDir] at hy
  cases hx : lookupE es k with
  | some c =>
    obtain ⟨y, hy, hyd⟩ := k2 k c (s5 k c hx (Or.inr hk))
    obtain ⟨cs, hcs⟩ := hdir y (by rw [hyd]; exact hno c hx)
    exact ⟨cs, by rw [hy, hcs]⟩
  | none =>
    have hr1 : lookupE r.1 k = none := s4 k hx
    obtain ⟨j, hj, hkj⟩ := List.getElem_of_mem hk
    have hj2 : keys[j]? = some k := by
      rw [List.getElem?_eq_getElem hj, hkj]
    obtain ⟨v, hv, hv0⟩ := k5 j k hj2
    rw [Nat.zero_add] at hv
    have hjlt : j < r.2.length := (List.getElem?_eq_some.mp hv).1
    rw [s2, List.length_replicate] at hjlt
    rcases s7 j with h1 | ⟨kx, hk2, hk3⟩
    · rw [hv, List.getElem?_replicate, if_pos hjlt] at h1
      simp only [Option.some.injEq] at h1
      have hne := hv0 h1 hleg hlen
      cases hy : lookupE es2 k with
      | none => exact absurd hy hne
      | some y =>
        obtain ⟨cs, hcs⟩ := hdir y (k3 k y hr1 hy)
        exact ⟨cs, by rw [hcs]⟩
    · rw [hj2] at hk2
      simp only [Option.some.injEq] at hk2
      rw [← hk2, hx] at hk3
      exact absurd rfl hk3

mutual
theorem purge_defined (len : Nat) : ∀ n : Node, fits len n = true → ∃ r, purge len n = .ok r
  | .reg _, _ => ⟨none, rfl⟩
  | .special k, _ => ⟨some (.special k), rfl⟩
  | .dir es, hf => by
    obtain ⟨out, ho⟩ := purgeL_defined len es (by simpa [fits] using hf)
    cases out with
    | nil => exact ⟨none, by simp [purge, ho]⟩
    | cons e rest => exact ⟨some (.dir (e :: rest)), by simp [purge, ho]⟩
theorem purgeL_defined (len : Nat) : ∀ es : Entries, fitsL len es = true →
    ∃ out, purgeL len es = .ok out
  | [], _ => ⟨[], rfl⟩
  | (n, c) :: rest, hf => by
    simp only [fitsL, Bool.and_eq_true, decide_eq_true_eq] at hf
    obtain ⟨r, hr⟩ := purge_defined (len + 1 + n.length) c hf.1.2
    obtain ⟨out, ho⟩ := purgeL_defined len rest hf.2
    cases r with
    | none => exact ⟨out, by simp [purgeL, hf.1.1, hr, ho]⟩
    | some c2 => exact ⟨(n, c2) :: out, by simp [purgeL, hf.1.1, hr, ho]⟩
end

/-- For a registry of names without separator the reconciliation completes,
with the tree known, whenever nothing goes past a block or buffer. -/
theorem main_completes (pf : Platform) (pd : CStr) (keys : List CStr) (root : Node)
    (hwf : wf root = true) (hsep : ∀ k ∈ keys, SEP ∉ k)
    (hbuf : WithinBuffers pf pd keys root) :
    ∃ fs2, main pf pd keys root = .ok ⟨some fs2, 1, true⟩ := by
  cases root with
  | reg d => exact absurd hbuf (by simp [WithinBuffers])
  | special k => exact absurd hbuf (by simp [WithinBuffers])
  | dir es =>
    have hwfl : wfL es = true := by simpa [wf] using hwf
    obtain ⟨hkl, hcount, hfitE, hfitK, hfits⟩ := hbuf
    obtain ⟨out, ho, _⟩ := scanSpec_runs pd keys es (List.replicate KEY_CHECK_SIZE 0)
      (by simpa using hcount) hfitE
      (fun e he hd hnk => purge_defined _ e.2 (hfits e he hd hnk))
    have hlen : out.2.length = KEY_CHECK_SIZE := by
      have := (scanSpec_facts pd keys es _ out hwfl ho).2.1
      simpa using this
    obtain ⟨fs2, hc, _⟩ := main_create_runs pd keys 0 out.2 out.1 hsep (by omega) hfitK
    refine ⟨fs2, ?_⟩
    rw [main_unfold pf pd keys es hwfl, if_pos hkl, ho]
    simp only []
    rw [hc]

/-- Whatever the registry, the reconciliation reaches the call of `fuse_main`
whenever nothing goes past a block or buffer. -/
theorem main_defined (pf : Platform) (pd : CStr) (keys : List CStr) (root : Node)
    (hwf : wf root = true) (hbuf : WithinBuffers pf pd keys root) :
    ∃ b, main pf pd keys root = .ok b := by
  cases root with
  | reg d => exact absurd hbuf (by simp [WithinBuffers])
  | special k => exact absurd hbuf (by simp [WithinBuffers])
  | dir es =>
    have hwfl : wfL es = true := by simpa [wf] using hwf
    obtain ⟨hkl, hcount, hfitE, hfitK, hfits⟩ := hbuf
    obtain ⟨out, ho, _⟩ := scanSpec_runs pd keys es (List.replicate KEY_CHECK_SIZE 0)
      (by simpa using hcount) hfitE
      (fun e he hd hnk => purge_defined _ e.2 (hfits e he hd hnk))
    have hlen : out.2.length = KEY_CHECK_SIZE := by
      have := (scanSpec_facts pd keys es _ out hwfl ho).2.1
      simpa using this
    obtain ⟨o, hc⟩ := main_create_defined pd keys 0 out.2 (some (.dir out.1)) (by omega) hfitK
    refine ⟨⟨o, 1, true⟩, ?_⟩
    rw [main_unfold pf pd keys es hwfl, if_pos hkl, ho]
    simp only []
    rw [hc]

mutual
theorem purge_ne_nofuel (len : Nat) : ∀ n : Node, purge len n ≠ .nofuel
  | .reg _ => by simp [purge]
  | .special _ => by simp [purge]
  | .dir es => by
    have h := purgeL_ne_nofuel len es
    unfold purge
    cases hl : purgeL len es with
    | nofuel => exact absurd hl h
    | undefined => simp
    | ok out => cases out <;> simp
theorem purgeL_ne_nofuel (len : Nat) : ∀ es : Entries, purgeL len es ≠ .nofuel
  | [] => by simp [purgeL]
  | (n, c) :: rest => by
    have h1 := purge_ne_nofuel (len + 1 + n.length) c
    have h2 := purgeL_ne_nofuel len rest
    unfold purgeL
    split
    · cases hp : purge (len + 1 + n.length) c with
      | nofuel => exact absurd hp h1
      | undefined => simp
      | ok r =>
        cases hl : purgeL len rest with
        | nofuel => exact absurd hl h2
        | undefined => simp
        | ok out => cases r <;> simp
    · simp
end

theorem scanSpec_ne_nofuel (pd : CStr) (keys : List CStr) :
    ∀ (es : Entries) (kc : List Int), scanSpec pd keys es kc ≠ .nofuel := by
  intro es
  induction es with
  | nil => intro kc; simp [scanSpec]
  | cons e rest ih =>
    intro kc
    obtain ⟨n, c⟩ := e
    unfold scanSpec
    split
    · split
      · split
        · cases hp : purge (pd.length + 1 + n.length) c with
          | nofuel => exact absurd hp (purge_ne_nofuel _ c)
          | undefined => simp
          | ok r =>
            cases hs : scanSpec pd keys rest kc with
            | nofuel => exact absurd hs (ih kc)
            | undefined => simp [Res.map]
            | ok p => simp [Res.map]
        · split
          · cases hs : scanSpec pd keys rest (kc.set (main_flag n keys 0 0 - 1).toNat 1) with
            | nofuel => exact absurd hs (ih _)
            | undefined => simp [Res.map]
            | ok p => simp [Res.map]
          · simp
      · cases hs : scanSpec pd keys rest kc with
        | nofuel => exact absurd hs (ih kc)
        | undefined => simp [Res.map]
        | ok p => simp [Res.map]
    · simp

theorem main_create_ne_nofuel (pd : CStr) :
    ∀ (ks : List CStr) (i : Nat) (kc : List Int) (fs : Option Node),
      main_create pd ks i kc fs ≠ .nofuel := by
  intro ks
  induction ks with
  | nil => intro i kc fs; simp [main_create]
  | cons k rest ih =>
    intro i kc fs
    unfold main_create
    cases kc[i]? with
    | none => simp
    | some v =>
      simp only []
      split
      · cases sprintf_path TMPPATH_SIZE pd k with
        | none => simp
        | some s => exact ih _ _ _
      · exact ih _ _ _

/-- The recursion bound `main` takes from the tree is never what ends a run. -/
theorem main_ne_nofuel (pf : Platform) (pd : CStr) (keys : List CStr) (root : Node)
    (hwf : wf root = true) : main pf pd keys root ≠ .nofuel := by
  cases root with
  | reg d =>
    unfold main main_bounded
    rw [main_keys_top]
    split_ifs <;> simp
  | special k =>
    unfold main main_bounded
    rw [main_keys_top]
    split_ifs <;> simp
  | dir es =>
    have hwfl : wfL es = true := by simpa [wf] using hwf
    rw [main_unfold pf pd keys es hwfl]
    by_cases hk : KeyListFits pf keys.length
    · rw [if_pos hk]
      cases hs : scanSpec pd keys es (List.replicate KEY_CHECK_SIZE 0) with
      | nofuel => exact absurd hs (scanSpec_ne_nofuel pd keys es _)
      | undefined => simp
      | ok r =>
        simp only []
        cases hc : main_create pd keys 0 r.2 (some (.dir r.1)) with
        | nofuel => exact absurd hc (main_create_ne_nofuel pd keys 0 _ _)
        | undefined => simp
        | ok o => simp
    · rw [if_neg hk]; simp

/-! ## `remove_dir` at any location -/

/-- Closed form of `remove_dir` at a location that exists: with enough
recursion depth the outcome is what `purge` says of the node found there,
placed back at that location. -/
theorem remove_dir_at : ∀ (p : Path) (pd : CStr) (fuel : Nat) (root n : Node),
    p ≠ [] → lookup root p = some n → wf n = true → depth n < fuel →
    remove_dir pd fuel root p
      = (purge (pathString pd p).length n).map (fun r => (0, putAt root p r))
  | [], _, _, _, _, hp, _, _, _ => absurd rfl hp
  | [c], pd, fuel, root, n, _, hl, hwf, hd => by
    cases root with
    | reg d => simp [lookup] at hl
    | special k => simp [lookup] at hl
    | dir es =>
      rw [lookup_top] at hl
      rw [remove_dir_top fuel pd es c n hl hwf hd, pathString_one]
      have : (pd ++ SEP :: c).length = pd.length + 1 + c.length := by simp; omega
      rw [this]
      rfl
  | c :: c2 :: cs, pd, fuel, root, n, _, hl, hwf, hd => by
    cases root with
    | reg d => simp [lookup] at hl
    | special k => simp [lookup] at hl
    | dir es =>
      rw [lookup_cons] at hl
      cases hc : lookupE es c with
      | none => rw [hc] at hl; simp at hl
      | some ch =>
        rw [hc] at hl
        simp only [Option.some_bind] at hl
        rw [remove_dir_descend pd fuel c es ch (c2 :: cs) (by simp) hc,
          remove_dir_at (c2 :: cs) (pd ++ SEP :: c) fuel ch n (by simp) hl hwf hd,
          pathString_cons, Res.map_map]
        congr 1
        funext r
        simp [putAt, inParent, hc]

theorem remove_dir_absent (pd : CStr) (fuel : Nat) (root : Node) (p : Path)
    (h : lookup root p = none) : remove_dir pd (fuel + 1) root p = .ok (0, root) := by
  simp [remove_dir, nat_access, h]

theorem lookupE_setEntry_none (es : Entries) (c : CStr) (hwf : wfL es = true) :
    lookupE (setEntry es c none) c = none := by
  induction es with
  | nil => rfl
  | cons e rest ih =>
    obtain ⟨n, x⟩ := e
    obtain ⟨_, hnone, _, hwfr⟩ := wfL_cons n x rest hwf
    by_cases hn : n = c
    · subst hn
      simp [setEntry, hnone]
    · simp [setEntry, lookupE, hn, ih hwfr]

theorem wf_of_lookupE (es : Entries) (hwf : wfL es = true) (c : CStr) (ch : Node)
    (h : lookupE es c = some ch) : wf ch = true :=
  (wfL_mem es hwf (c, ch) (lookupE_mem es c ch h)).2

/-- After the entry at a location is dropped, nothing exists at or beneath it. -/
theorem lookup_putAt_none : ∀ (p : Path) (root n : Node) (q : Path),
    p ≠ [] → wf root = true → lookup root p = some n →
    lookup (putAt root p none) (p ++ q) = none
  | [], _, _, _, hp, _, _ => absurd rfl hp
  | [c], root, n, q, _, hwf, hl => by
    cases root with
    | reg d => simp [lookup] at hl
    | special k => simp [lookup] at hl
    | dir es =>
      have hwfl : wfL es = true := by simpa [wf] using hwf
      simp only [putAt, inParent, List.singleton_append]
      rw [lookup_cons, lookupE_setEntry_none es c hwfl]
      rfl
  | c :: c2 :: cs, root, n, q, _, hwf, hl => by
    cases root with
    | reg d => simp [lookup] at hl
    | special k => simp [lookup] at hl
    | dir es =>
      have hwfl : wfL es = true := by simpa [wf] using hwf
      rw [lookup_cons] at hl
      cases hc : lookupE es c with
      | none => rw [hc] at hl; simp at hl
      | some ch =>
        rw [hc] at hl
        simp only [Option.some_bind] at hl
        have ih := lookup_putAt_none (c2 :: cs) ch n q (by simp)
          (wf_of_lookupE es hwfl c ch hc) hl
        simp only [putAt, inParent, hc, List.cons_append] at ih ⊢
        rw [lookup_cons, lookupE_setEntry_some es c _ (by rw [hc]; simp)]
        simpa using ih

/-- Replacing or dropping the node at `p` changes neither the existence nor
the type of anything that is not at or beneath `p`. -/
theorem lookup_putAt_frame : ∀ (p : Path) (root : Node) (r : Option Node) (q : Path),
    p ≠ [] → (∀ s, q ≠ p ++ s) →
    (lookup (putAt root p r) q).map Node.ftype = (lookup root q).map Node.ftype
  | [], _, _, _, hp, _ => absurd rfl hp
  | [c], root, r, q, _, hq => by
    cases root with
    | reg d => rfl
    | special k => rfl
    | dir es =>
      simp only [putAt, inParent]
      cases q with
      | nil => simp [lookup_nil, Node.ftype]
      | cons c1 q1 =>
        have hne : c1 ≠ c := by
          intro e
          exact hq q1 (by rw [e]; rfl)
        rw [lookup_cons, lookup_cons, lookupE_setEntry_ne es c c1 r hne]
  | c :: c2 :: cs, root, r, q, _, hq => by
    cases root with
    | reg d => rfl
    | special k => rfl
    | dir es =>
      cases hc : lookupE es c with
      | none => simp [putAt, inParent, hc]
      | some ch =>
        simp only [putAt, inParent, hc]
        cases q with
        | nil => simp [lookup_nil, Node.ftype]
        | cons c1 q1 =>
          by_cases hne : c1 = c
          · subst hne
            rw [lookup_cons, lookup_cons,
              lookupE_setEntry_some es c1 _ (by rw [hc]; simp), hc]
            simp only [Option.some_bind]
            have ih := lookup_putAt_frame (c2 :: cs) ch r q1 (by simp)
              (fun s e => hq s (by rw [e]; rfl))
            simpa [putAt] using ih
          · rw [lookup_cons, lookup_cons, lookupE_setEntry_ne es c c1 _ hne]

/-- The deletion contract of `remove_dir` where no path string overruns
`dir_name`: for a well-formed tree, a location `p` below the root and enough
recursion depth, a missing path or a file of another type leaves the tree as
it is, a regular file goes, a directory of directories and regular files goes
with everything beneath it; in each case the call returns 0, and existence and
type of everything not at or beneath `p` stay as they were. -/
theorem remove_dir_contract (pd : CStr) (fuel : Nat) (root : Node) (p : Path)
    (hp : p ≠ []) (hwf : wf root = true) :
    (lookup root p = none → remove_dir pd (fuel + 1) root p = .ok (0, root)) ∧
    (∀ k, lookup root p = some (.special k) →
      remove_dir pd (fuel + 1) root p = .ok (0, root)) ∧
    (∀ n, lookup root p = some n → wf n = true → plain n = true →
      fits (pathString pd p).length n = true → depth n < fuel →
      ∃ root2, remove_dir pd fuel root p = .ok (0, root2) ∧
        (∀ q, lookup root2 (p ++ q) = none) ∧
        (∀ q, (∀ s, q ≠ p ++ s) →
          (lookup root2 q).map Node.ftype = (lookup root q).map Node.ftype)) := by
  refine ⟨remove_dir_absent pd fuel root p, ?_, ?_⟩
  · intro k hl
    unfold remove_dir
    unfold nat_access nat_lstat
    rw [hl]
    cases k with
    | symlink t => cases t <;> simp [Node.ftype]
    | _ => simp [Node.ftype]
  · intro n hl hwfn hpl hfit hd
    refine ⟨putAt root p none, ?_, fun q => lookup_putAt_none p root n q hp hwf hl,
      fun q hq => lookup_putAt_frame p root none q hp hq⟩
    rw [remove_dir_at p pd fuel root n hp hl hwfn hd, purge_plain _ n hpl hfit]
    rfl

/-! ## Startup reconciliation: a second run -/

/-- Where a run of `main` with a registry of names without separator is
defined, a second run on the tree it left is defined too and leaves exactly
that tree: nothing is removed and nothing is created.  This holds also when
directories that are not keys survived the first run and when a `mkdir`
failed. -/
theorem main_idempotent (pf : Platform) (pd : CStr) (keys : List CStr) (root : Node) (b : Boot)
    (hwf : wf root = true) (hsep : ∀ k ∈ keys, SEP ∉ k)
    (hrun : main pf pd keys root = .ok b) :
    ∃ fs2, b.fs = some fs2 ∧ main pf pd keys fs2 = .ok b := by
  obtain ⟨es, rfl⟩ := main_root_dir pf pd keys root _ hrun
  have hwfl : wfL es = true := by simpa [wf] using hwf
  obtain ⟨es2, hb, m1, m2, m3, m4, m5, m6, m7, m8, m9⟩ :=
    main_facts pf pd keys es b hwfl hsep hrun
  refine ⟨.dir es2, by rw [hb], ?_⟩
  rw [main_unfold pf pd keys es2 m1, if_pos m9]
  have hstable : ∀ e ∈ es2, fitsTmppath pd e.1 ∧ (e.2.isDir = true → e.1 ∉ keys →
      purge (pd.length + 1 + e.1.length) e.2 = .ok (some e.2)) := by
    intro e he
    obtain ⟨name, y⟩ := e
    have hy := wfL_lookupE_of_mem es2 m1 name y he
    cases hc : lookupE es name with
    | none =>
      obtain ⟨_, h2, _, _, h4⟩ := m4 name y hc hy
      exact ⟨h4, fun _ hnk => absurd h2 hnk⟩
    | some c =>
      refine ⟨m7 (name, c) (lookupE_mem es name c hc), ?_⟩
      intro hd hnk
      by_cases hcd : c.isDir = true
      · obtain ⟨r, hp, hr⟩ := m3 name c hc hcd hnk
        rw [hy] at hr
        rw [← hr] at hp
        exact purge_idem _ c y hp
      · have hcd2 : c.isDir = false := by simpa using hcd
        have := m2 name c hc (Or.inl hcd2)
        rw [hy] at this
        simp only [Option.some.injEq] at this
        simp only [] at hd
        rw [this, hcd2] at hd; cases hd
  obtain ⟨out, ho, hsame⟩ := scanSpec_runs pd keys es2 (List.replicate KEY_CHECK_SIZE 0)
    (by simpa using m8) (fun e he => (hstable e he).1)
    (fun e he hd hnk => ⟨_, (hstable e he).2 hd hnk⟩)
  have hout : out.1 = es2 := hsame (fun e he => (hstable e he).2)
  rw [ho]
  simp only []
  have hlen : out.2.length = KEY_CHECK_SIZE := by
    have := (scanSpec_facts pd keys es2 _ out m1 ho).2.1
    simpa using this
  obtain ⟨fs2, hc, hfix⟩ := main_create_runs pd keys 0 out.2 out.1 hsep (by omega) m6
  rw [hc]
  rw [hout] at hfix
  rw [hfix m5, hb]

/-! ## Path translator and access policy: the stated contracts -/

/-- C9: `getnewpath` leaves in `tmp` exactly the characters of `pd` followed
by those of the virtual path and one terminating NUL, whatever `tmp` held
before: nothing is normalised, inserted or dropped; for NUL-free inputs the
string read back is `pd ++ v`, of length `|pd| + |v|`. -/
theorem getnewpath_exact_concatenation (tmp : List Char) (v pd : CStr)
    (hbuf : tmp.length = strlen pd + strlen v + 1) :
    getnewpath tmp v pd = pd ++ v ++ [NUL] ∧
    (NulFree pd → NulFree v →
      bufString (getnewpath tmp v pd) = pd ++ v ∧
      strlen (bufString (getnewpath tmp v pd)) = strlen pd + strlen v) := by
  have hb := getnewpath_buffer tmp v pd (by omega)
  have hd : tmp.drop (strlen pd + strlen v + 1) = [] :=
    List.drop_eq_nil_of_le (by omega)
  rw [hd] at hb
  refine ⟨hb, ?_⟩
  intro h1 h2
  have hs : bufString (getnewpath tmp v pd) = pd ++ v := by
    rw [hb]
    exact bufString_terminated (pd ++ v) [] (nulFree_append h1 h2)
  refine ⟨hs, ?_⟩
  rw [hs]
  simp [strlen]

theorem getnewpath_exact_concatenation_witness :
    (List.replicate 12 'x').length = strlen "/srv".toList + strlen "/a//b/.".toList + 1 ∧
    getnewpath (List.replicate 12 'x') "/a//b/.".toList "/srv".toList
      = "/srv/a//b/.".toList ++ [NUL] :=
  ⟨by decide,
    (getnewpath_exact_concatenation (List.replicate 12 'x') "/a//b/.".toList "/srv".toList
      (by decide)).1⟩

/-- C1: for a NUL-free virtual path `p = '/' :: rest` and any key registry,
with `init_over` set `is_accessible(p)` is 1 when `p` is the root or its
first segment equals a registry entry and 0 otherwise; with `init_over`
clear it is 1. -/
theorem is_accessible_contract (g : Globals) (buf : List Char) (p rest : CStr)
    (hp : p = SEP :: rest) (hnul : NulFree p) (hbuf : buf.length = strlen p + 1) :
    (g.init_over ≠ 0 →
      is_accessible g buf p
        = if p = [SEP] ∨ firstSegment p ∈ g.key_list then 1 else 0) ∧
    (g.init_over = 0 → is_accessible g buf p = 1) := by
  subst hp
  constructor
  · intro hinit
    by_cases hrest : rest = []
    · subst hrest
      simp [is_accessible, strlen, hinit]
    · rw [is_accessible_long g buf rest hinit hrest hbuf hnul]
      simp [hrest]
  · intro h0
    simp [is_accessible, h0]

theorem is_accessible_contract_witness :
    "/docs/a".toList = SEP :: "docs/a".toList ∧ NulFree "/docs/a".toList ∧
    (List.replicate 8 'x').length = strlen "/docs/a".toList + 1 ∧
    is_accessible ⟨1, ["tmp".toList, "docs".toList], "/srv".toList⟩ (List.replicate 8 'x')
      "/docs/a".toList = 1 :=
  ⟨by decide, by decide, by decide,
    ((is_accessible_contract ⟨1, ["tmp".toList, "docs".toList], "/srv".toList⟩
      (List.replicate 8 'x') "/docs/a".toList "docs/a".toList (by decide) (by decide)
      (by decide)).1 (by decide)).trans (by decide)⟩

/-- C2: for a NUL-free path `p`, with `init_over` set `is_key_directory(p)`
is 1 exactly when `p` has a separator at some index `≥ 1` and 0 otherwise; it
is 0 for the root and for every `'/' + k` with `k` separator-free; it is the
same under any two sets of globals with the flag set (registry and backing
store play no part); with `init_over` clear it is 1. -/
theorem is_key_directory_contract (g : Globals) (p : CStr) (hnul : NulFree p) :
    (g.init_over ≠ 0 →
      is_key_directory g p = if hasSecondSeparator p then 1 else 0) ∧
    (g.init_over ≠ 0 → is_key_directory g [SEP] = 0) ∧
    (g.init_over ≠ 0 → ∀ k : CStr, NulFree k → SEP ∉ k → is_key_directory g (SEP :: k) = 0) ∧
    (∀ g2 : Globals, g.init_over ≠ 0 → g2.init_over ≠ 0 →
      is_key_directory g2 p = is_key_directory g p) ∧
    (g.init_over = 0 → is_key_directory g p = 1) := by
  refine ⟨fun h => key_directory_spec g p h hnul, ?_, ?_, ?_, ?_⟩
  · intro h
    rw [key_directory_spec g _ h (by decide)]
    decide
  · intro h k hk hsep
    have hn : NulFree (SEP :: k) := by
      intro hm
      rcases List.mem_cons.mp hm with e | e
      · exact absurd e (by decide)
      · exact hk e
    rw [key_directory_spec g _ h hn]
    simp [hasSecondSeparator, hsep]
  · intro g2 h h2
    rw [key_directory_spec g p h hnul, key_directory_spec g2 p h2 hnul]
  · intro h0
    simp [is_key_directory, h0]

theorem is_key_directory_contract_witness :
    NulFree "/key1/".toList ∧
    is_key_directory ⟨1, [], "/srv".toList⟩ "/key1/".toList = 1 :=
  ⟨by decide,
    ((is_key_directory_contract ⟨1, [], "/srv".toList⟩ "/key1/".toList (by decide)).1
      (by decide)).trans (by decide)⟩

/-! ## Dispatcher: the policy matrix -/

/-- C3 as stated fails for `rename`: with key `k`, `rename("/k/a", "/k/b")`
with `flags = 1` satisfies all four required predicates, yet it is not
forwarded: no native call is made and the result is `-EINVAL`.  (A `read`
handed the handle `-1` is not forwarded either; no successful `open` returns
that handle.) -/
theorem rename_with_flags_not_forwarded :
    policyMatrix idleSys ⟨1, ["k".toList], "/srv".toList⟩
      (.rename "/k/a".toList "/k/b".toList 1) = true ∧
    (dispatch idleSys ⟨1, ["k".toList], "/srv".toList⟩
      (.rename "/k/a".toList "/k/b".toList 1) ()).trace = [] ∧
    (dispatch idleSys ⟨1, ["k".toList], "/srv".toList⟩
      (.rename "/k/a".toList "/k/b".toList 1) ()).ret = -EINVAL ∧
    ¬ Forwarded idleSys ⟨1, ["k".toList], "/srv".toList⟩
      (.rename "/k/a".toList "/k/b".toList 1)
      (dispatch idleSys ⟨1, ["k".toList], "/srv".toList⟩
        (.rename "/k/a".toList "/k/b".toList 1) ()) ∧
    policyMatrix idleSys ⟨1, ["k".toList], "/srv".toList⟩
      (.read "/k/a".toList 16 0 (some ⟨0, -1⟩)) = true ∧
    (dispatch idleSys ⟨1, ["k".toList], "/srv".toList⟩
      (.read "/k/a".toList 16 0 (some ⟨0, -1⟩)) ()).trace = [] := by
  refine ⟨by decide, by decide, by decide, ?_, by decide, by decide⟩
  intro h
  exact h.1 (by decide)

/-- C3, amended: for every request whose handle (if any) is not `-1`, the
dispatcher returns `-EACCES` with no native call and the world unchanged
exactly when a predicate the matrix requires is false; when all hold,
`rename` with non-zero `flags` returns `-EINVAL` with no native call, and
every other request is forwarded: at least one native call, each on the
translation of a path of the request. -/
theorem dispatch_follows_policy_matrix {W : Type} (sys : Sys W) (g : Globals) (op : Op)
    (w : W) (hfh : op.handleOk) :
    (dispatch sys g op w = deny w ↔ policyMatrix sys g op = false) ∧
    (policyMatrix sys g op = true → op.renameWithFlags →
      dispatch sys g op w = ⟨-EINVAL, w, [], none⟩) ∧
    (policyMatrix sys g op = true → ¬ op.renameWithFlags →
      Forwarded sys g op (dispatch sys g op w)) :=
  dispatch_policy_all sys g op w hfh

theorem dispatch_follows_policy_matrix_witness :
    (Op.read "/k/a".toList 16 0 (some ⟨0, 5⟩)).handleOk ∧
    (dispatch idleSys ⟨1, ["k".toList], "/srv".toList⟩
        (.read "/k/a".toList 16 0 (some ⟨0, 5⟩)) () = deny ()
      ↔ policyMatrix idleSys ⟨1, ["k".toList], "/srv".toList⟩
        (.read "/k/a".toList 16 0 (some ⟨0, 5⟩)) = false) :=
  ⟨by decide,
    (dispatch_follows_policy_matrix idleSys ⟨1, ["k".toList], "/srv".toList⟩
      (.read "/k/a".toList 16 0 (some ⟨0, 5⟩)) () (by decide)).1⟩

/-! ## End-to-end confinement -/

theorem docs_inside : InsideKey ["docs".toList] "/docs/notes.txt".toList :=
  ⟨"docs".toList, "notes.txt".toList, by simp, by decide⟩

theorem docs_itself_outside : ¬ InsideKey ["docs".toList] "/docs".toList := by
  rintro ⟨k, r, hk, hp⟩
  simp only [List.mem_singleton] at hk
  subst hk
  have h := congrArg List.length hp
  simp at h

theorem other_outside : ¬ InsideKey ["docs".toList] "/other/file".toList := by
  rintro ⟨k, r, hk, hp⟩
  simp only [List.mem_singleton] at hk
  subst hk
  have e1 : ("docs".toList : CStr) = 'd' :: "ocs".toList := by decide
  have e2 : ("/other/file".toList : CStr) = SEP :: 'o' :: "ther/file".toList := by decide
  rw [e1, e2] at hp
  simp only [List.cons_append, List.cons.injEq, true_and] at hp
  exact absurd hp.1 (by decide)

theorem docsMount_facts (R : CStr) :
    (docsMount R).init_over ≠ 0 ∧ (∀ k ∈ (docsMount R).key_list, SEP ∉ k) ∧
    (docsMount R).pd = R ∧ (docsMount R).key_list = ["docs".toList] := by
  refine ⟨by simp [docsMount], ?_, rfl, rfl⟩
  intro k hk
  simp only [docsMount, List.mem_singleton] at hk
  subst hk
  decide

/-- C4: with `init_over` set, separator-free keys, a NUL-free backing root
and a NUL-free path `p = '/' :: rest`, each of unlink, rmdir, chown, truncate,
open, create, read, write on `p` passes the policy exactly when
`p = '/' + k + '/' + r` for a registry entry `k`; it is then forwarded, every
path handed to a native call being exactly `pd ++ p`; otherwise it returns
`-EACCES` with no native call and the world unchanged.  With registry
`{docs}` and any NUL-free root `R`: read and write of `/docs/notes.txt` go
through on `R ++ "/docs/notes.txt"`, unlink and rmdir of `/docs` are denied,
and unlink and rmdir of `/other/file` are denied, `is_accessible` being 0. -/
theorem end_to_end_confinement {W : Type} (sys : Sys W) (g : Globals) (p rest : CStr)
    (op : Op) (w : W)
    (hinit : g.init_over ≠ 0) (hkeys : ∀ k ∈ g.key_list, k ≠ [] ∧ SEP ∉ k)
    (hp : p = SEP :: rest) (hnul : NulFree p) (hpd : NulFree g.pd)
    (hop : op.gatedOn p) (hfh : op.handleOk) :
    (policyMatrix sys g op = true ↔ InsideKey g.key_list p) ∧
    (InsideKey g.key_list p →
      (dispatch sys g op w).trace ≠ [] ∧
      (∀ c ∈ (dispatch sys g op w).trace, ∀ q ∈ c.paths, q = g.pd ++ p) ∧
      translate sys g p = g.pd ++ p) ∧
    (¬ InsideKey g.key_list p → dispatch sys g op w = deny w) ∧
    (∀ (size : Nat) (offset : Int) (fi : Option FileInfo),
      (∀ f, fi = some f → f.fh ≠ -1) →
      ((dispatch sys (docsMount g.pd) (.read "/docs/notes.txt".toList size offset fi) w).trace
          ≠ [] ∧
        ∀ c ∈ (dispatch sys (docsMount g.pd)
            (.read "/docs/notes.txt".toList size offset fi) w).trace,
          ∀ q ∈ c.paths, q = g.pd ++ "/docs/notes.txt".toList) ∧
      ((dispatch sys (docsMount g.pd) (.write "/docs/notes.txt".toList size offset fi) w).trace
          ≠ [] ∧
        ∀ c ∈ (dispatch sys (docsMount g.pd)
            (.write "/docs/notes.txt".toList size offset fi) w).trace,
          ∀ q ∈ c.paths, q = g.pd ++ "/docs/notes.txt".toList)) ∧
    dispatch sys (docsMount g.pd) (.unlink "/docs".toList) w = deny w ∧
    dispatch sys (docsMount g.pd) (.rmdir "/docs".toList) w = deny w ∧
    accessible sys (docsMount g.pd) "/other/file".toList = 0 ∧
    dispatch sys (docsMount g.pd) (.unlink "/other/file".toList) w = deny w ∧
    dispatch sys (docsMount g.pd) (.rmdir "/other/file".toList) w = deny w := by
  have hk2 : ∀ k ∈ g.key_list, SEP ∉ k := fun k hk => (hkeys k hk).2
  have hgen := gated_confined sys g p rest op w hinit hk2 hp hnul hpd hop hfh
  obtain ⟨hpol, _, _⟩ := policy_of_gated sys g p op hop
  have hgate := gate_iff_insideKey sys g p rest hinit hk2 hp hnul
  obtain ⟨hdi, hdk, hdpd, hdl⟩ := docsMount_facts g.pd
  have hdpd2 : NulFree (docsMount g.pd).pd := by rw [hdpd]; exact hpd
  refine ⟨?_, hgen.1, hgen.2, ?_, ?_, ?_, ?_, ?_, ?_⟩
  · rw [hpol, ← hgate]
    simp
  · intro size offset fi hfi
    constructor
    · have h := (gated_confined sys (docsMount g.pd) "/docs/notes.txt".toList
        "docs/notes.txt".toList (.read "/docs/notes.txt".toList size offset fi) w hdi hdk
        (by decide) (by decide) hdpd2 rfl
        (by cases fi with
            | none => trivial
            | some f => exact hfi f rfl)).1 (by rw [hdl]; exact docs_inside)
      rw [hdpd] at h
      exact ⟨h.1, h.2.1⟩
    · have h := (gated_confined sys (docsMount g.pd) "/docs/notes.txt".toList
        "docs/notes.txt".toList (.write "/docs/notes.txt".toList size offset fi) w hdi hdk
        (by decide) (by decide) hdpd2 rfl
        (by cases fi with
            | none => trivial
            | some f => exact hfi f rfl)).1 (by rw [hdl]; exact docs_inside)
      rw [hdpd] at h
      exact ⟨h.1, h.2.1⟩
  · exact (gated_confined sys (docsMount g.pd) "/docs".toList "docs".toList
      (.unlink "/docs".toList) w hdi hdk (by decide) (by decide) hdpd2 rfl trivial).2
      (by rw [hdl]; exact docs_itself_outside)
  · exact (gated_confined sys (docsMount g.pd) "/docs".toList "docs".toList
      (.rmdir "/docs".toList) w hdi hdk (by decide) (by decide) hdpd2 rfl trivial).2
      (by rw [hdl]; exact docs_itself_outside)
  · have h := accessible_long sys (docsMount g.pd) "other/file".toList hdi (by decide)
      (by decide)
    have e : ("/other/file".toList : CStr) = SEP :: "other/file".toList := by decide
    rw [e, h, hdl]
    decide
  · exact (gated_confined sys (docsMount g.pd) "/other/file".toList "other/file".toList
      (.unlink "/other/file".toList) w hdi hdk (by decide) (by decide) hdpd2 rfl trivial).2
      (by rw [hdl]; exact other_outside)
  · exact (gated_confined sys (docsMount g.pd) "/other/file".toList "other/file".toList
      (.rmdir "/other/file".toList) w hdi hdk (by decide) (by decide) hdpd2 rfl trivial).2
      (by rw [hdl]; exact other_outside)

theorem end_to_end_confinement_witness :
    (docsMount "/srv".toList).init_over ≠ 0 ∧
    (∀ k ∈ (docsMount "/srv".toList).key_list, k ≠ [] ∧ SEP ∉ k) ∧
    NulFree "/docs/notes.txt".toList ∧ NulFree (docsMount "/srv".toList).pd ∧
    (Op.read "/docs/notes.txt".toList 16 0 none).gatedOn "/docs/notes.txt".toList ∧
    (policyMatrix idleSys (docsMount "/srv".toList)
        (.read "/docs/notes.txt".toList 16 0 none) = true
      ↔ InsideKey (docsMount "/srv".toList).key_list "/docs/notes.txt".toList) ∧
    dispatch idleSys (docsMount "/srv".toList) (.unlink "/docs".toList) () = deny () :=
  ⟨by decide, by decide, by decide, by decide, rfl,
    (end_to_end_confinement idleSys (docsMount "/srv".toList) "/docs/notes.txt".toList
      "docs/notes.txt".toList (.read "/docs/notes.txt".toList 16 0 none) ()
      (by decide) (by decide) (by decide) (by decide) (by decide) rfl trivial).1,
    (end_to_end_confinement idleSys (docsMount "/srv".toList) "/docs/notes.txt".toList
      "docs/notes.txt".toList (.read "/docs/notes.txt".toList 16 0 none) ()
      (by decide) (by decide) (by decide) (by decide) (by decide) rfl trivial).2.2.2.2.1⟩

/-! ## Startup reconciliation: the stated properties -/

/-- C6 as stated fails for a registry entry that holds a separator.  With
the keys `a` and `a/b` and a backing root that holds the directory `a`, the
scan keeps `a` as a key directory, no top-level directory is called `a/b`, and
`mkdir` of `pd/a/b` makes the directory `b` inside `a`: a key directory is
changed, and a directory is created that does not lie directly under the
backing root. -/
theorem key_with_separator_changes_key_directory :
    main ILP32 "/srv".toList ["a".toList, "a/b".toList]
        (.dir [("a".toList, .dir [("keep".toList, .reg [1])])])
      = .ok ⟨some (.dir [("a".toList, .dir [("keep".toList, .reg [1]), ("b".toList, .dir [])])]),
          1, true⟩ ∧
    lookup (.dir [("a".toList, .dir [("keep".toList, .reg [1])])]) ["a".toList]
      = some (.dir [("keep".toList, .reg [1])]) ∧
    lookup (.dir [("a".toList, .dir [("keep".toList, .reg [1]), ("b".toList, .dir [])])])
        ["a".toList]
      = some (.dir [("keep".toList, .reg [1]), ("b".toList, .dir [])]) ∧
    lookup (.dir [("a".toList, .dir [("keep".toList, .reg [1])])]) ["a".toList, "b".toList]
      = none ∧
    lookup (.dir [("a".toList, .dir [("keep".toList, .reg [1]), ("b".toList, .dir [])])])
        ["a".toList, "b".toList]
      = some (.dir []) := by
  decide

/-- C6, amended: let the backing tree be well formed (within each directory
the names are legal and distinct), let no key hold a separator, and let
nothing go past the block or buffer meant for it (`WithinBuffers`: the key
pointers fit the block allocated for `key_list`, at most 100 keys, every
`pd/name` of a top-level entry or key fits `tmppath`, every path string below
a top-level directory that is not a key fits `dir_name`).  Then the
reconciliation in `main` completes (it reaches the call of `fuse_main` with
`init_over` set), and every top-level directory named by a key and every
top-level non-directory is left exactly as it was, subtree included; an entry
that existed and is gone lies at or beneath a top-level directory whose name
is not a key; an entry that did not exist and now does is an empty directory
directly under the root, named by a key. -/
theorem reconcile_frame (pf : Platform) (pd : CStr) (keys : List CStr) (root : Node)
    (hwf : wf root = true) (hsep : ∀ k ∈ keys, SEP ∉ k)
    (hbuf : WithinBuffers pf pd keys root) :
    ∃ fs2, main pf pd keys root = .ok ⟨some fs2, 1, true⟩ ∧
      (∀ k ∈ keys, ∀ cs, lookup root [k] = some (.dir cs) →
        lookup fs2 [k] = some (.dir cs)) ∧
      (∀ name x, lookup root [name] = some x → x.isDir = false →
        lookup fs2 [name] = some x) ∧
      (∀ q x, lookup root q = some x → lookup fs2 q = none →
        ∃ name rest cs, q = name :: rest ∧ name ∉ keys ∧
          lookup root [name] = some (.dir cs)) ∧
      (∀ q x, lookup root q = none → lookup fs2 q = some x →
        ∃ k ∈ keys, q = [k] ∧ x = .dir []) := by
  obtain ⟨fs2, hrun⟩ := main_completes pf pd keys root hwf hsep hbuf
  refine ⟨fs2, hrun, ?_⟩
  obtain ⟨es, rfl⟩ := main_root_dir pf pd keys root _ hrun
  have hwfl : wfL es = true := by simpa [wf] using hwf
  obtain ⟨es2, hb, _, m2, m3, m4, _, _, _, _, _⟩ := main_facts pf pd keys es _ hwfl hsep hrun
  have hfs : fs2 = .dir es2 := by
    have := congrArg Boot.fs hb
    simpa using this
  rw [hfs]
  refine ⟨?_, ?_, ?_, ?_⟩
  · intro k hk cs hl
    rw [lookup_top] at hl ⊢
    exact m2 k _ hl (Or.inr hk)
  · intro name x hl hd
    rw [lookup_top] at hl ⊢
    exact m2 name x hl (Or.inl hd)
  · intro q x hl hgone
    cases q with
    | nil => simp [lookup_nil] at hgone
    | cons name rest =>
      rw [lookup_cons] at hl hgone
      cases hc : lookupE es name with
      | none => rw [hc] at hl; simp at hl
      | some c =>
        rw [hc] at hl
        simp only [Option.some_bind] at hl
        by_cases hkeep : c.isDir = false ∨ name ∈ keys
        · rw [m2 name c hc hkeep] at hgone
          simp only [Option.some_bind] at hgone
          rw [hl] at hgone; cases hgone
        · have hd : c.isDir = true := by
            cases hcd : c.isDir with
            | true => rfl
            | false => exact absurd (Or.inl hcd) hkeep
          have hnk : name ∉ keys := fun hk => hkeep (Or.inr hk)
          cases c with
          | dir cs => exact ⟨name, rest, cs, rfl, hnk, by rw [lookup_top, hc]⟩
          | reg d => simp [Node.isDir] at hd
          | special k => simp [Node.isDir] at hd
  · intro q x hl hnew
    cases q with
    | nil => simp [lookup_nil] at hl
    | cons name rest =>
      rw [lookup_cons] at hl hnew
      cases hy : lookupE es2 name with
      | none => rw [hy] at hnew; simp at hnew
      | some y =>
        rw [hy] at hnew
        simp only [Option.some_bind] at hnew
        cases hc : lookupE es name with
        | none =>
          obtain ⟨h1, h2, _, _, _⟩ := m4 name y hc hy
          subst h1
          cases rest with
          | nil =>
            simp only [lookup_nil, Option.some.injEq] at hnew
            exact ⟨name, h2, rfl, hnew.symm⟩
          | cons r rs => simp [lookup, lookupE] at hnew
        | some c =>
          rw [hc] at hl
          simp only [Option.some_bind] at hl
          by_cases hkeep : c.isDir = false ∨ name ∈ keys
          · rw [m2 name c hc hkeep] at hy
            simp only [Option.some.injEq] at hy
            rw [hy, hnew] at hl; cases hl
          · have hd : c.isDir = true := by
              cases hcd : c.isDir with
              | true => rfl
              | false => exact absurd (Or.inl hcd) hkeep
            have hnk : name ∉ keys := fun hk => hkeep (Or.inr hk)
            obtain ⟨r, hp, hr⟩ := m3 name c hc hd hnk
            rw [hy] at hr
            have hwfc : wf c = true := (wfL_mem es hwfl (name, c) (lookupE_mem es name c hc)).2
            obtain ⟨z, hz⟩ := purge_lookup rest _ c y x hwfc (by rw [hp, hr]) hnew
            rw [hz] at hl; cases hl

theorem reconcile_frame_witness :
    wf abcRoot = true ∧ (∀ k ∈ ["a".toList, "c".toList, "d".toList], SEP ∉ k) ∧
    WithinBuffers ILP32 "/srv".toList ["a".toList, "c".toList, "d".toList] abcRoot ∧
    main ILP32 "/srv".toList ["a".toList, "c".toList, "d".toList] abcRoot
      = .ok ⟨some (.dir [("a".toList, .dir [("keep".toList, .reg [1])]), ("c".toList, .dir []),
          ("note".toList, .reg [3]), ("d".toList, .dir [])]), 1, true⟩ ∧
    (∃ fs2, main ILP32 "/srv".toList ["a".toList, "c".toList, "d".toList] abcRoot
        = .ok ⟨some fs2, 1, true⟩ ∧
      (∀ k ∈ ["a".toList, "c".toList, "d".toList], ∀ cs, lookup abcRoot [k] = some (.dir cs) →
        lookup fs2 [k] = some (.dir cs)) ∧
      (∀ name x, lookup abcRoot [name] = some x → x.isDir = false →
        lookup fs2 [name] = some x) ∧
      (∀ q x, lookup abcRoot q = some x → lookup fs2 q = none →
        ∃ name rest cs, q = name :: rest ∧ name ∉ ["a".toList, "c".toList, "d".toList] ∧
          lookup abcRoot [name] = some (.dir cs)) ∧
      (∀ q x, lookup abcRoot q = none → lookup fs2 q = some x →
        ∃ k ∈ ["a".toList, "c".toList, "d".toList], q = [k] ∧ x = .dir [])) :=
  ⟨by decide, by decide, by decide, by decide,
    reconcile_frame ILP32 "/srv".toList ["a".toList, "c".toList, "d".toList] abcRoot
      (by decide) (by decide) (by decide)⟩

/-- C7 fails where pointers are wider than `int`: `main` allocates
`sizeof(int) * key_count + 1` bytes for `key_list` and stores `key_count`
pointers in it.  With eight-byte pointers and the five keys `a`, `c`, `d`,
`e`, `f` the block has 21 bytes and the stores need 40: the run is not
defined from the first store on (already a single key needs 8 bytes of a
block of 5), so there is no state of a first run for a second run to
reproduce.  With four-byte pointers the same command line is defined, and a
second run leaves the tree of the first as it is. -/
theorem reconcile_overruns_key_list :
    main LP64 "/srv".toList ["a".toList, "c".toList, "d".toList, "e".toList, "f".toList] abcRoot
      = .undefined ∧
    main LP64 "/srv".toList ["a".toList] abcRoot = .undefined ∧
    main ILP32 "/srv".toList ["a".toList, "c".toList, "d".toList, "e".toList, "f".toList]
        abcRoot
      = .ok ⟨some (.dir [("a".toList, .dir [("keep".toList, .reg [1])]), ("c".toList, .dir []),
          ("note".toList, .reg [3]), ("d".toList, .dir []), ("e".toList, .dir []),
          ("f".toList, .dir [])]), 1, true⟩ ∧
    main ILP32 "/srv".toList ["a".toList, "c".toList, "d".toList, "e".toList, "f".toList]
        (.dir [("a".toList, .dir [("keep".toList, .reg [1])]), ("c".toList, .dir []),
          ("note".toList, .reg [3]), ("d".toList, .dir []), ("e".toList, .dir []),
          ("f".toList, .dir [])])
      = .ok ⟨some (.dir [("a".toList, .dir [("keep".toList, .reg [1])]), ("c".toList, .dir []),
          ("note".toList, .reg [3]), ("d".toList, .dir []), ("e".toList, .dir []),
          ("f".toList, .dir [])]), 1, true⟩ := by
  decide

theorem topDirNames_mem (es : Entries) (hwf : wfL es = true) (name : CStr) :
    name ∈ topDirNames (.dir es) ↔ ∃ cs, lookupE es name = some (.dir cs) := by
  unfold topDirNames
  simp only [List.mem_map, List.mem_filter]
  constructor
  · rintro ⟨e, ⟨he, hd⟩, hn⟩
    obtain ⟨n, c⟩ := e
    simp only at hn hd
    subst hn
    have hl := wfL_lookupE_of_mem es hwf n c he
    cases c with
    | dir cs => exact ⟨cs, hl⟩
    | reg d => simp [Node.isDir] at hd
    | special k => simp [Node.isDir] at hd
  · rintro ⟨cs, hl⟩
    exact ⟨(name, .dir cs), ⟨lookupE_mem es name _ hl, rfl⟩, rfl⟩

/-- C5 as stated fails in four ways.  A top-level directory that is not a key
but holds a symbolic link stays (`remove_dir` leaves the link, so `rmdir`
fails); a key whose name is borne by a regular file gets no directory (`mkdir`
fails and nothing checks it); the key `.` gets no directory; a key of 300
letters gets no directory (`mkdir` fails, the name is longer than
`NAME_MAX`).  In each case the run completes and the top-level directory names
are not the registry. -/
theorem reconcile_dirs_differ_from_keys :
    (main LP64 "/srv".toList []
        (.dir [("b".toList, .dir [("l".toList, .special (.symlink true)), ("f".toList, .reg [])])])
      = .ok ⟨some (.dir [("b".toList, .dir [("l".toList, .special (.symlink true))])]), 1, true⟩ ∧
      ¬ sameNames
        (topDirNames (.dir [("b".toList, .dir [("l".toList, .special (.symlink true))])])) []) ∧
    (main ILP32 "/srv".toList ["x".toList] (.dir [("x".toList, .reg [])])
      = .ok ⟨some (.dir [("x".toList, .reg [])]), 1, true⟩ ∧
      ¬ sameNames (topDirNames (.dir [("x".toList, .reg [])])) ["x".toList]) ∧
    (main ILP32 "/srv".toList [DOT] (.dir []) = .ok ⟨some (.dir []), 1, true⟩ ∧
      ¬ sameNames (topDirNames (.dir [])) [DOT]) ∧
    (main ILP32 "/srv".toList [longName 300] (.dir []) = .ok ⟨some (.dir []), 1, true⟩ ∧
      ¬ sameNames (topDirNames (.dir [])) [longName 300]) := by
  refine ⟨by decide, by decide, by decide, ?_, ?_⟩
  · have hlenAll : ∀ n, (longName n).length = n := fun n => by simp [longName]
    have hlen : (longName 300).length = 300 := hlenAll 300
    have hsep : SEP ∉ longName 300 := by
      intro h
      have := List.eq_of_mem_replicate h
      revert this
      decide
    rw [main_unfold ILP32 _ _ [] rfl, if_pos (by decide)]
    have hs : scanSpec "/srv".toList [longName 300] [] (List.replicate KEY_CHECK_SIZE 0)
        = .ok ([], List.replicate KEY_CHECK_SIZE 0) := rfl
    rw [hs]
    simp only []
    have hc : main_create "/srv".toList [longName 300] 0 (List.replicate KEY_CHECK_SIZE 0)
        (some (.dir [])) = .ok (some (.dir [])) := by
      unfold main_create
      have h0 : (List.replicate KEY_CHECK_SIZE (0 : Int))[0]? = some 0 := by decide
      rw [h0]
      simp only []
      rw [if_pos trivial, sprintf_path_fit, hlen, if_pos (by decide)]
      simp only []
      rw [mkdir_state_bare [] _ hsep, hlen,
        if_neg (by intro h; exact absurd h.2.1 (by decide))]
      rfl
    rw [hc]
  · intro h
    exact absurd (h.2 (List.mem_singleton_self _)) (by simp [topDirNames])

/-- C5, amended: let the backing tree be well formed (within each directory
the names are legal and distinct); let the keys be legal entry names
(non-empty, separator-free, not `.` or `..`) of at most 255 bytes; let nothing
go past the block or buffer meant for it (`WithinBuffers`: the key pointers
fit the block allocated for `key_list`, at most 100 keys, every `pd/name` of a
top-level entry or key fits `tmppath`, every path string below a top-level
directory that is not a key fits `dir_name`); let every top-level directory
that is not a key consist of directories and regular files only, and let no
top-level non-directory bear a key name.  Then the reconciliation in `main`
completes (it reaches the call of `fuse_main` with `init_over` set), and
afterwards the names of the directories directly under the
backing root are exactly the keys: a top-level directory that was not a key is
gone with everything beneath it, a key that had no entry has a new empty
directory, and a key that had a directory keeps it unchanged. -/
theorem reconcile_dirs_are_keys (pf : Platform) (pd : CStr) (keys : List CStr) (es : Entries)
    (hwf : wf (.dir es) = true)
    (hlegal : ∀ k ∈ keys, legalName k = true)
    (hshort : ∀ k ∈ keys, k.length ≤ NAME_MAX)
    (hbuf : WithinBuffers pf pd keys (.dir es))
    (hplain : ∀ e ∈ es, e.2.isDir = true → e.1 ∉ keys → plain e.2 = true)
    (hfree : ∀ e ∈ es, e.1 ∈ keys → e.2.isDir = true) :
    ∃ fs2, main pf pd keys (.dir es) = .ok ⟨some fs2, 1, true⟩ ∧
      sameNames (topDirNames fs2) keys ∧
      (∀ name cs, lookup (.dir es) [name] = some (.dir cs) → name ∉ keys →
        ∀ q, lookup fs2 (name :: q) = none) ∧
      (∀ k ∈ keys, lookup (.dir es) [k] = none → lookup fs2 [k] = some (.dir [])) ∧
      (∀ k ∈ keys, ∀ cs, lookup (.dir es) [k] = some (.dir cs) →
        lookup fs2 [k] = some (.dir cs)) := by
  have hwfl : wfL es = true := by simpa [wf] using hwf
  obtain ⟨hkl, hcount, hfitE, hfitK, hfits⟩ := hbuf
  have hgone : ∀ e ∈ es, e.2.isDir = true → e.1 ∉ keys →
      purge (pd.length + 1 + e.1.length) e.2 = .ok none :=
    fun e he hd hnk => purge_plain _ e.2 (hplain e he hd hnk) (hfits e he hd hnk)
  obtain ⟨out, ho, _⟩ := scanSpec_runs pd keys es (List.replicate KEY_CHECK_SIZE 0)
    (by simpa using hcount) hfitE (fun e he hd hnk => ⟨none, hgone e he hd hnk⟩)
  have hlen : out.2.length = KEY_CHECK_SIZE := by
    have := (scanSpec_facts pd keys es _ out hwfl ho).2.1
    simpa using this
  have hsep : ∀ k ∈ keys, SEP ∉ k := fun k hk => legalName_sep k (hlegal k hk)
  obtain ⟨fs2, hc, _⟩ := main_create_runs pd keys 0 out.2 out.1 hsep (by omega) hfitK
  have hrun : main pf pd keys (.dir es) = .ok ⟨some fs2, 1, true⟩ := by
    rw [main_unfold pf pd keys es hwfl, if_pos hkl, ho]
    simp only []
    rw [hc]
  obtain ⟨es2, hb, m1, m2, m3, m4, m5, _, _, _, _⟩ := main_facts pf pd keys es _ hwfl hsep hrun
  have hfs : fs2 = .dir es2 := by
    have := congrArg Boot.fs hb
    simpa using this
  refine ⟨fs2, hrun, ?_, ?_, ?_, ?_⟩
  · simp only [hfs]
    constructor
    · intro name hn
      obtain ⟨cs, hl⟩ := (topDirNames_mem es2 m1 name).mp hn
      cases hcn : lookupE es name with
      | none => exact (m4 name _ hcn hl).2.1
      | some c =>
        by_contra hnk
        by_cases hcd : c.isDir = true
        · obtain ⟨r, hp, hr⟩ := m3 name c hcn hcd hnk
          have := hgone (name, c) (lookupE_mem es name c hcn) hcd hnk
          simp only [] at this
          rw [this] at hp
          simp only [Res.ok.injEq] at hp
          rw [← hp, hl] at hr
          cases hr
        · have hcd2 : c.isDir = false := by simpa using hcd
          have := m2 name c hcn (Or.inl hcd2)
          rw [hl] at this
          simp only [Option.some.injEq] at this
          rw [← this] at hcd2
          simp [Node.isDir] at hcd2
    · intro k hk
      apply (topDirNames_mem es2 m1 k).mpr
      cases hy : lookupE es2 k with
      | none => exact absurd hy (m5 k hk (hlegal k hk) (hshort k hk))
      | some y =>
        cases hcn : lookupE es k with
        | none =>
          have := (m4 k y hcn hy).1
          exact ⟨[], by rw [this]⟩
        | some c =>
          have h2 := m2 k c hcn (Or.inr hk)
          rw [hy] at h2
          simp only [Option.some.injEq] at h2
          have hd := hfree (k, c) (lookupE_mem es k c hcn) hk
          simp only [] at hd
          subst h2
          cases y with
          | dir cs => exact ⟨cs, rfl⟩
          | reg d => simp [Node.isDir] at hd
          | special s => simp [Node.isDir] at hd
  · intro name cs hl hnk q
    simp only [hfs]
    rw [lookup_top] at hl
    obtain ⟨r, hp, hr⟩ := m3 name _ hl rfl hnk
    have := hgone (name, .dir cs) (lookupE_mem es name _ hl) rfl hnk
    simp only [] at this
    rw [this] at hp
    simp only [Res.ok.injEq] at hp
    rw [lookup_cons, hr, ← hp]
    rfl
  · intro k hk hl
    simp only [hfs]
    rw [lookup_top] at hl ⊢
    cases hy : lookupE es2 k with
    | none => exact absurd hy (m5 k hk (hlegal k hk) (hshort k hk))
    | some y => rw [(m4 k y hl hy).1]
  · intro k hk cs hl
    simp only [hfs]
    rw [lookup_top] at hl ⊢
    exact m2 k _ hl (Or.inr hk)

theorem reconcile_dirs_are_keys_witness :
    wf abcRoot = true ∧
    (∀ k ∈ ["a".toList, "c".toList], legalName k = true) ∧
    (∀ k ∈ ["a".toList, "c".toList], k.length ≤ NAME_MAX) ∧
    WithinBuffers ILP32 "/srv".toList ["a".toList, "c".toList] abcRoot ∧
    (∃ fs2, main ILP32 "/srv".toList ["a".toList, "c".toList] abcRoot
        = .ok ⟨some fs2, 1, true⟩ ∧
      sameNames (topDirNames fs2) ["a".toList, "c".toList] ∧
      (∀ name cs, lookup abcRoot [name] = some (.dir cs) → name ∉ ["a".toList, "c".toList] →
        ∀ q, lookup fs2 (name :: q) = none) ∧
      (∀ k ∈ ["a".toList, "c".toList], lookup abcRoot [k] = none →
        lookup fs2 [k] = some (.dir [])) ∧
      (∀ k ∈ ["a".toList, "c".toList], ∀ cs, lookup abcRoot [k] = some (.dir cs) →
        lookup fs2 [k] = some (.dir cs))) ∧
    main ILP32 "/srv".toList ["a".toList, "c".toList] abcRoot
      = .ok ⟨some (.dir [("a".toList, .dir [("keep".toList, .reg [1])]), ("c".toList, .dir []),
          ("note".toList, .reg [3])]), 1, true⟩ ∧
    main ILP32 "/srv".toList ["x".toList, "y".toList] (.dir [])
      = .ok ⟨some (.dir [("x".toList, .dir []), ("y".toList, .dir [])]), 1, true⟩ :=
  ⟨by decide, by decide, by decide, by decide,
    reconcile_dirs_are_keys ILP32 "/srv".toList ["a".toList, "c".toList] _
      (by decide) (by decide) (by decide) (by decide) (by decide) (by decide),
    by decide, by decide⟩

/-- C8 as stated fails: with key `x` and a regular file `x` under the backing
root, `mkdir` of `pd/x` fails, yet `main` goes on, sets `init_over` and starts
the dispatcher, and no directory `x` exists. -/
theorem mkdir_failure_not_fatal :
    nat_mkdir (.dir [("x".toList, .reg [])]) "x".toList
      = some (-1, .dir [("x".toList, .reg [])]) ∧
    main ILP32 "/srv".toList ["x".toList] (.dir [("x".toList, .reg [])])
      = .ok ⟨some (.dir [("x".toList, .reg [])]), 1, true⟩ ∧
    lookup (.dir [("x".toList, .reg [])]) ["x".toList] = some (.reg []) := by
  decide

/-- C8, amended: `main` does not look at the result of `mkdir`.  For a well
formed backing tree (within each directory the names are legal and distinct)
and any registry: the run is never cut short by the recursion bound of the
model; it reaches the call of `fuse_main` when nothing goes past the block or
buffer meant for it (`WithinBuffers`); and whenever it reaches the call of
`fuse_main`, `init_over` is 1 and the dispatcher is started, whether or not
every `mkdir` succeeded.  The backing tree is then known when no key holds a
separator, and as far as it is known, a key has a directory directly under the
backing root when it is a legal entry name (non-empty, separator-free, not `.`
or `..`) of at most 255 bytes and no non-directory of that name lay under the
backing root. -/
theorem startup_ignores_mkdir_result (pf : Platform) (pd : CStr) (keys : List CStr)
    (root : Node) (hwf : wf root = true) :
    main pf pd keys root ≠ .nofuel ∧
    (WithinBuffers pf pd keys root → ∃ b, main pf pd keys root = .ok b) ∧
    (∀ b, main pf pd keys root = .ok b →
      b.init_over = 1 ∧ b.served = true ∧
      ((∀ k ∈ keys, SEP ∉ k) → ∃ t, b.fs = some t) ∧
      (∀ t, b.fs = some t →
        ∀ k ∈ keys, legalName k = true → k.length ≤ NAME_MAX →
          (∀ x, lookup root [k] = some x → x.isDir = true) →
          ∃ cs, lookup t [k] = some (.dir cs))) := by
  refine ⟨main_ne_nofuel pf pd keys root hwf, main_defined pf pd keys root hwf, ?_⟩
  intro b hrun
  obtain ⟨es, rfl⟩ := main_root_dir pf pd keys root _ hrun
  have hwfl : wfL es = true := by simpa [wf] using hwf
  obtain ⟨h1, h2, hk⟩ := main_kinds pf pd keys es b hwfl hrun
  refine ⟨h1, h2, ?_, ?_⟩
  · intro hsep
    obtain ⟨es2, hb, _⟩ := main_facts pf pd keys es b hwfl hsep hrun
    exact ⟨.dir es2, by rw [hb]⟩
  · intro t ht k hkm hleg hlen hno
    obtain ⟨es2, he, hall⟩ := hk t ht
    subst he
    simp only [lookup_top] at hno ⊢
    exact hall k hkm hleg hlen hno

theorem startup_ignores_mkdir_result_witness :
    wf (.dir [("x".toList, .reg [])]) = true ∧
    main ILP32 "/srv".toList ["x".toList, "y".toList, "y/z".toList]
        (.dir [("x".toList, .reg [])])
      = .ok ⟨some (.dir [("x".toList, .reg []), ("y".toList, .dir [("z".toList, .dir [])])]),
          1, true⟩ ∧
    (∀ k ∈ ["x".toList, "y".toList, "y/z".toList], legalName k = true → k.length ≤ NAME_MAX →
      (∀ x, lookup (.dir [("x".toList, .reg [])]) [k] = some x → x.isDir = true) →
      ∃ cs, lookup (Node.dir [("x".toList, .reg []),
          ("y".toList, .dir [("z".toList, .dir [])])]) [k] = some (.dir cs)) :=
  ⟨by decide, by decide,
    ((startup_ignores_mkdir_result ILP32 "/srv".toList
      ["x".toList, "y".toList, "y/z".toList] (.dir [("x".toList, .reg [])]) (by decide)).2.2
      ⟨some (.dir [("x".toList, .reg []), ("y".toList, .dir [("z".toList, .dir [])])]), 1, true⟩
      (by decide)).2.2.2 _ rfl⟩

/-- C10 fails on long paths: `remove_dir` builds each child path with
`sprintf` into `char dir_name[128]`.  For the directory `/srv/aaa…a` (200
letters) holding a regular file `f`, the child string has 207 characters: the
write runs far past the buffer and nothing is defined from there, whatever
the recursion bound.  The limit is sharp: with 121 letters the child string
needs 129 bytes and overruns, with 120 letters the directory is removed with
its file. -/
theorem remove_dir_overruns_dir_name (fuel : Nat) :
    remove_dir "/srv".toList (fuel + 2)
        (.dir [(longName 200, .dir [("f".toList, .reg [])])]) [longName 200]
      = .undefined ∧
    remove_dir "/srv".toList (fuel + 2)
        (.dir [(longName 121, .dir [("f".toList, .reg [])])]) [longName 121]
      = .undefined ∧
    remove_dir "/srv".toList (fuel + 2)
        (.dir [(longName 120, .dir [("f".toList, .reg [])])]) [longName 120]
      = .ok (0, .dir []) := by
  have hlen : ∀ n, (longName n).length = n := fun n => by simp [longName]
  have hsrv : ("/srv".toList : CStr).length = 4 := by decide
  have hwf : wf (.dir [("f".toList, .reg [])]) = true := by decide
  have hdep : depth (.dir [("f".toList, .reg [])]) < fuel + 2 := by simp [depth, depthL]
  refine ⟨?_, ?_, ?_⟩
  · rw [remove_dir_top (fuel + 2) _ _ (longName 200) _ (by simp [lookupE]) hwf hdep,
      hlen, hsrv]
    have : purge (4 + 1 + 200) (.dir [("f".toList, .reg [])]) = .undefined := by decide
    rw [this]; rfl
  · rw [remove_dir_top (fuel + 2) _ _ (longName 121) _ (by simp [lookupE]) hwf hdep,
      hlen, hsrv]
    have : purge (4 + 1 + 121) (.dir [("f".toList, .reg [])]) = .undefined := by decide
    rw [this]; rfl
  · rw [remove_dir_top (fuel + 2) _ _ (longName 120) _ (by simp [lookupE]) hwf hdep,
      hlen, hsrv]
    have : purge (4 + 1 + 120) (.dir [("f".toList, .reg [])]) = .ok none := by decide
    rw [this]
    simp [Res.map, setEntry]

end FuseCloudDisk
